import Mathlib

/-!
Verification of the spAlgo shortest-path engine: a shallow embedding of the
Rust sources (dijkstra.rs, dimacs.rs, pairing_heap.rs, implicit_heaps.rs,
all_pairs.rs) and proofs about the embedded definitions.

Conventions of the embedding:
* `u32` values are natural numbers; wrapping 32-bit addition (release-mode
  semantics of Rust `+` on `u32`) is `add32 a b = (a + b) % U32LIM`.
* `Vertex` ids are naturals; the Rust `Vertex(u32)` newtype is erased.
* Rust `HashMap` meta tables become functions `Nat → Option _`.
* Rust panics (`unwrap` on `None`, index out of bounds, integer underflow in
  debug builds) are modelled as `none` results.
* Unbounded `while` loops become structurally recursive functions with an
  explicit fuel argument; fuel sufficiency is proved where a claim needs it.
-/

/-- 2^32, the modulus of u32 arithmetic. -/
def U32LIM : ℕ := 4294967296

/-- u32::MAX. -/
def u32max : ℕ := 4294967295

/-- Wrapping u32 addition, the release-mode meaning of `a + b` on u32. -/
def add32 (a b : ℕ) : ℕ := (a + b) % U32LIM

theorem add32_eq_of_lt {a b : ℕ} (h : a + b < U32LIM) : add32 a b = a + b :=
  Nat.mod_eq_of_lt h

theorem add32_lt (a b : ℕ) : add32 a b < U32LIM :=
  Nat.mod_lt _ (by norm_num [U32LIM])

/-- The sentinel vertex id `UNDEFINED = Vertex(0)` from dimacs.rs. -/
def UNDEFINED : ℕ := 0

/-- Embedding of `impl From<Vertex> for usize` from dimacs.rs: the slot of a
vertex is `v - 1` computed on the unsigned id.  For `v = 0` the subtraction
underflows; `none` models the resulting panic (debug builds abort; release
builds wrap to `usize::MAX` and the subsequent indexing goes out of bounds). -/
def usizeFromVertex (v : ℕ) : Option ℕ :=
  if v = 0 then none else some (v - 1)

/-- Embedding of `Neighbor` from dijkstra.rs (field `to` renamed to `dst`: `to` is a Lean keyword). -/
structure Neighbor where
  dst : ℕ
  weight : ℕ
deriving DecidableEq, Repr

/-- Embedding of `Edge` from dimacs.rs (fields `from`, `to` renamed to `src`, `dst`: Lean keywords). -/
structure Edge where
  src : ℕ
  dst : ℕ
  weight : ℕ
deriving DecidableEq, Repr

/-- Embedding of `NeighborList = Vec<Vec<Neighbor>>` from dijkstra.rs. -/
abbrev NeighborList : Type := List (List Neighbor)

/-- Embedding of `StructuredEdges::new` for `NeighborList`: `n` empty buckets,
then each edge `(u, v, w)` appends `(v, w)` to bucket `slot u = u - 1`. -/
def buildNL (n : ℕ) (edges : List Edge) : NeighborList :=
  edges.foldl
    (fun g e =>
      g.modify (fun l => l ++ [{ dst := e.dst, weight := e.weight }]) (e.src - 1))
    (List.replicate n ([] : List Neighbor))

/-- Embedding of `NeighborList::get_neighbors`: index bucket `slot u`.
Total version used by the driver; out-of-range access yields `[]` (the driver
is only run on well-formed graphs, where the access is in range). -/
def get_neighbors (g : NeighborList) (u : ℕ) : List Neighbor :=
  g.getD (u - 1) []

/-- Panic-aware version of `get_neighbors`, recording that the slot conversion
underflows on the sentinel vertex 0 and that out-of-range slots panic. -/
def get_neighborsP (g : NeighborList) (u : ℕ) : Option (List Neighbor) :=
  match usizeFromVertex u with
  | none => none
  | some i => g.get? i

/-- Embedding of `DicirectionalList` from dijkstra.rs. -/
structure DicirectionalList where
  forward : NeighborList
  backward : NeighborList

/-- Embedding of `DicirectionalList::new`: build the forward graph from the
edges and the backward graph from the edges with `from` and `to` swapped. -/
def buildBi (n : ℕ) (edges : List Edge) : DicirectionalList :=
  { forward := buildNL n edges
    backward := buildNL n
      (edges.map (fun e => { src := e.dst, dst := e.src, weight := e.weight })) }

/-- Embedding of `Route` from dimacs.rs: the vertex stack produced by
`get_path`, target first and source last (display reverses it). -/
abbrev Route : Type := List ℕ

/-- Embedding of `Route::reverse`: pop the last element, then reverse. -/
def Route.rev (r : Route) : Route := (r.dropLast).reverse

/-- Embedding of `Route::join`: append the other route. -/
def Route.join (r other : Route) : Route := r ++ other

/-- Finite-map update, modelling `HashMap::insert` (and in-place entry
mutation) for the meta tables of the shells. -/
def mupd {α : Type} (m : ℕ → Option α) (k : ℕ) (v : α) : ℕ → Option α :=
  fun x => if x = k then some v else m x

/-- Abstract interface of the `PriorityQueue` trait of dijkstra.rs
(`From<Vertex>`, `push`, `pop`; `is_empty` unused by the driver).  `size` is a
modelling device: a bound on the number of stored items, used as fuel for the
source's unbounded pop loops. -/
structure PQImpl (σ : Type) where
  fromV : ℕ → σ
  push : ℕ → ℕ → σ → σ
  pop : σ → Option ((ℕ × ℕ) × σ)
  size : σ → ℕ

/-- Embedding of the `NoLookup` search shell of dijkstra.rs: a queue plus
meta `vertex ↦ (Option settled_key, prev)`. -/
structure NoLookupSt (σ : Type) where
  queue : σ
  meta : ℕ → Option (Option ℕ × ℕ)

/-- Embedding of `From<(Vertex, usize)> for NoLookup` (the `usize` is only a
capacity hint in the source and is dropped here). -/
def NoLookupSt.init {σ : Type} (Q : PQImpl σ) (source : ℕ) : NoLookupSt σ :=
  { queue := Q.fromV source
    meta := mupd (fun _ => none) source (none, source) }

/-- Embedding of `NoLookup::explore`: always push `alt = key + w`; then insert
meta `(None, from)` if absent, overwrite `prev` if present and unsettled,
do nothing if settled. -/
def NoLookupSt.explore {σ : Type} (Q : PQImpl σ) (st : NoLookupSt σ)
    (fro key : ℕ) (e : Neighbor) : NoLookupSt σ :=
  let alt := add32 key e.weight
  let q := Q.push alt e.dst st.queue
  match st.meta e.dst with
  | none => { queue := q, meta := mupd st.meta e.dst (none, fro) }
  | some (none, _) => { queue := q, meta := mupd st.meta e.dst (none, fro) }
  | some (some _, _) => { queue := q, meta := st.meta }

/-- The pop loop of `NoLookup::pop_min`: pop; skip items whose vertex is
already settled; otherwise record the settled key and return.  A popped vertex
with no meta entry models the source's `.unwrap()` panic (`none`). -/
def nlPopLoop {σ : Type} (Q : PQImpl σ) :
    ℕ → σ → (ℕ → Option (Option ℕ × ℕ)) → Option ((ℕ × ℕ) × NoLookupSt σ)
  | 0, _, _ => none
  | fuel + 1, q, meta =>
    match Q.pop q with
    | none => none
    | some ((k, v), q2) =>
      match meta v with
      | none => none
      | some (some _, _) => nlPopLoop Q fuel q2 meta
      | some (none, p) =>
        some ((k, v), { queue := q2, meta := mupd meta v (some k, p) })

/-- Embedding of `NoLookup::pop_min` (fuel: one more than the queue size). -/
def NoLookupSt.pop_min {σ : Type} (Q : PQImpl σ) (st : NoLookupSt σ) :
    Option ((ℕ × ℕ) × NoLookupSt σ) :=
  nlPopLoop Q (Q.size st.queue + 1) st.queue st.meta

/-- Embedding of `NoLookup::get_meta`: only settled vertices are reported. -/
def NoLookupSt.get_meta {σ : Type} (st : NoLookupSt σ) (target : ℕ) :
    Option (ℕ × ℕ) :=
  match st.meta target with
  | some (some d, p) => some (d, p)
  | _ => none

/-- Abstract interface of the `DecreaseKey` trait of dijkstra.rs: a
`PriorityQueue` whose `push` returns a handle (`RefType`) and that supports
`decrease_key`; `refFromV` embeds `RefType::From<Vertex>`. -/
structure DKImpl (σ ρ : Type) where
  fromV : ℕ → σ
  refFromV : ℕ → ρ
  push : ℕ → ℕ → σ → ρ × σ
  pop : σ → Option ((ℕ × ℕ) × σ)
  decrease_key : ρ → ℕ → σ → σ

/-- Embedding of the `Search` shell of dijkstra.rs: a queue plus meta
`vertex ↦ (handle, dist, prev)`. -/
structure SearchSt (σ ρ : Type) where
  queue : σ
  meta : ℕ → Option (ρ × ℕ × ℕ)

/-- Embedding of `From<(Vertex, usize)> for Search`: the initial meta entry of
the source holds the handle `RefType::from(source)` (which, notably, is not
the handle of the item sitting in the queue). -/
def SearchSt.init {σ ρ : Type} (Q : DKImpl σ ρ) (source : ℕ) : SearchSt σ ρ :=
  { queue := Q.fromV source
    meta := mupd (fun _ => none) source (Q.refFromV source, 0, source) }

/-- Embedding of `Search::explore`: on an occupied entry decrease the key via
the stored handle when `alt < dist`; on a vacant entry push and record the
returned handle. -/
def SearchSt.explore {σ ρ : Type} (Q : DKImpl σ ρ) (st : SearchSt σ ρ)
    (fro key : ℕ) (e : Neighbor) : SearchSt σ ρ :=
  let alt := add32 key e.weight
  match st.meta e.dst with
  | some (link, dist, _) =>
    if alt < dist then
      { queue := Q.decrease_key link alt st.queue
        meta := mupd st.meta e.dst (link, alt, fro) }
    else st
  | none =>
    let pr := Q.push alt e.dst st.queue
    { queue := pr.2, meta := mupd st.meta e.dst (pr.1, alt, fro) }

/-- Embedding of `Search::pop_min`: forwards to `queue.pop`; the meta table is
left untouched. -/
def SearchSt.pop_min {σ ρ : Type} (Q : DKImpl σ ρ) (st : SearchSt σ ρ) :
    Option ((ℕ × ℕ) × SearchSt σ ρ) :=
  (Q.pop st.queue).map (fun x => (x.1, { queue := x.2, meta := st.meta }))

/-- Embedding of `Search::get_meta`: project `(dist, prev)` from the entry. -/
def SearchSt.get_meta {σ ρ : Type} (st : SearchSt σ ρ) (target : ℕ) :
    Option (ℕ × ℕ) :=
  (st.meta target).map (fun x => (x.2.1, x.2.2))

/-- Embedding of the `OwnedLookup` shell of dijkstra.rs: a queue plus meta
`vertex ↦ (dist, prev)`; the queue owns its own vertex lookup. -/
structure OwnedSt (σ : Type) where
  queue : σ
  meta : ℕ → Option (ℕ × ℕ)

/-- Embedding of `From<(Vertex, usize)> for OwnedLookup`. -/
def OwnedSt.init {σ ρ : Type} (Q : DKImpl σ ρ) (source : ℕ) : OwnedSt σ :=
  { queue := Q.fromV source
    meta := mupd (fun _ => none) source (0, source) }

/-- Embedding of `OwnedLookup::explore`: on an occupied entry call
`decrease_key(e.to.into(), alt)` when `alt < dist`; on a vacant entry push. -/
def OwnedSt.explore {σ ρ : Type} (Q : DKImpl σ ρ) (st : OwnedSt σ)
    (fro key : ℕ) (e : Neighbor) : OwnedSt σ :=
  let alt := add32 key e.weight
  match st.meta e.dst with
  | some (dist, _) =>
    if alt < dist then
      { queue := Q.decrease_key (Q.refFromV e.dst) alt st.queue
        meta := mupd st.meta e.dst (alt, fro) }
    else st
  | none =>
    { queue := (Q.push alt e.dst st.queue).2
      meta := mupd st.meta e.dst (alt, fro) }

/-- Embedding of `OwnedLookup::pop_min`: forwards to `queue.pop`. -/
def OwnedSt.pop_min {σ ρ : Type} (Q : DKImpl σ ρ) (st : OwnedSt σ) :
    Option ((ℕ × ℕ) × OwnedSt σ) :=
  (Q.pop st.queue).map (fun x => (x.1, { queue := x.2, meta := st.meta }))

/-- Embedding of `OwnedLookup::get_meta`. -/
def OwnedSt.get_meta {σ : Type} (st : OwnedSt σ) (target : ℕ) :
    Option (ℕ × ℕ) :=
  st.meta target

/-- A value of the `Dijkstra` trait of dijkstra.rs: the three operations the
driver uses, for a shell-state type `τ`. -/
structure Shell (τ : Type) where
  explore : τ → ℕ → ℕ → Neighbor → τ
  pop_min : τ → Option ((ℕ × ℕ) × τ)
  get_meta : τ → ℕ → Option (ℕ × ℕ)

/-- The `NoLookup` shell over a queue implementation, as a `Shell`. -/
def nlShell {σ : Type} (Q : PQImpl σ) : Shell (NoLookupSt σ) :=
  { explore := fun st fro key e => NoLookupSt.explore Q st fro key e
    pop_min := fun st => NoLookupSt.pop_min Q st
    get_meta := fun st t => NoLookupSt.get_meta st t }

/-- The `Search` shell over a `DecreaseKey` queue, as a `Shell`. -/
def searchShell {σ ρ : Type} (Q : DKImpl σ ρ) : Shell (SearchSt σ ρ) :=
  { explore := fun st fro key e => SearchSt.explore Q st fro key e
    pop_min := fun st => SearchSt.pop_min Q st
    get_meta := fun st t => SearchSt.get_meta st t }

/-- The `OwnedLookup` shell over a `DecreaseKey` queue, as a `Shell`. -/
def ownedShell {σ ρ : Type} (Q : DKImpl σ ρ) : Shell (OwnedSt σ) :=
  { explore := fun st fro key e => OwnedSt.explore Q st fro key e
    pop_min := fun st => OwnedSt.pop_min Q st
    get_meta := fun st t => OwnedSt.get_meta st t }

/-- Embedding of the default trait method `Dijkstra::get_dist`. -/
def Shell.get_dist {τ : Type} (S : Shell τ) (st : τ) (target : ℕ) : Option ℕ :=
  (S.get_meta st target).map (fun x => x.1)

/-- Loop of the default trait method `Dijkstra::get_path`: push the head, then
follow `prev` until `head = prev` (success) or a missing entry (`None`).
Fuel bounds the source's unbounded `while let`. -/
def Shell.get_pathF {τ : Type} (S : Shell τ) (st : τ) :
    ℕ → ℕ → Route → Option Route
  | 0, _, _ => none
  | fuel + 1, head, acc =>
    match S.get_meta st head with
    | none => none
    | some (_, p) =>
      if head = p then some (acc ++ [head])
      else S.get_pathF st fuel p (acc ++ [head])

/-- Embedding of `Dijkstra::get_path`. -/
def Shell.get_path {τ : Type} (S : Shell τ) (fuel : ℕ) (st : τ) (target : ℕ) :
    Option Route :=
  S.get_pathF st fuel target []

/-- One driver iteration body: explore every neighbor of the popped vertex. -/
def exploreAll {τ : Type} (S : Shell τ) (g : NeighborList) (u dist : ℕ)
    (st : τ) : τ :=
  (get_neighbors g u).foldl (fun s e => S.explore s u dist e) st

/-- The `sssp` driver loop of dijkstra.rs, with fuel and an emission trace
(the list of pairs returned by `pop_min`, in order). -/
def ssspTrF {τ : Type} (S : Shell τ) (g : NeighborList) :
    ℕ → τ → List (ℕ × ℕ) → τ × List (ℕ × ℕ)
  | 0, st, tr => (st, tr)
  | fuel + 1, st, tr =>
    match S.pop_min st with
    | none => (st, tr)
    | some ((dist, u), st2) =>
      ssspTrF S g fuel (exploreAll S g u dist st2) (tr ++ [(dist, u)])

/-- Embedding of `sssp`: run the driver until the queue drains.  The fuel
`g.length + 1` is sufficient: each iteration settles a fresh vertex. -/
def sssp {τ : Type} (S : Shell τ) (st : τ) (g : NeighborList) : τ :=
  (ssspTrF S g (g.length + 1) st []).1

/-- The emission trace of a full `sssp` run. -/
def ssspTrace {τ : Type} (S : Shell τ) (st : τ) (g : NeighborList) :
    List (ℕ × ℕ) :=
  (ssspTrF S g (g.length + 1) st []).2

/-- Loop of `sp_naiv`: as `sssp` but return `(dist, get_path(target))` on the
first pop of the target. -/
def sp_naivF {τ : Type} (S : Shell τ) (g : NeighborList) (target pfuel : ℕ) :
    ℕ → τ → Option (ℕ × Route)
  | 0, _ => none
  | fuel + 1, st =>
    match S.pop_min st with
    | none => none
    | some ((dist, u), st2) =>
      if u = target then
        match S.get_path pfuel st2 target with
        | some r => some (dist, r)
        | none => none
      else sp_naivF S g target pfuel fuel (exploreAll S g u dist st2)

/-- Embedding of `sp_naiv`. -/
def sp_naiv {τ : Type} (S : Shell τ) (st : τ) (target : ℕ)
    (g : NeighborList) : Option (ℕ × Route) :=
  sp_naivF S g target (g.length + 1) (g.length + 1) st

/-- The per-edge body of the two relaxation loops of `sp_bi`: explore the
edge, then check the opposite shell for a settled distance of the endpoint and
update `(path_len, bridge)` when the connection is shorter. -/
def spBiScan {τ : Type} (S : Shell τ) (other : τ) (popped dist : ℕ)
    (es : List Neighbor) (st : τ) (path_len bridge : ℕ) : τ × ℕ × ℕ :=
  es.foldl
    (fun acc e =>
      let s2 := S.explore acc.1 popped dist e
      match S.get_dist other e.dst with
      | some x =>
        let con := add32 (add32 dist e.weight) x
        if acc.2.1 > con then (s2, con, e.dst) else (s2, acc.2.1, acc.2.2)
      | none => (s2, acc.2.1, acc.2.2))
    (st, path_len, bridge)

/-- Loop of `sp_bi`: pop one item from each side, relax both neighborhoods
while maintaining the best bridge, and stop when
`dist_u + dist_v >= path_len`, joining the two partial routes. -/
def sp_biF {τ : Type} (S : Shell τ) (g : DicirectionalList) (pfuel : ℕ) :
    ℕ → τ → τ → ℕ → ℕ → Option (ℕ × Route)
  | 0, _, _, _, _ => none
  | fuel + 1, src, tgt, path_len, bridge =>
    match S.pop_min src, S.pop_min tgt with
    | some ((du, u), src2), some ((dv, v), tgt2) =>
      let f := spBiScan S tgt2 u du (get_neighbors g.forward u) src2
        path_len bridge
      let b := spBiScan S f.1 v dv (get_neighbors g.backward v) tgt2
        f.2.1 f.2.2
      if add32 du dv ≥ b.2.1 then
        match S.get_path pfuel f.1 b.2.2, S.get_path pfuel b.1 b.2.2 with
        | some fr, some br => some (b.2.1, Route.join fr (Route.rev br))
        | _, _ => none
      else sp_biF S g pfuel fuel f.1 b.1 b.2.1 b.2.2
    | _, _ => none

/-- Embedding of `sp_bi`: `path_len` starts at `u32::MAX` and `bridge` at the
sentinel `Vertex(0)`. -/
def sp_bi {τ : Type} (S : Shell τ) (st stTgt : τ) (g : DicirectionalList) :
    Option (ℕ × Route) :=
  sp_biF S g (g.forward.length + 1) (g.forward.length + 1) st stTgt u32max
    UNDEFINED

/-- State of the `SortetList` queue: the items `(key, value)`, kept sorted by
key descending so the minimum sits at the tail. -/
abbrev SortetListSt : Type := List (ℕ × ℕ)

/-- The binary-search loop of `Vec::binary_search` as used by
`SortetList::push`, under the reversed `Ord` of `Item`
(`cmp(a, b) = b.key.cmp(a.key)`): comparing the probed element with the
target key `ik`, descend right when `ik` is smaller, left when larger, and
return the probe index on equality; the final `left` is the insertion point.
Fuel bounds the loop (the interval shrinks every round). -/
def sortetSearchLoop (l : List (ℕ × ℕ)) (ik : ℕ) : ℕ → ℕ → ℕ → ℕ
  | 0, left, _ => left
  | fuel + 1, left, right =>
    if left < right then
      let mid := left + (right - left) / 2
      let xk := (l.getD mid (0, 0)).1
      if ik < xk then sortetSearchLoop l ik fuel (mid + 1) right
      else if xk < ik then sortetSearchLoop l ik fuel left mid
      else mid
    else left

/-- The position at which `SortetList::push` inserts a new item of key `ik`
(the `Ok` and `Err` branches of the source both insert at the returned
position). -/
def sortetSearch (l : List (ℕ × ℕ)) (ik : ℕ) : ℕ :=
  sortetSearchLoop l ik (l.length + 1) 0 l.length

/-- Embedding of the `SortetList` queue of dijkstra.rs as a `PQImpl`:
`from` preloads `(0, source)`, `push` inserts at the binary-search position,
`pop` removes the tail item. -/
def sortetImpl : PQImpl SortetListSt :=
  { fromV := fun v => [(0, v)]
    push := fun k v l => l.insertIdx (sortetSearch l k) (k, v)
    pop := fun l =>
      match l.getLast? with
      | none => none
      | some it => some (it, l.dropLast)
    size := List.length }

/-- State of the canonical reference model of the `DecreaseKey` contract: a
bag of items.  This is not source code: it is the least-structured
implementation of the queue contract of dijkstra.rs section 4.2, used to
instantiate theorems that are proved for every contract-abiding queue. -/
abbrev CanQSt : Type := List (ℕ × ℕ)

/-- First item of minimal key in the bag. -/
def canFindMin (l : List (ℕ × ℕ)) : Option (ℕ × ℕ) :=
  l.foldl
    (fun acc it =>
      match acc with
      | none => some it
      | some b => if it.1 < b.1 then some it else some b)
    none

/-- The canonical model of the `DecreaseKey` contract: handles are the vertex
ids themselves, `pop` removes a minimal item, `decrease_key` rewrites the
key of the handle's items. -/
def canImpl : DKImpl CanQSt ℕ :=
  { fromV := fun v => [(0, v)]
    refFromV := fun v => v
    push := fun k v l => (v, l ++ [(k, v)])
    pop := fun l => (canFindMin l).map (fun it => (it, l.erase it))
    decrease_key := fun r k l =>
      l.map (fun it => if it.2 = r then (k, it.2) else it) }

/-- Node of the pairing heap of pairing_heap.rs: `serial` models `Rc`
pointer identity (handles name nodes by serial), then the `id`, `key` and
child list of the Rust `Node`; `parent` and `next` pointers are represented
by the tree and list structure itself. -/
inductive PNode : Type where
  | mk : ℕ → ℕ → ℕ → List PNode → PNode

/-- Serial number (pointer identity) of a pairing-heap node. -/
def PNode.serial : PNode → ℕ
  | .mk s _ _ _ => s

/-- Vertex id of a pairing-heap node. -/
def PNode.id : PNode → ℕ
  | .mk _ i _ _ => i

/-- Key of a pairing-heap node. -/
def PNode.key : PNode → ℕ
  | .mk _ _ k _ => k

/-- Children of a pairing-heap node. -/
def PNode.children : PNode → List PNode
  | .mk _ _ _ cs => cs

/-- Write the key field of a node (the in-place mutation of the source). -/
def PNode.setKey : PNode → ℕ → PNode
  | .mk s i _ cs, k => .mk s i k cs

/-- Embedding of `PairingHeap`: the `main` tree, the `aux` root list (the
source links it through `next` pointers), and the next fresh serial. -/
structure PH : Type where
  main : Option PNode
  aux : List PNode
  nextSerial : ℕ

/-- Embedding of the pairing primitive `merge_pair` on two trees: the node
with strictly smaller first key wins; the loser is prepended to the winner's
child list (`loser.next = winner.child; winner.child = loser`). -/
def mergeTwo (a b : PNode) : PNode :=
  if a.key < b.key then .mk a.serial a.id a.key (b :: a.children)
  else .mk b.serial b.id b.key (a :: b.children)

/-- Embedding of `merge_pair` on a root list: merge the first two roots if
present. -/
def mergePairL : List PNode → Option PNode × List PNode
  | [] => (none, [])
  | [a] => (some a, [])
  | a :: b :: rest => (some (mergeTwo a b), rest)

/-- Embedding of `multipass`: reduce the list two-at-a-time, accumulating
merged trees (prepended, as the source rewires `next`), then restart on the
accumulated round until one tree remains.  Fuel bounds the loop. -/
def multipassLoop : ℕ → List PNode → List PNode → Option PNode
  | 0, _, _ => none
  | fuel + 1, current, next_round =>
    match mergePairL current with
    | (some merged, []) =>
      match next_round with
      | [] => some merged
      | _ => multipassLoop fuel (merged :: next_round) []
    | (some merged, rest) => multipassLoop fuel (merged :: next_round) rest
    | (none, _) => none

/-- Embedding of `multipass` with its sufficient fuel. -/
def multipass (l : List PNode) : Option PNode :=
  multipassLoop (2 * l.length + 2) l []

/-- Embedding of `merge_front_to_back`: repeatedly merge the first pair. -/
def mergeFB : ℕ → List PNode → Option PNode
  | 0, _ => none
  | _, [] => none
  | _ + 1, [a] => some a
  | fuel + 1, a :: b :: rest => mergeFB fuel (mergeTwo a b :: rest)

/-- Embedding of `two_pass`: one left-to-right pairing round (accumulated in
reverse, as the source prepends), then `merge_front_to_back` on the round. -/
def twoPassLoop : ℕ → List PNode → List PNode → Option PNode
  | 0, _, _ => none
  | fuel + 1, current, second_round =>
    match mergePairL current with
    | (some merged, []) =>
      match second_round with
      | [] => some merged
      | _ => mergeFB (second_round.length + 2) (merged :: second_round)
    | (some merged, rest) => twoPassLoop fuel (merged :: second_round) rest
    | (none, _) => none

/-- Embedding of `two_pass` with its sufficient fuel. -/
def two_pass (l : List PNode) : Option PNode :=
  twoPassLoop (2 * l.length + 2) l []

/-- Embedding of `Link::from(Vertex)`: `Vertex(0)` gives the null link, any
other id a fresh node with key 0. -/
def PH.fromV (v : ℕ) : PH :=
  if v = 0 then { main := none, aux := [], nextSerial := 1 }
  else { main := some (.mk 1 v 0 []), aux := [], nextSerial := 2 }

/-- Embedding of `PairingHeap::push`: prepend a fresh node to `aux` and
return its handle (serial). -/
def PH.push (k v : ℕ) (h : PH) : ℕ × PH :=
  (h.nextSerial,
    { main := h.main
      aux := .mk h.nextSerial v k [] :: h.aux
      nextSerial := h.nextSerial + 1 })

/-- Embedding of `PairingHeap::pop`: join `aux` by multipass, meld with
`main`, extract the root, rebuild `main` by `two_pass` on its children. -/
def PH.pop (h : PH) : Option ((ℕ × ℕ) × PH) :=
  let auxJ := multipass h.aux
  let combine : Option PNode :=
    match h.main, auxJ with
    | some m, some a => some (mergeTwo m a)
    | some m, none => some m
    | none, a => a
  match combine with
  | none => none
  | some top =>
    some ((top.key, top.id),
      { main := two_pass top.children, aux := [], nextSerial := h.nextSerial })

mutual

/-- Extract the subtree with the given serial from a tree (the serial must
name a strict descendant): returns the tree with the subtree spliced out,
and the subtree. -/
def extractT : PNode → ℕ → Option (PNode × PNode)
  | .mk s i k cs, serial =>
    match extractL cs serial with
    | some (cs2, sub) => some (.mk s i k cs2, sub)
    | none => none

def extractL : List PNode → ℕ → Option (List PNode × PNode)
  | [], _ => none
  | t :: ts, serial =>
    if t.serial = serial then some (ts, t)
    else
      match extractT t serial with
      | some (t2, sub) => some (t2 :: ts, sub)
      | none =>
        match extractL ts serial with
        | some (ts2, sub) => some (t :: ts2, sub)
        | none => none

end

/-- Update the key of the root of the aux list whose serial matches, in
place (the node has no parent, so the source only rewrites its key). -/
def auxRootUpd : List PNode → ℕ → ℕ → Option (List PNode)
  | [], _, _ => none
  | t :: ts, serial, k =>
    if t.serial = serial then some (t.setKey k :: ts)
    else
      match auxRootUpd ts serial k with
      | some ts2 => some (t :: ts2)
      | none => none

/-- Find the serial strictly inside one of the aux trees and splice its
subtree out. -/
def dkInAux : List PNode → ℕ → Option (List PNode × PNode)
  | [], _ => none
  | t :: ts, serial =>
    match extractT t serial with
    | some (t2, sub) => some (t2 :: ts, sub)
    | none =>
      match dkInAux ts serial with
      | some (ts2, sub) => some (t :: ts2, sub)
      | none => none

/-- Embedding of `PairingHeap::decrease_key`: a node with a parent is spliced
out of its parent's child list, its key rewritten, and prepended to `aux`; a
parentless node (root of `main` or an `aux` root) has its key rewritten in
place.  A serial not present in the heap (a dangling `Rc` handle such as the
one created by `Search::from`) mutates only the orphan node: the heap is
unchanged. -/
def PH.decrease_key (serial k : ℕ) (h : PH) : PH :=
  match h.main with
  | some m =>
    if m.serial = serial then { h with main := some (m.setKey k) }
    else
      match extractT m serial with
      | some (m2, sub) =>
        { main := some m2, aux := sub.setKey k :: h.aux
          nextSerial := h.nextSerial }
      | none =>
        match auxRootUpd h.aux serial k with
        | some aux2 => { h with aux := aux2 }
        | none =>
          match dkInAux h.aux serial with
          | some (aux2, sub) =>
            { main := h.main, aux := sub.setKey k :: aux2
              nextSerial := h.nextSerial }
          | none => h
  | none =>
    match auxRootUpd h.aux serial k with
    | some aux2 => { h with aux := aux2 }
    | none =>
      match dkInAux h.aux serial with
      | some (aux2, sub) =>
        { main := none, aux := sub.setKey k :: aux2
          nextSerial := h.nextSerial }
      | none => h

/-- The pairing heap as a `DecreaseKey` implementation.  `refFromV` models
`Link::from(Vertex)` used for a handle: it allocates a node that is not in
the heap, so the reserved serial 0 (never allocated by `push`) stands for
it. -/
def phImpl : DKImpl PH ℕ :=
  { fromV := PH.fromV
    refFromV := fun _ => 0
    push := fun k v h => PH.push k v h
    pop := PH.pop
    decrease_key := fun r k h => PH.decrease_key r k h }

mutual

/-- All node payloads `(key, id)` of a tree, as a list. -/
def PNode.itemsT : PNode → List (ℕ × ℕ)
  | .mk _ i k cs => (k, i) :: itemsL cs

def itemsL : List PNode → List (ℕ × ℕ)
  | [] => []
  | t :: ts => t.itemsT ++ itemsL ts

end

mutual

/-- All node descriptors `(serial, id, key)` of a tree. -/
def PNode.nodesT : PNode → List (ℕ × ℕ × ℕ)
  | .mk s i k cs => (s, i, k) :: nodesL cs

def nodesL : List PNode → List (ℕ × ℕ × ℕ)
  | [] => []
  | t :: ts => t.nodesT ++ nodesL ts

end

/-- Node descriptors of the whole heap. -/
def PH.nodes (h : PH) : List (ℕ × ℕ × ℕ) :=
  (match h.main with
   | none => []
   | some m => m.nodesT) ++ nodesL h.aux

/-- Item multiset of the whole heap. -/
def PH.items (h : PH) : Multiset (ℕ × ℕ) :=
  (h.nodes.map (fun x => (x.2.2, x.2.1)) : List (ℕ × ℕ))

/-- Well-formedness of a pairing heap state: serials are distinct, positive
and below the allocation counter. -/
def PH.WF (h : PH) : Prop :=
  (h.nodes.map (fun x => x.1)).Nodup ∧
    ∀ s ∈ h.nodes.map (fun x => x.1), 0 < s ∧ s < h.nextSerial

/-- State of the stale addressable d-ary heap generated by the
`implicit_heap!` macro of implicit_heaps.rs: the heap array of vertices, the
vertex-indexed position lookup, and the `dist`, `prev`, `seen` arrays (all
indexed by `slot v = v - 1`). -/
structure IH : Type where
  inner : List ℕ
  hlookup : List ℕ
  dist : List ℕ
  prev : List ℕ
  seen : List Bool

/-- Embedding of the `new(n, source)` constructor of the `implicit_heap!`
macro. -/
def IH.new (n source : ℕ) : IH :=
  { inner := [source]
    hlookup := List.replicate n 0
    dist := (List.replicate n u32max).set (source - 1) 0
    prev := List.replicate n UNDEFINED
    seen := List.replicate n false }

/-- `get_dist` of the stale heap. -/
def IH.get_dist (st : IH) (v : ℕ) : ℕ := st.dist.getD (v - 1) 0

/-- `set_dist` of the stale heap. -/
def IH.set_dist (st : IH) (v d : ℕ) : IH :=
  { st with dist := st.dist.set (v - 1) d }

/-- `get_prev` of the stale heap. -/
def IH.get_prev (st : IH) (v : ℕ) : ℕ := st.prev.getD (v - 1) 0

/-- `set_prev` of the stale heap. -/
def IH.set_prev (st : IH) (v p : ℕ) : IH :=
  { st with prev := st.prev.set (v - 1) p }

/-- `expanded` of the stale heap (reads the `seen` array). -/
def IH.expanded (st : IH) (v : ℕ) : Bool := st.seen.getD (v - 1) false

/-- `mark_seen` of the stale heap. -/
def IH.mark_seen (st : IH) (v : ℕ) : IH :=
  { st with seen := st.seen.set (v - 1) true }

/-- `lookup` of the stale heap. -/
def IH.lookup (st : IH) (v : ℕ) : ℕ := st.hlookup.getD (v - 1) 0

/-- `update` of the stale heap. -/
def IH.update (st : IH) (v i : ℕ) : IH :=
  { st with hlookup := st.hlookup.set (v - 1) i }

/-- Swap two heap slots, updating the two affected lookup entries first, as
`bubble_up`/`bubble_down` of the `implicit_heap!` macro do. -/
def IH.swapAt (st : IH) (parent child : ℕ) : IH :=
  let pv := st.inner.getD parent 0
  let cv := st.inner.getD child 0
  let st1 := (st.update pv child).update cv parent
  { st1 with inner := (st1.inner.set parent cv).set child pv }

/-- `bubble_up` of the `implicit_heap!` macro, comparing vertex distances
through the `dist` array; fuel is the starting index (the index strictly
decreases). -/
def ihBubbleUp (k : ℕ) : ℕ → IH → ℕ → IH
  | 0, st, _ => st
  | fuel + 1, st, child =>
    if 0 < child then
      let parent := (child - 1) / k
      let pv := st.inner.getD parent 0
      let cv := st.inner.getD child 0
      if st.get_dist pv ≤ st.get_dist cv then st
      else ihBubbleUp k fuel (st.swapAt parent child) parent
    else st

/-- The in-range child of minimal distance below `parent` (ties keep the
left child), as computed by the `reduce` in `bubble_down`. -/
def ihChildMin (st : IH) (k parent : ℕ) : Option ℕ :=
  let n := st.inner.length
  let base := parent * k + 1
  let en := min (base + k) n
  (List.range' base (en - base)).foldl
    (fun acc j =>
      match acc with
      | none => some j
      | some l =>
        if st.get_dist (st.inner.getD l 0) > st.get_dist (st.inner.getD j 0)
        then some j else some l)
    none

/-- `bubble_down` of the `implicit_heap!` macro. -/
def ihBubbleDown (k : ℕ) : ℕ → IH → ℕ → IH
  | 0, st, _ => st
  | fuel + 1, st, parent =>
    match ihChildMin st k parent with
    | none => st
    | some child =>
      let pv := st.inner.getD parent 0
      let cv := st.inner.getD child 0
      if st.get_dist pv ≤ st.get_dist cv then st
      else ihBubbleDown k fuel (st.swapAt parent child) child

/-- Embedding of `explore` of the `implicit_heap!` macro (the stale
addressable heap): compute `alt = dist(from) + w`; if the target is not
expanded and `alt` improves on its stored distance, store `e.weight` into
`dist` (this is the line under scrutiny of claim C7: the computed `alt` is
not what is stored), push or re-position the vertex, and set `prev`. -/
def ihExplore (k : ℕ) (st : IH) (fro : ℕ) (e : Neighbor) : IH :=
  let alt := add32 (st.get_dist fro) e.weight
  if !st.expanded e.dst ∧ alt < st.get_dist e.dst then
    let st1 := st.set_dist e.dst e.weight
    let st2 :=
      if st1.get_prev e.dst = UNDEFINED then
        let st2a := { st1 with inner := st1.inner ++ [e.dst] }
        let en := st2a.inner.length - 1
        ihBubbleUp k (en + 1) (st2a.update e.dst en) en
      else
        ihBubbleUp k (st1.lookup e.dst + 1) st1 (st1.lookup e.dst)
    st2.set_prev e.dst fro
  else st

/-- `swap_remove(0)` on the heap array. -/
def swapRemoveHead (l : List ℕ) : Option (ℕ × List ℕ) :=
  match l with
  | [] => none
  | [x] => some (x, [])
  | x :: rest => some (x, (rest.getLast?).getD 0 :: rest.dropLast)

/-- Embedding of `pop_min` of the `implicit_heap!` macro: point the lookup of
the last vertex at slot 0, swap-remove the root, bubble down, mark seen.  An
empty heap models the `expect` panic (`none`). -/
def ihPopMin (k : ℕ) (st : IH) : Option (ℕ × IH) :=
  match st.inner.getLast? with
  | none => none
  | some last =>
    let st1 := st.update last 0
    match swapRemoveHead st1.inner with
    | none => none
    | some (mn, inner2) =>
      let st2 := ihBubbleDown k (inner2.length + 1) { st1 with inner := inner2 } 0
      some (mn, st2.mark_seen mn)

/-- Driver loop for the stale heap, modelled from the `sssp` loop shape of
dijkstra.rs (the stale heap is its own shell: `pop_min` yields the vertex,
`explore` relaxes an edge): while the heap is nonempty, pop and explore all
neighbors. -/
def ihRun (k : ℕ) (g : NeighborList) : ℕ → IH → IH
  | 0, st => st
  | fuel + 1, st =>
    if st.inner.isEmpty then st
    else
      match ihPopMin k st with
      | none => st
      | some (u, st2) =>
        ihRun k g fuel ((get_neighbors g u).foldl (fun s e => ihExplore k s u e) st2)

/-- State of the current-flavor addressable d-ary heap (`BinaryHeap`,
`PentaryHeap`, ...): items `(key, value)` in a k-ary heap array plus the
owned vertex-to-index lookup.  `push` and `pop` are generated by the
`PriorityQueue` derive macro of macros/src/lib.rs; the heap internals
(`bubble_up`, `bubble_down`, `decrease_key`) are absent from the sources in
their current-trait form. -/
structure DHeap : Type where
  inner : List (ℕ × ℕ)
  lookup : ℕ → Option ℕ

/-- Swap two slots of the addressable heap, updating the two lookups.
Modelled from the spec: every swap during bubble-up/down updates the two
affected lookup entries. -/
def DHeap.swapAt (st : DHeap) (a b : ℕ) : DHeap :=
  let xa := st.inner.getD a (0, 0)
  let xb := st.inner.getD b (0, 0)
  { inner := (st.inner.set a xb).set b xa
    lookup := mupd (mupd st.lookup xa.2 b) xb.2 a }

/-- Modelled from the spec: `bubble_up` of the addressable heap
(parent `(i-1)/k`; swap while the parent's key is larger). -/
def dhBubbleUp (k : ℕ) : ℕ → DHeap → ℕ → DHeap
  | 0, st, _ => st
  | fuel + 1, st, child =>
    if 0 < child then
      let parent := (child - 1) / k
      if (st.inner.getD parent (0, 0)).1 ≤ (st.inner.getD child (0, 0)).1
      then st
      else dhBubbleUp k fuel (st.swapAt parent child) parent
    else st

/-- The in-range child of minimal key (ties keep the left child). -/
def dhChildMin (st : DHeap) (k parent : ℕ) : Option ℕ :=
  let n := st.inner.length
  let base := parent * k + 1
  let en := min (base + k) n
  (List.range' base (en - base)).foldl
    (fun acc j =>
      match acc with
      | none => some j
      | some l =>
        if (st.inner.getD l (0, 0)).1 > (st.inner.getD j (0, 0)).1
        then some j else some l)
    none

/-- Modelled from the spec: `bubble_down` of the addressable heap (among
in-range children pick the minimum; swap while strictly smaller). -/
def dhBubbleDown (k : ℕ) : ℕ → DHeap → ℕ → DHeap
  | 0, st, _ => st
  | fuel + 1, st, parent =>
    match dhChildMin st k parent with
    | none => st
    | some child =>
      if (st.inner.getD parent (0, 0)).1 ≤ (st.inner.getD child (0, 0)).1
      then st
      else dhBubbleDown k fuel (st.swapAt parent child) child

/-- `push` of the addressable heap, from the `PriorityQueue` derive macro:
append the item, set the lookup of the value to the end index, bubble up;
the returned handle is the value itself. -/
def DHeap.push (k : ℕ) (key value : ℕ) (st : DHeap) : ℕ × DHeap :=
  let st1 := { inner := st.inner ++ [(key, value)]
               lookup := mupd st.lookup value st.inner.length }
  (value, dhBubbleUp k (st.inner.length + 1) st1 st.inner.length)

/-- `swap_remove(0)` on the item array. -/
def swapRemoveHeadI (l : List (ℕ × ℕ)) : Option ((ℕ × ℕ) × List (ℕ × ℕ)) :=
  match l with
  | [] => none
  | [x] => some (x, [])
  | x :: rest => some (x, (rest.getLast?).getD (0, 0) :: rest.dropLast)

/-- Remove a key from the lookup map (`HashMap::remove`). -/
def mdel {α : Type} (m : ℕ → Option α) (k : ℕ) : ℕ → Option α :=
  fun x => if x = k then none else m x

/-- `pop` of the addressable heap, from the `PriorityQueue` derive macro:
empty gives `None`; otherwise point the lookup of the last item's value at
slot 0, swap-remove the root, delete its lookup entry, bubble down. -/
def DHeap.pop (k : ℕ) (st : DHeap) : Option ((ℕ × ℕ) × DHeap) :=
  match st.inner.getLast? with
  | none => none
  | some last =>
    let st1 := { st with lookup := mupd st.lookup last.2 0 }
    match swapRemoveHeadI st1.inner with
    | none => none
    | some (mn, inner2) =>
      let st2 := { inner := inner2, lookup := mdel st1.lookup mn.2 }
      some ((mn.1, mn.2), dhBubbleDown k (inner2.length + 1) st2 0)

/-- Modelled from the spec: `decrease_key(vertex, k)` of the addressable heap
looks up the index, mutates the key in place, then bubbles up.  A vertex
missing from the lookup leaves the heap unchanged (the source's behavior
there is a HashMap miss panic; no driver run reaches it). -/
def DHeap.decrease_key (k : ℕ) (v key : ℕ) (st : DHeap) : DHeap :=
  match st.lookup v with
  | none => st
  | some i =>
    dhBubbleUp k (i + 1)
      { st with inner := st.inner.set i (key, v) } i

/-- Modelled from the spec: `From<Vertex>` preloads `(0, source)`. -/
def DHeap.fromV (v : ℕ) : DHeap :=
  { inner := [(0, v)], lookup := mupd (fun _ => none) v 0 }

/-- The addressable k-ary heap as a `DecreaseKey` implementation (handles are
the vertex ids). -/
def dhImpl (k : ℕ) : DKImpl DHeap ℕ :=
  { fromV := DHeap.fromV
    refFromV := fun v => v
    push := fun key value st => DHeap.push k key value st
    pop := DHeap.pop k
    decrease_key := fun r key st => DHeap.decrease_key k r key st }

/-- Block side of the blocked Floyd-Warshall of all_pairs.rs
(`BLOCK_SIZE = 4096 * 3`). -/
def BLOCK_SIZE : ℕ := 12288

/-- Ascending loop over indices `0, 1, ..., n-1`. -/
def forLoop {α : Type} : ℕ → (ℕ → α → α) → α → α
  | 0, _, a => a
  | n + 1, f, a => f n (forLoop n f a)

/-- One in-place update of `wf_block`:
`a[B*i+j] = min(a[B*i+j], a[B*k+i] + b[B*k+j])` with wrapping u32 `+`. -/
def wfUpd (B : ℕ) (b : ℕ → ℕ) (k i j : ℕ) (a : ℕ → ℕ) : ℕ → ℕ :=
  fun idx =>
    if idx = B * i + j then
      min (a (B * i + j)) (add32 (a (B * k + i)) (b (B * k + j)))
    else a idx

/-- The triple loop of `wf_block` over a given block side `B`. -/
def wfBlockAux (B : ℕ) (a b : ℕ → ℕ) : ℕ → ℕ :=
  forLoop B
    (fun k m =>
      forLoop B
        (fun i m2 => forLoop B (fun j m3 => wfUpd B b k i j m3) m2) m) a

/-- Embedding of `wf_block` of all_pairs.rs: matrices are flat row-major
maps `idx ↦ entry`; `b` is the transposed second block. -/
def wf_block (a b : ℕ → ℕ) : ℕ → ℕ := wfBlockAux BLOCK_SIZE a b

/-- Saturating u32 addition: `MAX` absorbs.  Modelled from the spec:
"Saturating addition: treat MAX as infinity (if either operand is MAX, the
sum is MAX; no wraparound)"; this operation does not occur in the source. -/
def satAdd (a b : ℕ) : ℕ :=
  if a = u32max ∨ b = u32max then u32max else a + b

/-- The `wf_block` update with the saturating addition the spec demands. -/
def wfUpdSat (B : ℕ) (b : ℕ → ℕ) (k i j : ℕ) (a : ℕ → ℕ) : ℕ → ℕ :=
  fun idx =>
    if idx = B * i + j then
      min (a (B * i + j)) (satAdd (a (B * k + i)) (b (B * k + j)))
    else a idx

/-- `wf_block` as the spec demands it: the same triple loop with saturating
addition. -/
def wfBlockSat (B : ℕ) (a b : ℕ → ℕ) : ℕ → ℕ :=
  forLoop B
    (fun k m =>
      forLoop B
        (fun i m2 => forLoop B (fun j m3 => wfUpdSat B b k i j m3) m2) m) a

/-- Embedding of `transpose` (the `transpose::transpose` call of
all_pairs.rs) on flat `B × B` matrices. -/
def transposeM (B : ℕ) (a : ℕ → ℕ) : ℕ → ℕ :=
  fun idx => a (B * (idx % B) + idx / B)

/-- Embedding of `graph2matrix` of all_pairs.rs over a block side `B`: all
entries start at `u32::MAX`; row `i` sets the diagonal entry to 0 and then,
for each edge of vertex-slot `row*B + i` whose target slot `j` falls inside
the column block, writes the weight at flat index `i * B + j` (the global
`j`, exactly as `matrix[i * BLOCK_SIZE + j]` in the source). -/
def graph2matrix (B : ℕ) (g : NeighborList) (row col : ℕ) : ℕ → ℕ :=
  forLoop B
    (fun i m =>
      (g.getD (row * B + i) []).foldl
        (fun m2 e =>
          let j := e.dst - 1
          if j < col * B + B ∧ col * B ≤ j then
            fun idx => if idx = i * B + j then e.weight else m2 idx
          else m2)
        (fun idx => if idx = i * B + i then 0 else m idx))
    (fun _ => u32max)

/-- Little-endian bytes of a u32 value. -/
def u32ToLe (x : ℕ) : List ℕ :=
  [x % 256, x / 256 % 256, x / 65536 % 256, x / 16777216 % 256]

/-- Decode four little-endian bytes. -/
def leToU32 (b0 b1 b2 b3 : ℕ) : ℕ :=
  b0 + 256 * b1 + 65536 * b2 + 16777216 * b3

/-- Write a byte list at an offset of a file (modelled as a map from byte
position to byte; a fresh file reads as zeros, as sparse files do). -/
def writeBytes : (ℕ → ℕ) → ℕ → List ℕ → ℕ → ℕ
  | f, _, [] => f
  | f, off, b :: bs => writeBytes (fun idx => if idx = off then b else f idx) (off + 1) bs

/-- The build-time row-limit divisor of apsp (`NERF_FACTOR`). -/
def NERF_FACTOR : ℕ := 200

/-- The distance record apsp computes for one row: run `sssp` from the vertex
of slot `row` (i.e. `Vertex(row+1)`, the source's `row.try_into().unwrap()`)
with the `OwnedLookup` shell, then read `get_dist(Vertex(i+1)).unwrap()` for
every slot `i < size`; `none` models the panic on an unreachable slot. -/
def apspRecord {σ ρ : Type} (Q : DKImpl σ ρ) (g : NeighborList)
    (size row : ℕ) : Option (List ℕ) :=
  let res := sssp (ownedShell Q) (OwnedSt.init Q (row + 1)) g
  (List.range size).mapM (fun i => (ownedShell Q).get_dist res (i + 1))

/-- Write one apsp row at byte offset `row * size * 4` (the source seeks
there under the writer mutex and writes the record's little-endian bytes). -/
def apspWriteRow {σ ρ : Type} (Q : DKImpl σ ρ) (g : NeighborList) (size : ℕ)
    (f : ℕ → ℕ) (row : ℕ) : Option (ℕ → ℕ) :=
  (apspRecord Q g size row).map
    (fun r => writeBytes f (row * size * 4) (r.flatMap u32ToLe))

/-- The output file of apsp after processing the given rows in the given
order (the rayon parallel fan-out writes rows in an arbitrary order; each
row's positioned write happens under the mutex). -/
def apspFile {σ ρ : Type} (Q : DKImpl σ ρ) (g : NeighborList) (size : ℕ)
    (rows : List ℕ) : Option (ℕ → ℕ) :=
  rows.foldlM (fun f row => apspWriteRow Q g size f row) (fun _ => 0)

/-- Read back row `row` of an `n × n` cost-matrix file as u32 values. -/
def readRowU32 (f : ℕ → ℕ) (size row : ℕ) : List ℕ :=
  (List.range size).map
    (fun i =>
      leToU32 (f (row * size * 4 + 4 * i)) (f (row * size * 4 + 4 * i + 1))
        (f (row * size * 4 + 4 * i + 2)) (f (row * size * 4 + 4 * i + 3)))

/-- Embedding of `CostMatrix::get`'s offset computation:
`slot(target) * 4 + slot(source) * size * 4`; `none` when either slot
conversion underflows on the sentinel vertex 0 (debug builds panic; release
builds wrap, making the read go out of bounds and fail). -/
def costMatrixOffset (size source target : ℕ) : Option ℕ :=
  match usizeFromVertex source, usizeFromVertex target with
  | some i, some j => some (j * 4 + i * size * 4)
  | _, _ => none

/-- Embedding of `CostMatrix::get`: read four little-endian bytes at the
computed offset. -/
def costMatrixGet (f : ℕ → ℕ) (size source target : ℕ) : Option ℕ :=
  (costMatrixOffset size source target).map
    (fun off => leToU32 (f off) (f (off + 1)) (f (off + 2)) (f (off + 3)))

/-- An edge of weight `w` from `u` to `v` in the graph: `(v, w)` occurs in
`u`'s neighbor bucket. -/
def edgeW (g : NeighborList) (u v w : ℕ) : Prop :=
  ({ dst := v, weight := w } : Neighbor) ∈ get_neighbors g u

/-- Weighted walks of the graph from a fixed source: `WalkW g s v c` states
that some walk from `s` to `v` has total weight `c`. -/
inductive WalkW (g : NeighborList) (s : ℕ) : ℕ → ℕ → Prop where
  | nil : WalkW g s s 0
  | cons {u c v w : ℕ} : WalkW g s u c → edgeW g u v w → WalkW g s v (c + w)

/-- Reachability. -/
def reaches (g : NeighborList) (s v : ℕ) : Prop := ∃ c, WalkW g s v c

/-- `d` is the shortest-path distance from `s` to `v`. -/
def IsShortest (g : NeighborList) (s v d : ℕ) : Prop :=
  WalkW g s v d ∧ ∀ c, WalkW g s v c → d ≤ c

/-- A vertex sequence is a path of the graph of total weight `c` (some choice
of connecting edges has weights summing to `c`). -/
inductive PathCost (g : NeighborList) : List ℕ → ℕ → Prop where
  | single (v : ℕ) : PathCost g [v] 0
  | cons {u v : ℕ} {rest : List ℕ} {w c : ℕ} :
      edgeW g u v w → PathCost g (v :: rest) c →
      PathCost g (u :: v :: rest) (w + c)

/-- Total weight of all edges of the graph. -/
def sumW (g : NeighborList) : ℕ :=
  (g.map (fun l => (l.map (fun e => e.weight)).sum)).sum

/-- Well-formed graph: every edge target is a vertex id in `[1, n]` where
`n = g.length`, and every weight is a u32 value. -/
def GraphWF (g : NeighborList) : Prop :=
  ∀ l ∈ g, ∀ e ∈ l, 1 ≤ e.dst ∧ e.dst ≤ g.length ∧ e.weight < U32LIM

/-- Laws of the `PriorityQueue` contract (spec section 4.2), relative to an
implementation invariant `Inv` and an abstraction `mdl` to the multiset of
stored items: `from` preloads `(0, source)`; `push` inserts; `pop` on empty
is `None` and otherwise removes and returns an item of minimal key; `size`
counts items. -/
structure PQLaws {σ : Type} (Q : PQImpl σ) where
  Inv : σ → Prop
  mdl : σ → Multiset (ℕ × ℕ)
  fromV_inv : ∀ s, Inv (Q.fromV s)
  fromV_mdl : ∀ s, mdl (Q.fromV s) = {(0, s)}
  push_inv : ∀ kk v q, Inv q → Inv (Q.push kk v q)
  push_mdl : ∀ kk v q, Inv q → mdl (Q.push kk v q) = (kk, v) ::ₘ mdl q
  pop_none : ∀ q, Inv q → (Q.pop q = none ↔ mdl q = 0)
  pop_some : ∀ q kk v q2, Inv q → Q.pop q = some ((kk, v), q2) →
    (kk, v) ∈ mdl q ∧ mdl q2 = (mdl q).erase (kk, v) ∧ Inv q2 ∧
      ∀ kv ∈ mdl q, kk ≤ kv.1
  size_mdl : ∀ q, Inv q → Q.size q = Multiset.card (mdl q)

/-- Laws of the `DecreaseKey` contract (spec sections 4.2 and 4.4), relative
to an invariant, an item-multiset abstraction and a handle-validity relation
`refOk q h v` ("handle `h` names the live item of vertex `v`").
`decrease_key` on a valid handle of a vertex with a unique stored item
rewrites that item's key; handles other than the popped vertex's survive
`push`, `pop` and `decrease_key`. -/
structure DKLaws {σ ρ : Type} (Q : DKImpl σ ρ) where
  Inv : σ → Prop
  mdl : σ → Multiset (ℕ × ℕ)
  refOk : σ → ρ → ℕ → Prop
  fromV_inv : ∀ s, Inv (Q.fromV s)
  fromV_mdl : ∀ s, 0 < s → mdl (Q.fromV s) = {(0, s)}
  push_inv : ∀ kk v q, Inv q → Inv (Q.push kk v q).2
  push_mdl : ∀ kk v q, Inv q → mdl (Q.push kk v q).2 = (kk, v) ::ₘ mdl q
  push_ref : ∀ kk v q, Inv q → refOk (Q.push kk v q).2 (Q.push kk v q).1 v
  push_refPres : ∀ kk v q h w, Inv q → refOk q h w → refOk (Q.push kk v q).2 h w
  pop_none : ∀ q, Inv q → (Q.pop q = none ↔ mdl q = 0)
  pop_some : ∀ q kk v q2, Inv q → Q.pop q = some ((kk, v), q2) →
    (kk, v) ∈ mdl q ∧ mdl q2 = (mdl q).erase (kk, v) ∧ Inv q2 ∧
      (∀ kv ∈ mdl q, kk ≤ kv.1) ∧
      ∀ h w, w ≠ v → refOk q h w → refOk q2 h w
  dk_mdl : ∀ q h v k0 kk, Inv q → refOk q h v → (k0, v) ∈ mdl q →
    Multiset.card (Multiset.filter (fun kv => kv.2 = v) (mdl q)) ≤ 1 →
    kk ≤ k0 →
    mdl (Q.decrease_key h kk q) = (kk, v) ::ₘ (mdl q).erase (k0, v) ∧
      Inv (Q.decrease_key h kk q) ∧ refOk (Q.decrease_key h kk q) h v ∧
      ∀ h2 w, w ≠ v → refOk q h2 w → refOk (Q.decrease_key h kk q) h2 w

/-- Additional law of queues that own their vertex lookup (the queues the
`OwnedLookup` shell requires): the handle obtained from the vertex id itself
(`RefType::from(vertex)`, the `e.to.into()` of `OwnedLookup::explore`) is
valid for any stored vertex. -/
structure DKLawsOwned {σ ρ : Type} (Q : DKImpl σ ρ) extends DKLaws Q where
  refFromV_ok : ∀ q v, Inv q → (∃ kk, (kk, v) ∈ mdl q) →
    refOk q (Q.refFromV v) v

/-- Scenario S6 of the spec: the path graph 1-2-3-4-5 with unit weights. -/
def s6edges : List Edge :=
  [{ src := 1, dst := 2, weight := 1 }, { src := 2, dst := 3, weight := 1 },
   { src := 3, dst := 4, weight := 1 }, { src := 4, dst := 5, weight := 1 }]

/-- The S6 forward graph (size 6 slots, as `n + 1` sizing gives). -/
def s6graph : NeighborList := buildNL 6 s6edges

/-- The S6 bidirectional graph. -/
def s6big : DicirectionalList := buildBi 6 s6edges

/-- Scenario S2 of the spec: the graph {(1,2,5),(1,3,1),(3,2,1)}. -/
def s2graph : NeighborList :=
  buildNL 3
    [{ src := 1, dst := 2, weight := 5 }, { src := 1, dst := 3, weight := 1 },
     { src := 3, dst := 2, weight := 1 }]

/-- A diamond graph: 1→2 (1), 1→3 (1), 2→4 (1), 3→4 (10); the shortest path
to 4 is 1-2-4 of weight 2, while the edge path 1-3-4 weighs 11. -/
def diamondG : NeighborList :=
  buildNL 4
    [{ src := 1, dst := 2, weight := 1 }, { src := 1, dst := 3, weight := 1 },
     { src := 2, dst := 4, weight := 1 }, { src := 3, dst := 4, weight := 10 }]

/-- The `NoLookup` shell over the `SortetList` queue, fully from source. -/
def nlSortet : Shell (NoLookupSt SortetListSt) := nlShell sortetImpl

/-- The `Search` shell over the pairing heap, fully from source. -/
def searchPH : Shell (SearchSt PH ℕ) := searchShell phImpl

/-- Scenario S5 of the spec on the pairing heap, started from the null link
(`Vertex(0)` gives the empty heap): push (10, 7) capturing the handle,
decrease it to 2, push (4, 8). -/
def s5heap : PH :=
  let p1 := PH.push 10 7 (PH.fromV 0)
  (PH.push 4 8 (PH.decrease_key p1.1 2 p1.2)).2

/-- The Search-over-pairing-heap state used for claim C4: initialized at
vertex 1, with one explored edge (1 → 2, weight 5). -/
def c4state : SearchSt PH ℕ :=
  SearchSt.explore phImpl (SearchSt.init phImpl 1) 1 0
    { dst := 2, weight := 5 }

/-- Claim C3 (code_bug evidence): on the S6 path graph with unit weights,
`sp_naiv(1, 5)` returns distance 4 with the route encoding 1→2→3→4→5
(stored target-first as [5,4,3,2,1]), but `sp_bi(1, 5)` — run with the
`Search` shell over the pairing heap, both fully from source — returns
distance 4 with the malformed route [3,2,1,4,3]: `Route::reverse` discards
the terminal vertex of the backward route instead of the duplicated bridge,
so the bridge appears twice and the target 5 is missing. -/
theorem sp_bi_s6_route_bug :
    sp_naiv searchPH (SearchSt.init phImpl 1) 5 s6graph =
      some (4, [5, 4, 3, 2, 1]) ∧
    sp_bi searchPH (SearchSt.init phImpl 1) (SearchSt.init phImpl 5) s6big =
      some (4, [3, 2, 1, 4, 3]) ∧
    ([3, 2, 1, 4, 3] : List ℕ) ≠ [5, 4, 3, 2, 1] := by
  refine ⟨by decide, by decide, by decide⟩

/-- Claim C7 (code_bug evidence): in the stale addressable binary heap of
implicit_heaps.rs, relaxing the edge (3, 2, 1) from the settled vertex 3
(distance 1) onto vertex 2 (stored distance 5) stores `e.weight = 1` instead
of `alt = 2`, and consequently the full run on scenario S2 ends with
distances {1 ↦ 0, 2 ↦ 1, 3 ↦ 1} instead of the claimed {1 ↦ 0, 2 ↦ 2,
3 ↦ 1}. -/
theorem stale_heap_explore_bug :
    ((ihPopMin 2 (ihRun 2 s2graph 1 (IH.new 3 1))).map
        (fun x => x.2.get_dist 2)) = some 5 ∧
    ((ihPopMin 2 (ihRun 2 s2graph 1 (IH.new 3 1))).map
        (fun x => add32 (x.2.get_dist 3) 1)) = some 2 ∧
    ((ihPopMin 2 (ihRun 2 s2graph 1 (IH.new 3 1))).map
        (fun x => (ihExplore 2 x.2 3 { dst := 2, weight := 1 }).get_dist 2)) =
      some 1 ∧
    (ihRun 2 s2graph 10 (IH.new 3 1)).get_dist 1 = 0 ∧
    (ihRun 2 s2graph 10 (IH.new 3 1)).get_dist 2 = 1 ∧
    (ihRun 2 s2graph 10 (IH.new 3 1)).get_dist 3 = 1 ∧ (1 : ℕ) ≠ 2 := by
  refine ⟨by decide, by decide, by decide, by decide, by decide, by decide,
    by decide⟩

/-- Claim C4 (counterexample): `Search::pop_min` does not replace the popped
vertex's handle with an invalidated sentinel — it forwards to `queue.pop`
and leaves the meta table untouched.  Concretely, over the pairing heap with
vertex 1 initialized and edge (1→2, 5) explored, popping (0, 1) leaves the
meta entries of 1 and 2 exactly as they were (handle serials 0 and 2). -/
theorem search_pop_min_keeps_handles :
    c4state.meta 1 = some (0, 0, 1) ∧
    c4state.meta 2 = some (2, 5, 1) ∧
    (SearchSt.pop_min phImpl c4state).map
        (fun x => (x.1, x.2.meta 1, x.2.meta 2)) =
      some ((0, 1), some (0, 0, 1), some (2, 5, 1)) := by
  refine ⟨by decide, by decide, by decide⟩

/-- Claim C2 (counterexample): with the `NoLookup` shell over `SortetList`
on the diamond graph, after `sssp` from 1 the distance of vertex 4 is 2 but
`get_path(4)` returns [4, 3, 1] (the route 1→3→4), whose only edge-weight sum
is 1 + 10 = 11: `NoLookup::explore` overwrites `prev` on every relaxation of
an unsettled vertex, even a non-improving one, so the recorded predecessor
chain does not realize the emitted distance. -/
theorem nolookup_path_weight_mismatch :
    (nlSortet.get_dist
        (sssp nlSortet (NoLookupSt.init sortetImpl 1) diamondG) 4 = some 2) ∧
    (nlSortet.get_path 5
        (sssp nlSortet (NoLookupSt.init sortetImpl 1) diamondG) 4 =
      some [4, 3, 1]) ∧
    ¬ PathCost diamondG [1, 3, 4] 2 := by
  refine ⟨by decide, by decide, ?_⟩
  have h13 : get_neighbors diamondG 1 =
      [{ dst := 2, weight := 1 }, { dst := 3, weight := 1 }] := by decide
  have h34 : get_neighbors diamondG 3 =
      [{ dst := 4, weight := 10 }] := by decide
  have key : ∀ c, PathCost diamondG [1, 3, 4] c → c = 11 := by
    intro c h
    cases h with
    | cons e1 htail =>
      cases htail with
      | cons e2 hlast =>
        cases hlast
        rw [edgeW, h13] at e1
        rw [edgeW, h34] at e2
        simp only [List.mem_cons, List.mem_singleton, List.not_mem_nil,
          or_false] at e1 e2
        rcases e1 with e1 | e1
        · cases e1
        · cases e1
          cases e2
          rfl
  intro h
  exact absurd (key 2 h) (by norm_num)

/-- Descending order by key of a `SortetList` state (the implementation
invariant behind `binary_search`). -/
def sortedDesc (l : List (ℕ × ℕ)) : Prop :=
  ∀ i j, i ≤ j → j < l.length → (l.getD j (0, 0)).1 ≤ (l.getD i (0, 0)).1

theorem sortetSearchLoop_spec (l : List (ℕ × ℕ)) (ik : ℕ)
    (hs : sortedDesc l) :
    ∀ fuel left right, left ≤ right → right ≤ l.length →
      right - left < fuel →
      (∀ i, i < left → ik ≤ (l.getD i (0, 0)).1) →
      (∀ i, right ≤ i → i < l.length → (l.getD i (0, 0)).1 ≤ ik) →
      left ≤ sortetSearchLoop l ik fuel left right ∧
        sortetSearchLoop l ik fuel left right ≤ right ∧
        (∀ i, i < sortetSearchLoop l ik fuel left right →
          ik ≤ (l.getD i (0, 0)).1) ∧
        (∀ i, sortetSearchLoop l ik fuel left right ≤ i → i < l.length →
          (l.getD i (0, 0)).1 ≤ ik) := by
  intro fuel
  induction fuel with
  | zero => intro left right _ _ h; omega
  | succ fuel ih =>
    intro left right hlr hrl hf hleft hright
    rw [sortetSearchLoop]
    by_cases hc : left < right
    · simp only [hc, if_true]
      have hmid : left + (right - left) / 2 < right := by omega
      have hmidl : left ≤ left + (right - left) / 2 := by omega
      set mid := left + (right - left) / 2 with hmidd
      by_cases h1 : ik < (l.getD mid (0, 0)).1
      · simp only [h1, if_true]
        refine ?_
        have := ih (mid + 1) right (by omega) hrl (by omega)
          (fun i hi => ?_) hright
        · exact ⟨by omega, this.2.1, this.2.2.1, this.2.2.2⟩
        · rcases Nat.lt_or_ge i left with h2 | h2
          · exact hleft i h2
          · exact le_of_lt (lt_of_lt_of_le h1 (hs i mid (by omega) (by omega)))
      · simp only [h1, if_false]
        by_cases h2 : (l.getD mid (0, 0)).1 < ik
        · simp only [h2, if_true]
          have := ih left mid hmidl (by omega) (by omega) hleft
            (fun i hi hil => ?_)
          · exact ⟨this.1, by omega, this.2.2.1, this.2.2.2⟩
          · exact le_of_lt (lt_of_le_of_lt (hs mid i hi hil) h2)
        · simp only [h2, if_false]
          have he : (l.getD mid (0, 0)).1 = ik := by omega
          refine ⟨hmidl, le_of_lt hmid, fun i hi => ?_, fun i hi hil => ?_⟩
          · rcases Nat.lt_or_ge i left with h3 | h3
            · exact hleft i h3
            · exact he ▸ hs i mid (by omega) (by omega)
          · exact he ▸ hs mid i hi hil
    · simp only [hc, if_false]
      exact ⟨le_refl _, by omega, fun i hi => hleft i (by omega),
        fun i hi hil => hright i (by omega) hil⟩

theorem sortetSearch_spec (l : List (ℕ × ℕ)) (ik : ℕ) (hs : sortedDesc l) :
    sortetSearch l ik ≤ l.length ∧
      (∀ i, i < sortetSearch l ik → ik ≤ (l.getD i (0, 0)).1) ∧
      (∀ i, sortetSearch l ik ≤ i → i < l.length →
        (l.getD i (0, 0)).1 ≤ ik) := by
  have := sortetSearchLoop_spec l ik hs (l.length + 1) 0 l.length
    (Nat.zero_le _) (le_refl _) (by omega) (fun i hi => by omega)
    (fun i hi hil => by omega)
  exact ⟨this.2.1, this.2.2.1, this.2.2.2⟩

theorem getD_insertIdx (l : List (ℕ × ℕ)) (p : ℕ) (x : ℕ × ℕ)
    (hp : p ≤ l.length) (i : ℕ) :
    (l.insertIdx p x).getD i (0, 0) =
      if i < p then l.getD i (0, 0)
      else if i = p then x
      else l.getD (i - 1) (0, 0) := by
  induction l generalizing p i with
  | nil =>
    have hp0 : p = 0 := Nat.le_zero.mp hp
    subst hp0
    match i with
    | 0 => simp [List.insertIdx]
    | i + 1 => simp [List.insertIdx]
  | cons hd tl ih =>
    match p with
    | 0 =>
      match i with
      | 0 => simp [List.insertIdx]
      | i + 1 => simp [List.insertIdx]
    | p + 1 =>
      match i with
      | 0 => simp [List.insertIdx]
      | i + 1 =>
        simp only [List.insertIdx_succ_cons, List.getD_cons_succ]
        rw [ih p (by simpa using hp) i]
        rcases Nat.lt_trichotomy i p with h | h | h
        · simp [h, Nat.succ_lt_succ h]
        · simp [h]
        · have h1 : ¬ i < p := by omega
          have h3 : i ≠ p := by omega
          obtain ⟨j, rfl⟩ : ∃ j, i = j + 1 := ⟨i - 1, by omega⟩
          simp [h1, h3]

theorem multiset_insertIdx (l : List (ℕ × ℕ)) (p : ℕ) (x : ℕ × ℕ)
    (hp : p ≤ l.length) :
    ((l.insertIdx p x : List (ℕ × ℕ)) : Multiset (ℕ × ℕ)) =
      x ::ₘ (l : Multiset (ℕ × ℕ)) := by
  induction l generalizing p with
  | nil =>
    have hp0 : p = 0 := Nat.le_zero.mp hp
    subst hp0
    rfl
  | cons hd tl ih =>
    match p with
    | 0 => rfl
    | p + 1 =>
      simp only [List.insertIdx_succ_cons]
      have := ih p (by simpa using hp)
      calc ((hd :: tl.insertIdx p x : List (ℕ × ℕ)) : Multiset (ℕ × ℕ)) =
          hd ::ₘ (tl.insertIdx p x : List (ℕ × ℕ)) := rfl
        _ = hd ::ₘ x ::ₘ (tl : Multiset (ℕ × ℕ)) := by rw [this]
        _ = x ::ₘ hd ::ₘ (tl : Multiset (ℕ × ℕ)) := Multiset.cons_swap _ _ _
        _ = x ::ₘ ((hd :: tl : List (ℕ × ℕ)) : Multiset (ℕ × ℕ)) := rfl

theorem sortedDesc_getLast_min (l : List (ℕ × ℕ)) (hs : sortedDesc l)
    (x : ℕ × ℕ) (hx : l.getLast? = some x) :
    ∀ kv ∈ l, x.1 ≤ kv.1 := by
  intro kv hkv
  rcases List.mem_iff_getElem.mp hkv with ⟨i, hi, rfl⟩
  have hlen : 0 < l.length := by
    cases l with
    | nil => simp at hx
    | cons a t => simp
  have hxe : x = l.getD (l.length - 1) (0, 0) := by
    rw [List.getD_eq_getElem l (0, 0) (by omega)]
    rw [List.getLast?_eq_getElem?, List.getElem?_eq_getElem (by omega)] at hx
    exact (Option.some.inj hx).symm
  rw [hxe, ← List.getD_eq_getElem l (0, 0) hi]
  exact hs i (l.length - 1) (by omega) (by omega)

theorem getD_dropLast (l : List (ℕ × ℕ)) (i : ℕ) (hi : i < l.length - 1) :
    l.dropLast.getD i (0, 0) = l.getD i (0, 0) := by
  rw [List.dropLast_eq_take]
  rw [List.getD_eq_getElem _ (0, 0) (by rw [List.length_take]; omega),
    List.getD_eq_getElem _ (0, 0) (by omega)]
  exact List.getElem_take _

theorem sortedDesc_dropLast (l : List (ℕ × ℕ)) (hs : sortedDesc l) :
    sortedDesc l.dropLast := by
  intro i j hij hj
  rw [List.length_dropLast] at hj
  rw [getD_dropLast l i (by omega), getD_dropLast l j (by omega)]
  exact hs i j hij (by omega)

theorem sortedDesc_insert (l : List (ℕ × ℕ)) (hs : sortedDesc l) (kk v : ℕ) :
    sortedDesc (l.insertIdx (sortetSearch l kk) (kk, v)) := by
  obtain ⟨hp, hbefore, hafter⟩ := sortetSearch_spec l kk hs
  set p := sortetSearch l kk with hpd
  intro i j hij hj
  have hlen : (l.insertIdx p (kk, v)).length = l.length + 1 :=
    List.length_insertIdx p l hp
  rw [hlen] at hj
  rw [getD_insertIdx l p (kk, v) hp i, getD_insertIdx l p (kk, v) hp j]
  by_cases hjp : j < p
  · rw [if_pos hjp, if_pos (show i < p by omega)]
    exact hs i j hij (by omega)
  · rw [if_neg hjp]
    by_cases hjep : j = p
    · rw [if_pos hjep]
      by_cases hip : i < p
      · rw [if_pos hip]
        exact hbefore i hip
      · rw [if_neg hip, if_pos (show i = p by omega)]
    · rw [if_neg hjep]
      by_cases hj1 : j - 1 < l.length
      · by_cases hip : i < p
        · rw [if_pos hip]
          exact le_trans (hafter (j - 1) (by omega) hj1) (hbefore i hip)
        · by_cases hiep : i = p
          · rw [if_neg hip, if_pos hiep]
            exact hafter (j - 1) (by omega) hj1
          · rw [if_neg hip, if_neg hiep]
            exact hs (i - 1) (j - 1) (by omega) hj1
      · rw [List.getD_eq_default _ _ (by omega)]
        exact Nat.zero_le _

/-- The `SortetList` queue obeys the `PriorityQueue` laws: the invariant is
descending key order, the abstraction the item multiset. -/
def sortetLaws : PQLaws sortetImpl where
  Inv := sortedDesc
  mdl := fun l => (l : Multiset (ℕ × ℕ))
  fromV_inv := by
    intro s i j hij hj
    simp only [sortetImpl, List.length_cons, List.length_nil] at hj
    have hj0 : j = 0 := by omega
    have hi0 : i = 0 := by omega
    rw [hi0, hj0]
  fromV_mdl := by intro s; rfl
  push_inv := by
    intro kk v q hq
    exact sortedDesc_insert q hq kk v
  push_mdl := by
    intro kk v q hq
    exact multiset_insertIdx q (sortetSearch q kk) (kk, v)
      (sortetSearch_spec q kk hq).1
  pop_none := by
    intro q hq
    have h1 : sortetImpl.pop q = none ↔ q.getLast? = none := by
      cases hql : q.getLast? <;> simp [sortetImpl, hql]
    rw [h1, List.getLast?_eq_none_iff, Multiset.coe_eq_zero]
  pop_some := by
    intro q kk v q2 hq hpop
    cases hql : q.getLast? with
    | none => simp [sortetImpl, hql] at hpop
    | some x =>
      simp only [sortetImpl, hql, Option.some.injEq] at hpop
      have hx : x = (kk, v) := congrArg Prod.fst hpop
      have hq2 : q.dropLast = q2 := congrArg Prod.snd hpop
      subst hx
      have hsplit : q.dropLast ++ [(kk, v)] = q :=
        List.dropLast_append_getLast? _ hql
      have hmem : (kk, v) ∈ q := by
        rw [← hsplit]
        exact List.mem_append_right _ (by simp)
      have hms : ((q.dropLast ++ [(kk, v)] : List (ℕ × ℕ)) :
          Multiset (ℕ × ℕ)) =
          (kk, v) ::ₘ (q.dropLast : Multiset (ℕ × ℕ)) := by
        rw [← Multiset.coe_add, add_comm, Multiset.coe_singleton,
          Multiset.singleton_add]
      refine ⟨hmem, ?_, ?_, ?_⟩
      · subst hq2
        show (q.dropLast : Multiset (ℕ × ℕ)) =
          ((q : List (ℕ × ℕ)) : Multiset (ℕ × ℕ)).erase (kk, v)
        conv_rhs => rw [← hsplit]
        rw [hms, Multiset.erase_cons_head]
      · rw [← hq2]
        exact sortedDesc_dropLast q hq
      · intro kv hkv
        exact sortedDesc_getLast_min q hq (kk, v) hql kv hkv
  size_mdl := by
    intro q hq
    simp [sortetImpl]

/-- Sum of the edge weights leaving one vertex. -/
def rowSum (g : NeighborList) (u : ℕ) : ℕ :=
  ((get_neighbors g u).map (fun e => e.weight)).sum

theorem WalkW.trans {g : NeighborList} {s u v : ℕ} {c1 c2 : ℕ}
    (h1 : WalkW g s u c1) (h2 : WalkW g u v c2) : WalkW g s v (c1 + c2) := by
  induction h2 with
  | nil => exact h1
  | cons hw he ih => exact (Nat.add_assoc _ _ _) ▸ WalkW.cons ih he

theorem exists_shortest {g : NeighborList} {s v : ℕ} (h : reaches g s v) :
    ∃ d, IsShortest g s v d := by
  classical
  have hne : {c | WalkW g s v c}.Nonempty := h
  refine ⟨sInf {c | WalkW g s v c}, Nat.sInf_mem hne, fun c hc => Nat.sInf_le hc⟩

theorem shortest_le {g : NeighborList} {s v d c : ℕ}
    (h : IsShortest g s v d) (hc : WalkW g s v c) : d ≤ c := h.2 c hc

theorem shortest_unique {g : NeighborList} {s v d1 d2 : ℕ}
    (h1 : IsShortest g s v d1) (h2 : IsShortest g s v d2) : d1 = d2 :=
  le_antisymm (h1.2 _ h2.1) (h2.2 _ h1.1)

theorem pathCost_to_walk {g : NeighborList} :
    ∀ {l : List ℕ} {c : ℕ}, PathCost g l c →
      ∀ {s v : ℕ}, l.head? = some s → l.getLast? = some v → WalkW g s v c := by
  intro l c h
  induction h with
  | single x =>
    intro s v hs hv
    simp only [List.head?_cons, Option.some.injEq] at hs
    simp only [List.getLast?_singleton, Option.some.injEq] at hv
    rw [← hs, ← hv]
    exact WalkW.nil
  | cons he hp ih =>
    intro s v hs hv
    simp only [List.head?_cons, Option.some.injEq] at hs
    rename_i u x rest w c2
    have hlast : (x :: rest).getLast? = some v := by
      rw [List.getLast?_cons_cons] at hv
      exact hv
    have hw : WalkW g x v c2 := ih rfl hlast
    have hstep : WalkW g u v (w + c2) := by
      have := WalkW.trans (WalkW.cons WalkW.nil he) hw
      simpa using this
    rw [← hs]
    exact hstep

theorem pathCost_snoc {g : NeighborList} {l : List ℕ} {c : ℕ}
    (h : PathCost g l c) :
    ∀ {u x w : ℕ}, l.getLast? = some u → edgeW g u x w →
      PathCost g (l ++ [x]) (c + w) := by
  induction h with
  | single y =>
    intro u x w hl he
    simp only [List.getLast?_singleton, Option.some.injEq] at hl
    have h2 : PathCost g [y, x] (w + 0) :=
      PathCost.cons (hl ▸ he) (PathCost.single x)
    simpa [Nat.add_comm] using h2
  | cons he2 hp2 ih =>
    intro u x w hl he
    rw [List.getLast?_cons_cons] at hl
    have h2 := PathCost.cons he2 (ih hl he)
    simpa [Nat.add_assoc] using h2

theorem walk_to_pathCost {g : NeighborList} {s v c : ℕ}
    (h : WalkW g s v c) :
    ∃ l, PathCost g l c ∧ l.head? = some s ∧ l.getLast? = some v := by
  induction h with
  | nil => exact ⟨[s], PathCost.single s, rfl, rfl⟩
  | cons hw he ih =>
    obtain ⟨l, hpc, hh, hl⟩ := ih
    cases l with
    | nil => simp at hh
    | cons a t =>
      refine ⟨(a :: t) ++ [_], pathCost_snoc hpc hl he, ?_, ?_⟩
      · simpa using hh
      · exact List.getLast?_concat _

theorem pathCost_split {g : NeighborList} :
    ∀ (l1 : List ℕ) (x : ℕ) (l2 : List ℕ) (c : ℕ),
      PathCost g (l1 ++ x :: l2) c →
      ∃ c1 c2, c = c1 + c2 ∧ PathCost g (l1 ++ [x]) c1 ∧
        PathCost g (x :: l2) c2 := by
  intro l1
  induction l1 with
  | nil =>
    intro x l2 c h
    exact ⟨0, c, (Nat.zero_add c).symm, PathCost.single x, h⟩
  | cons a l1 ih =>
    intro x l2 c h
    cases l1 with
    | nil =>
      cases h with
      | cons he hp =>
        rename_i w c2
        exact ⟨w + 0, c2, by omega,
          PathCost.cons he (PathCost.single x), hp⟩
    | cons b l1' =>
      cases h with
      | cons he hp =>
        rename_i w c2
        obtain ⟨c1, c2', hc, hp1, hp2⟩ := ih x l2 _ hp
        exact ⟨w + c1, c2', by omega, PathCost.cons he hp1, hp2⟩

theorem pathCost_join {g : NeighborList} :
    ∀ (l1 : List ℕ) (x : ℕ) (l2 : List ℕ) (c1 c2 : ℕ),
      PathCost g (l1 ++ [x]) c1 → PathCost g (x :: l2) c2 →
      PathCost g (l1 ++ x :: l2) (c1 + c2) := by
  intro l1
  induction l1 with
  | nil =>
    intro x l2 c1 c2 h1 h2
    cases h1 with
    | single => simpa using h2
  | cons a l1 ih =>
    intro x l2 c1 c2 h1 h2
    cases l1 with
    | nil =>
      cases h1 with
      | cons he hp =>
        cases hp with
        | single =>
          rename_i w
          have h3 := PathCost.cons he h2
          have harith : w + c2 = w + 0 + c2 := by omega
          rw [harith] at h3
          exact h3
    | cons b l1' =>
      cases h1 with
      | cons he hp =>
        rename_i w c3
        have h3 := PathCost.cons he (ih x l2 _ _ hp h2)
        have harith : w + (c3 + c2) = w + c3 + c2 := by omega
        rw [harith] at h3
        exact h3

theorem exists_dup_split {l : List ℕ} (h : ¬ l.Nodup) :
    ∃ l1 x l2, l = l1 ++ x :: l2 ∧ x ∈ l2 := by
  induction l with
  | nil => simp at h
  | cons a t ih =>
    by_cases ha : a ∈ t
    · exact ⟨[], a, t, rfl, ha⟩
    · have hnt : ¬ t.Nodup := by
        intro hnd
        exact h (List.nodup_cons.mpr ⟨ha, hnd⟩)
      obtain ⟨l1, x, l2, heq, hx⟩ := ih hnt
      exact ⟨a :: l1, x, l2, by rw [heq]; rfl, hx⟩

theorem pathCost_dedup {g : NeighborList} :
    ∀ (n : ℕ) (l : List ℕ) (c : ℕ), l.length = n → PathCost g l c →
      ∃ l2 c2, PathCost g l2 c2 ∧ c2 ≤ c ∧ l2.Nodup ∧
        l2.head? = l.head? ∧ l2.getLast? = l.getLast? := by
  intro n
  induction n using Nat.strong_induction_on with
  | _ n ih =>
    intro l c hlen h
    by_cases hnd : l.Nodup
    · exact ⟨l, c, h, le_refl _, hnd, rfl, rfl⟩
    · obtain ⟨l1, x, l2, heq, hx⟩ := exists_dup_split hnd
      obtain ⟨l3, l4, heq2⟩ := List.append_of_mem hx
      subst heq2
      subst heq
      obtain ⟨c1, crest, hc, hp1, hp2⟩ := pathCost_split l1 x (l3 ++ x :: l4) c h
      obtain ⟨c2a, c2b, hc2, hp2a, hp2b⟩ :=
        pathCost_split (x :: l3) x l4 crest hp2
      have hjoin := pathCost_join l1 x l4 c1 c2b hp1 hp2b
      have hlt : (l1 ++ x :: l4).length < n := by
        rw [← hlen]
        simp only [List.length_append, List.length_cons]
        omega
      obtain ⟨l5, c5, hp5, hle5, hnd5, hh5, hl5⟩ :=
        ih _ hlt (l1 ++ x :: l4) (c1 + c2b) rfl hjoin
      refine ⟨l5, c5, hp5, by omega, hnd5, ?_, ?_⟩
      · rw [hh5]
        cases l1 <;> simp
      · rw [hl5, List.getLast?_append_cons]
        have hshape : x :: (l3 ++ x :: l4) = (x :: l3) ++ x :: l4 := by simp
        rw [List.getLast?_append_cons, hshape, List.getLast?_append_cons]

theorem edgeW_dst_valid {g : NeighborList} {u v w : ℕ} (hg : GraphWF g)
    (he : edgeW g u v w) : 1 ≤ v ∧ v ≤ g.length := by
  unfold edgeW get_neighbors at he
  rcases Nat.lt_or_ge (u - 1) g.length with h | h
  · rw [List.getD_eq_getElem _ _ h] at he
    have hb := hg _ (List.getElem_mem h) _ he
    exact ⟨hb.1, hb.2.1⟩
  · rw [List.getD_eq_default _ _ h] at he
    simp at he

theorem edgeW_weight_valid {g : NeighborList} {u v w : ℕ} (hg : GraphWF g)
    (he : edgeW g u v w) : w < U32LIM := by
  unfold edgeW get_neighbors at he
  rcases Nat.lt_or_ge (u - 1) g.length with h | h
  · rw [List.getD_eq_getElem _ _ h] at he
    exact (hg _ (List.getElem_mem h) _ he).2.2
  · rw [List.getD_eq_default _ _ h] at he
    simp at he

theorem pathCost_vertices_valid {g : NeighborList} (hg : GraphWF g) :
    ∀ {l : List ℕ} {c : ℕ}, PathCost g l c →
      ∀ {s : ℕ}, l.head? = some s → 1 ≤ s → s ≤ g.length →
      ∀ v ∈ l, 1 ≤ v ∧ v ≤ g.length := by
  intro l c h
  induction h with
  | single y =>
    intro s hh h1 h2 v hv
    simp only [List.head?_cons, Option.some.injEq] at hh
    simp only [List.mem_singleton] at hv
    rw [hv, hh]
    exact ⟨h1, h2⟩
  | cons he hp ih =>
    intro s hh h1 h2 v hv
    simp only [List.head?_cons, Option.some.injEq] at hh
    have hdst := edgeW_dst_valid hg he
    simp only [List.mem_cons] at hv
    rcases hv with hv | hv
    · rw [hv, hh]
      exact ⟨h1, h2⟩
    · exact ih rfl hdst.1 hdst.2 v (List.mem_cons.mpr hv)

theorem edge_weight_le_rowSum {g : NeighborList} {u v w : ℕ}
    (he : edgeW g u v w) : w ≤ rowSum g u := by
  unfold edgeW at he
  unfold rowSum
  have : w ∈ (get_neighbors g u).map (fun e => e.weight) :=
    List.mem_map.mpr ⟨_, he, rfl⟩
  exact List.single_le_sum (by simp) w this

theorem pathCost_le_rowSums {g : NeighborList} :
    ∀ {l : List ℕ} {c : ℕ}, PathCost g l c →
      c ≤ (l.dropLast.map (rowSum g)).sum := by
  intro l c h
  induction h with
  | single y => simp
  | cons he hp ih =>
    rename_i u v rest w c2
    have hd : (u :: v :: rest).dropLast = u :: (v :: rest).dropLast := by
      simp
    rw [hd]
    simp only [List.map_cons, List.sum_cons]
    exact Nat.add_le_add (edge_weight_le_rowSum he) ih

theorem list_sum_getD {α : Type} (f : α → ℕ) (d : α) :
    ∀ (l : List α), (l.map f).sum = ∑ i ∈ Finset.range l.length, f (l.getD i d) := by
  intro l
  induction l with
  | nil => simp
  | cons a t ih =>
    simp only [List.map_cons, List.sum_cons, List.length_cons]
    rw [Finset.sum_range_succ' (fun i => f ((a :: t).getD i d))]
    simp only [List.getD_cons_succ, List.getD_cons_zero]
    rw [← ih]
    omega

theorem nodup_rowSums_le_sumW {g : NeighborList} {l : List ℕ}
    (hnd : l.Nodup) (hv : ∀ v ∈ l, 1 ≤ v ∧ v ≤ g.length) :
    (l.map (rowSum g)).sum ≤ sumW g := by
  classical
  have hmap : l.map (rowSum g) = (l.map (fun v => v - 1)).map
      (fun i => ((g.getD i []).map (fun e => e.weight)).sum) := by
    rw [List.map_map]
    rfl
  have hnd2 : (l.map (fun v => v - 1)).Nodup := by
    refine List.Nodup.map_on ?_ hnd
    intro x hx y hy hxy
    have h1 := (hv x hx).1
    have h2 := (hv y hy).1
    omega
  have hsub : (l.map (fun v => v - 1)).toFinset ⊆
      Finset.range g.length := by
    intro a ha
    rw [List.mem_toFinset] at ha
    obtain ⟨v, hvmem, rfl⟩ := List.mem_map.mp ha
    have := hv v hvmem
    exact Finset.mem_range.mpr (by omega)
  rw [hmap, ← List.sum_toFinset _ hnd2]
  have hle := Finset.sum_le_sum_of_subset
    (f := fun i => ((g.getD i []).map (fun e => e.weight)).sum) hsub
  refine le_trans hle ?_
  have hsw : sumW g = ∑ i ∈ Finset.range g.length,
      ((g.getD i []).map (fun e => e.weight)).sum := by
    unfold sumW
    exact list_sum_getD (fun bucket => (bucket.map (fun e => e.weight)).sum) [] g
  rw [hsw]

theorem shortest_le_sumW {g : NeighborList} {s v d : ℕ} (hg : GraphWF g)
    (h1 : 1 ≤ s) (h2 : s ≤ g.length) (hd : IsShortest g s v d) :
    d ≤ sumW g := by
  obtain ⟨l, hpc, hh, hl⟩ := walk_to_pathCost hd.1
  obtain ⟨l2, c2, hp2, hle, hnd2, hh2, hl2⟩ :=
    pathCost_dedup l.length l d rfl hpc
  have hvalid := pathCost_vertices_valid hg hp2 (hh2.trans hh) h1 h2
  have hbound := pathCost_le_rowSums hp2
  have hrow : (l2.dropLast.map (rowSum g)).sum ≤ sumW g :=
    nodup_rowSums_le_sumW (List.Nodup.sublist (List.dropLast_sublist l2) hnd2)
      (fun x hx => hvalid x (List.Sublist.mem hx (List.dropLast_sublist l2)))
  have hwalk : WalkW g s v c2 :=
    pathCost_to_walk hp2 (hh2.trans hh) (hl2.trans hl)
  have : d ≤ c2 := hd.2 c2 hwalk
  omega

theorem shortest_edge_le_sumW {g : NeighborList} {s u d x w : ℕ}
    (hg : GraphWF g) (h1 : 1 ≤ s) (h2 : s ≤ g.length)
    (hd : IsShortest g s u d) (he : edgeW g u x w) : d + w ≤ sumW g := by
  obtain ⟨l, hpc, hh, hl⟩ := walk_to_pathCost hd.1
  obtain ⟨l2, c2, hp2, hle, hnd2, hh2, hl2⟩ :=
    pathCost_dedup l.length l d rfl hpc
  have hwalk : WalkW g s u c2 :=
    pathCost_to_walk hp2 (hh2.trans hh) (hl2.trans hl)
  have hc2 : c2 = d := le_antisymm (by omega) (hd.2 c2 hwalk)
  have hext := pathCost_snoc hp2 (hl2.trans hl) he
  have hdl : (l2 ++ [x]).dropLast = l2 := by simp
  have hbound := pathCost_le_rowSums hext
  rw [hdl] at hbound
  have hvalid := pathCost_vertices_valid hg hp2 (hh2.trans hh) h1 h2
  have hrow : (l2.map (rowSum g)).sum ≤ sumW g :=
    nodup_rowSums_le_sumW hnd2 hvalid
  omega

/-- Settled key of a vertex in a `NoLookup` state. -/
def NoLookupSt.settledK {σ : Type} (st : NoLookupSt σ) (v : ℕ) : Option ℕ :=
  match st.meta v with
  | some (some k, _) => some k
  | _ => none

/-- Key of the last emitted trace entry (0 on the empty trace). -/
def lastKey (tr : List (ℕ × ℕ)) : ℕ :=
  ((tr.getLast?).map (fun kv => kv.1)).getD 0

/-- Position of a vertex in the emission trace. -/
def trPos (tr : List (ℕ × ℕ)) (v : ℕ) : ℕ :=
  (tr.map (fun kv => kv.2)).indexOf v

/-- A meta entry that is present but not settled. -/
def unsett (meta : ℕ → Option (Option ℕ × ℕ)) (v : ℕ) : Prop :=
  ∃ p, meta v = some (none, p)

/-- Edge `e` (leaving a vertex settled at key `k`) has been relaxed: its
target is settled, or the queue holds an item for the target with key at
most `k + w`. -/
def coveredEdge {σ : Type} (Q : PQImpl σ) (L : PQLaws Q)
    (st : NoLookupSt σ) (k : ℕ) (e : Neighbor) : Prop :=
  (∃ k2, st.settledK e.dst = some k2) ∨
    ∃ kx, (kx, e.dst) ∈ L.mdl st.queue ∧ kx ≤ k + e.weight

/-- Driver invariant of the `NoLookup` shell over a lawful queue, relating
the state to the emission trace `tr`; the edge-relaxation obligation is
waived for vertices satisfying `ex` (the vertex whose neighbors are
currently being explored). -/
structure NLInvX {σ : Type} (Q : PQImpl σ) (L : PQLaws Q) (g : NeighborList)
    (s : ℕ) (st : NoLookupSt σ) (tr : List (ℕ × ℕ)) (ex : ℕ → Prop) :
    Prop where
  qinv : L.Inv st.queue
  tr_settled : ∀ kv ∈ tr, st.settledK kv.2 = some kv.1
  settled_tr : ∀ v k, st.settledK v = some k → (k, v) ∈ tr
  tr_nodup : (tr.map (fun kv => kv.2)).Nodup
  tr_chain : List.Chain' (fun a b => a.1 ≤ b.1) tr
  settled_shortest : ∀ v k, st.settledK v = some k → IsShortest g s v k
  item_walk : ∀ kv ∈ L.mdl st.queue, WalkW g s kv.2 kv.1
  item_meta : ∀ kv ∈ L.mdl st.queue, st.meta kv.2 ≠ none
  item_last : ∀ kv ∈ L.mdl st.queue, lastKey tr ≤ kv.1
  relaxed : ∀ u k, st.settledK u = some k → ¬ ex u →
    ∀ e ∈ get_neighbors g u, coveredEdge Q L st k e
  meta_reach : ∀ v, st.meta v ≠ none → reaches g s v
  meta_prev : ∀ v o p, st.meta v = some (o, p) →
    (v = s ∧ p = s) ∨ ∃ w kp, edgeW g p v w ∧ st.settledK p = some kp
  prev_pos : ∀ v k p, st.meta v = some (some k, p) → v ≠ s →
    trPos tr p < trPos tr v ∧ trPos tr v < tr.length
  meta_valid : ∀ v, st.meta v ≠ none → 1 ≤ v ∧ v ≤ g.length
  s_state : (∃ k p, st.meta s = some (some k, p) ∧ p = s) ∨
    (tr = [] ∧ st.meta = mupd (fun _ => none) s (none, s) ∧
      L.mdl st.queue = {(0, s)})

/-- The full driver invariant: no vertex is excused from relaxation. -/
abbrev NLInv {σ : Type} (Q : PQImpl σ) (L : PQLaws Q) (g : NeighborList)
    (s : ℕ) (st : NoLookupSt σ) (tr : List (ℕ × ℕ)) : Prop :=
  NLInvX Q L g s st tr (fun _ => False)

theorem nlPopLoop_none_spec {σ : Type} (Q : PQImpl σ) (L : PQLaws Q) :
    ∀ fuel q meta, L.Inv q → Multiset.card (L.mdl q) < fuel →
      (∀ kv ∈ L.mdl q, meta kv.2 ≠ none) →
      nlPopLoop Q fuel q meta = none →
      ∀ kv ∈ L.mdl q, ¬ unsett meta kv.2 := by
  intro fuel
  induction fuel with
  | zero => intro q meta _ h; omega
  | succ fuel ih =>
    intro q meta hq hcard hmeta hnone kv hkv
    rw [nlPopLoop] at hnone
    cases hpop : Q.pop q with
    | none =>
      rw [(L.pop_none q hq).mp hpop] at hkv
      simp at hkv
    | some res =>
      obtain ⟨⟨k0, v0⟩, q2⟩ := res
      rw [hpop] at hnone
      dsimp only at hnone
      obtain ⟨hmem, herase, hinv2, hmin⟩ := L.pop_some q k0 v0 q2 hq hpop
      cases hm : meta v0 with
      | none => exact absurd hm (hmeta _ hmem)
      | some ov =>
        obtain ⟨o, p⟩ := ov
        cases o with
        | none => rw [hm] at hnone; simp at hnone
        | some k2 =>
          rw [hm] at hnone
          dsimp only at hnone
          by_cases hkv0 : kv = (k0, v0)
          · rw [hkv0]
            intro hu
            obtain ⟨p2, hp2⟩ := hu
            rw [hm] at hp2
            simp at hp2
          · have hkv2 : kv ∈ L.mdl q2 := by
              rw [herase]
              exact Multiset.mem_erase_of_ne hkv0 |>.mpr hkv
            have hcard2 : Multiset.card (L.mdl q2) < fuel := by
              rw [herase, Multiset.card_erase_of_mem hmem, Nat.pred_eq_sub_one]
              have hpos : 0 < Multiset.card (L.mdl q) :=
                Multiset.card_pos_iff_exists_mem.mpr ⟨_, hmem⟩
              omega
            exact ih q2 meta hinv2 hcard2
              (fun kv2 hkv2b => hmeta kv2 (by
                rw [herase] at hkv2b
                exact Multiset.mem_of_mem_erase hkv2b)) hnone kv hkv2

theorem nlPopLoop_some_spec {σ : Type} (Q : PQImpl σ) (L : PQLaws Q) :
    ∀ fuel q meta k v st2, L.Inv q → Multiset.card (L.mdl q) < fuel →
      nlPopLoop Q fuel q meta = some ((k, v), st2) →
      (∃ p, meta v = some (none, p) ∧
        st2.meta = mupd meta v (some k, p)) ∧
      (k, v) ∈ L.mdl q ∧ L.Inv st2.queue ∧
      (∀ kv ∈ L.mdl st2.queue, kv ∈ L.mdl q) ∧
      (∀ kv ∈ L.mdl q, unsett meta kv.2 → k ≤ kv.1) ∧
      (∀ kv ∈ L.mdl st2.queue, k ≤ kv.1) ∧
      (∀ kv ∈ L.mdl q, unsett meta kv.2 → kv.2 ≠ v → kv ∈ L.mdl st2.queue) := by
  intro fuel
  induction fuel with
  | zero => intro q meta k v st2 _ h; omega
  | succ fuel ih =>
    intro q meta k v st2 hq hcard hsome
    rw [nlPopLoop] at hsome
    cases hpop : Q.pop q with
    | none => rw [hpop] at hsome; simp at hsome
    | some res =>
      obtain ⟨⟨k0, v0⟩, q2⟩ := res
      rw [hpop] at hsome
      dsimp only at hsome
      obtain ⟨hmem, herase, hinv2, hmin⟩ := L.pop_some q k0 v0 q2 hq hpop
      cases hm : meta v0 with
      | none => rw [hm] at hsome; simp at hsome
      | some ov =>
        obtain ⟨o, p⟩ := ov
        cases o with
        | some k2 =>
          rw [hm] at hsome
          dsimp only at hsome
          have hcard2 : Multiset.card (L.mdl q2) < fuel := by
            rw [herase, Multiset.card_erase_of_mem hmem, Nat.pred_eq_sub_one]
            have hpos : 0 < Multiset.card (L.mdl q) :=
              Multiset.card_pos_iff_exists_mem.mpr ⟨_, hmem⟩
            omega
          obtain ⟨hmeta2, hmem2, hinv3, hsub, hunsett, hallge, hsurv⟩ :=
            ih q2 meta k v st2 hinv2 hcard2 hsome
          have hsubq : ∀ kv ∈ L.mdl q2, kv ∈ L.mdl q := by
            intro kv hkv
            rw [herase] at hkv
            exact Multiset.mem_of_mem_erase hkv
          refine ⟨hmeta2, hsubq _ hmem2, hinv3,
            fun kv hkv => hsubq _ (hsub kv hkv), ?_, hallge, ?_⟩
          · intro kv hkv hu
            have hne : kv ≠ (k0, v0) := by
              intro he
              obtain ⟨p2, hp2⟩ := hu
              rw [he] at hp2
              simp only at hp2
              rw [hm] at hp2
              simp at hp2
            exact hunsett kv (by
              rw [herase]
              exact (Multiset.mem_erase_of_ne hne).mpr hkv) hu
          · intro kv hkv hu hne2
            have hne : kv ≠ (k0, v0) := by
              intro he
              obtain ⟨p2, hp2⟩ := hu
              rw [he] at hp2
              simp only at hp2
              rw [hm] at hp2
              simp at hp2
            exact hsurv kv (by
              rw [herase]
              exact (Multiset.mem_erase_of_ne hne).mpr hkv) hu hne2
        | none =>
          rw [hm] at hsome
          dsimp only at hsome
          simp only [Option.some.injEq] at hsome
          have hk : k = k0 := (congrArg (fun x => x.1.1) hsome).symm
          have hv : v = v0 := (congrArg (fun x => x.1.2) hsome).symm
          have hst : st2 = { queue := q2, meta := mupd meta v0 (some k0, p) } :=
            (congrArg (fun x => x.2) hsome).symm
          rw [hk, hv, hst]
          refine ⟨⟨p, hm, rfl⟩, hmem, hinv2, ?_, ?_, ?_, ?_⟩
          · intro kv hkv
            rw [herase] at hkv
            exact Multiset.mem_of_mem_erase hkv
          · intro kv hkv _
            exact hmin kv hkv
          · intro kv hkv
            rw [herase] at hkv
            exact hmin kv (Multiset.mem_of_mem_erase hkv)
          · intro kv hkv _ hne2
            rw [herase]
            exact (Multiset.mem_erase_of_ne (by
              intro he
              exact hne2 (congrArg (fun x => x.2) he))).mpr hkv

theorem pop_min_none_spec {σ : Type} {Q : PQImpl σ} (L : PQLaws Q)
    {st : NoLookupSt σ} (hq : L.Inv st.queue)
    (hmeta : ∀ kv ∈ L.mdl st.queue, st.meta kv.2 ≠ none)
    (hnone : NoLookupSt.pop_min Q st = none) :
    ∀ kv ∈ L.mdl st.queue, ¬ unsett st.meta kv.2 := by
  apply nlPopLoop_none_spec Q L (Q.size st.queue + 1) st.queue st.meta hq
    ?_ hmeta hnone
  rw [L.size_mdl st.queue hq]
  omega

theorem pop_min_some_spec {σ : Type} {Q : PQImpl σ} (L : PQLaws Q)
    {st st2 : NoLookupSt σ} {k v : ℕ} (hq : L.Inv st.queue)
    (hsome : NoLookupSt.pop_min Q st = some ((k, v), st2)) :
    (∃ p, st.meta v = some (none, p) ∧
      st2.meta = mupd st.meta v (some k, p)) ∧
    (k, v) ∈ L.mdl st.queue ∧ L.Inv st2.queue ∧
    (∀ kv ∈ L.mdl st2.queue, kv ∈ L.mdl st.queue) ∧
    (∀ kv ∈ L.mdl st.queue, unsett st.meta kv.2 → k ≤ kv.1) ∧
    (∀ kv ∈ L.mdl st2.queue, k ≤ kv.1) ∧
    (∀ kv ∈ L.mdl st.queue, unsett st.meta kv.2 → kv.2 ≠ v →
      kv ∈ L.mdl st2.queue) := by
  apply nlPopLoop_some_spec Q L (Q.size st.queue + 1) st.queue st.meta k v st2
    hq ?_ hsome
  rw [L.size_mdl st.queue hq]
  omega

theorem walk_first_out {g : NeighborList} {s v c : ℕ} (P : ℕ → Prop)
    (h : WalkW g s v c) (hv : ¬ P v) :
    ¬ P s ∨ ∃ u x w c1, P u ∧ ¬ P x ∧ edgeW g u x w ∧ WalkW g s u c1 ∧
      c1 + w ≤ c := by
  classical
  induction h with
  | nil => exact Or.inl hv
  | cons hw he ih =>
    rename_i u c1 x w
    by_cases hu : P u
    · exact Or.inr ⟨u, x, w, c1, hu, hv, he, hw, le_refl _⟩
    · rcases ih hu with h1 | ⟨u2, x2, w2, c2, h2, h3, h4, h5, h6⟩
      · exact Or.inl h1
      · exact Or.inr ⟨u2, x2, w2, c2, h2, h3, h4, h5, by omega⟩

theorem settledK_of_meta {σ : Type} {st : NoLookupSt σ} {x k : ℕ} {p : ℕ}
    (h : st.meta x = some (some k, p)) : st.settledK x = some k := by
  rw [NoLookupSt.settledK, h]

theorem settledK_of_tent {σ : Type} {st : NoLookupSt σ} {x : ℕ} {p : ℕ}
    (h : st.meta x = some (none, p)) : st.settledK x = none := by
  rw [NoLookupSt.settledK, h]

theorem settledK_of_none {σ : Type} {st : NoLookupSt σ} {x : ℕ}
    (h : st.meta x = none) : st.settledK x = none := by
  rw [NoLookupSt.settledK, h]

theorem meta_of_settledK {σ : Type} {st : NoLookupSt σ} {x k : ℕ}
    (h : st.settledK x = some k) : ∃ p, st.meta x = some (some k, p) := by
  rw [NoLookupSt.settledK] at h
  cases hm : st.meta x with
  | none => rw [hm] at h; simp at h
  | some ov =>
    obtain ⟨o, p⟩ := ov
    cases o with
    | none => rw [hm] at h; simp at h
    | some k2 =>
      rw [hm] at h
      simp only [Option.some.injEq] at h
      refine ⟨p, ?_⟩
      rw [h]

theorem lastKey_append (tr : List (ℕ × ℕ)) (kv : ℕ × ℕ) :
    lastKey (tr ++ [kv]) = kv.1 := by
  rw [lastKey, List.getLast?_concat]
  rfl

theorem trPos_map_append (tr : List (ℕ × ℕ)) (kv : ℕ × ℕ) :
    (tr ++ [kv]).map (fun x => x.2) = tr.map (fun x => x.2) ++ [kv.2] := by
  simp

theorem trPos_append_mem {tr : List (ℕ × ℕ)} {v : ℕ} (kv : ℕ × ℕ)
    (h : v ∈ tr.map (fun x => x.2)) :
    trPos (tr ++ [kv]) v = trPos tr v := by
  rw [trPos, trPos, trPos_map_append]
  exact List.indexOf_append_of_mem h

theorem trPos_append_fresh {tr : List (ℕ × ℕ)} {v : ℕ} {k : ℕ}
    (h : v ∉ tr.map (fun x => x.2)) :
    trPos (tr ++ [(k, v)]) v = tr.length := by
  rw [trPos, trPos_map_append]
  rw [List.indexOf_append_of_not_mem h]
  simp [List.indexOf_cons_self]

theorem trPos_lt_of_mem {tr : List (ℕ × ℕ)} {v : ℕ}
    (h : v ∈ tr.map (fun x => x.2)) : trPos tr v < tr.length := by
  rw [trPos]
  have := List.indexOf_lt_length.mpr h
  simpa using this

theorem settled_mem_trmap {σ : Type} {Q : PQImpl σ} {L : PQLaws Q}
    {g : NeighborList} {s : ℕ} {st : NoLookupSt σ} {tr : List (ℕ × ℕ)}
    {ex : ℕ → Prop} (H : NLInvX Q L g s st tr ex) {x kx : ℕ}
    (h : st.settledK x = some kx) : x ∈ tr.map (fun kv => kv.2) := by
  have := H.settled_tr x kx h
  exact List.mem_map.mpr ⟨(kx, x), this, rfl⟩

theorem NLInv_settle {σ : Type} {Q : PQImpl σ} {L : PQLaws Q}
    {g : NeighborList} {s : ℕ}
    {st st2 : NoLookupSt σ} {tr : List (ℕ × ℕ)} {k v : ℕ}
    (H : NLInv Q L g s st tr)
    (hpop : NoLookupSt.pop_min Q st = some ((k, v), st2)) :
    NLInvX Q L g s st2 (tr ++ [(k, v)]) (fun u => u = v) ∧
      st2.settledK v = some k ∧ lastKey (tr ++ [(k, v)]) = k ∧
      v ∉ tr.map (fun kv => kv.2) ∧ IsShortest g s v k := by
  obtain ⟨⟨p, hmv, hmeta2⟩, hmem, hinv2, hsub, hunsge, hge, hsurv⟩ :=
    pop_min_some_spec L H.qinv hpop
  have hvns : st.settledK v = none := settledK_of_tent hmv
  have hsk2 : ∀ x, st2.settledK x = if x = v then some k else st.settledK x := by
    intro x
    rw [NoLookupSt.settledK, hmeta2, mupd]
    by_cases hx : x = v
    · simp only [if_pos hx]
    · simp only [if_neg hx]
      rfl
  have hm2 : ∀ x, x ≠ v → st2.meta x = st.meta x := by
    intro x hx
    rw [hmeta2, mupd]
    simp only [if_neg hx]
  have hm2v : st2.meta v = some (some k, p) := by
    rw [hmeta2, mupd]
    simp
  have hskv : st2.settledK v = some k := by rw [hsk2]; simp
  have hvfresh : v ∉ tr.map (fun kv => kv.2) := by
    intro hmem2
    obtain ⟨kv2, hkv2, hkv2e⟩ := List.mem_map.mp hmem2
    have := H.tr_settled kv2 hkv2
    rw [hkv2e] at this
    rw [this] at hvns
    simp at hvns
  have hunsett_of_item : ∀ kv, kv ∈ L.mdl st.queue →
      st.settledK kv.2 = none → unsett st.meta kv.2 := by
    intro kv hkv hns
    have hne := H.item_meta kv hkv
    cases hmx : st.meta kv.2 with
    | none => exact absurd hmx hne
    | some ov =>
      obtain ⟨o, p2⟩ := ov
      cases o with
      | none => exact ⟨p2, hmx⟩
      | some k2 =>
        rw [settledK_of_meta hmx] at hns
        simp at hns
  have hshort : IsShortest g s v k := by
    refine ⟨H.item_walk (k, v) hmem, ?_⟩
    intro c hc
    rcases walk_first_out (fun x => ∃ kx, st.settledK x = some kx) hc
        (by show ¬ ∃ kx, st.settledK v = some kx
            rw [hvns]; simp) with hns | hcase
    · rcases H.s_state with ⟨ks, ps, hms, _⟩ | ⟨_, _, hmdl⟩
      · exact absurd ⟨ks, settledK_of_meta hms⟩ hns
      · rw [hmdl] at hmem
        simp only [Multiset.mem_singleton, Prod.mk.injEq] at hmem
        omega
    · obtain ⟨u, x, w, c1, ⟨ku, hku⟩, hx, he, hwu, hle⟩ := hcase
      have hus := H.settled_shortest u ku hku
      have hku_le : ku ≤ c1 := hus.2 c1 hwu
      have hcov := H.relaxed u ku hku (by simp)
        { dst := x, weight := w } he
      rcases hcov with ⟨k2, hk2⟩ | ⟨kx, hkxmem, hkxle⟩
      · exact absurd ⟨k2, hk2⟩ hx
      · have hxns : st.settledK x = none := by
          cases hsx : st.settledK x with
          | none => rfl
          | some k3 => exact absurd ⟨k3, hsx⟩ hx
        have hkle := hunsge (kx, x) hkxmem (hunsett_of_item _ hkxmem hxns)
        simp only at hkle
        have hkxle2 : kx ≤ ku + w := hkxle
        omega
  have hlk := lastKey_append tr (k, v)
  have hcov_transfer : ∀ (k0 : ℕ) (e : Neighbor), coveredEdge Q L st k0 e →
      coveredEdge Q L st2 k0 e := by
    intro k0 e hcov
    rcases hcov with ⟨k2, hk2⟩ | ⟨kx, hkxmem, hkxle⟩
    · left
      refine ⟨k2, ?_⟩
      rw [hsk2]
      by_cases hx : e.dst = v
      · rw [hx] at hk2
        rw [hk2] at hvns
        simp at hvns
      · simp only [if_neg hx]
        exact hk2
    · by_cases hx : e.dst = v
      · left
        exact ⟨k, by rw [hsk2, if_pos hx]⟩
      · cases hsx : st.settledK e.dst with
        | some k3 =>
          left
          exact ⟨k3, by rw [hsk2, if_neg hx]; exact hsx⟩
        | none =>
          right
          exact ⟨kx, hsurv (kx, e.dst) hkxmem
            (hunsett_of_item _ hkxmem hsx) hx, hkxle⟩
  refine ⟨⟨hinv2, ?_, ?_, ?_, ?_, ?_, ?_, ?_, ?_, ?_, ?_, ?_, ?_, ?_, ?_⟩,
    hskv, hlk, hvfresh, hshort⟩
  · -- tr_settled
    intro kv hkv
    rcases List.mem_append.mp hkv with h1 | h1
    · have hold := H.tr_settled kv h1
      rw [hsk2]
      have hne : kv.2 ≠ v := by
        intro he2
        exact hvfresh (List.mem_map.mpr ⟨kv, h1, he2⟩)
      rw [if_neg hne]
      exact hold
    · simp only [List.mem_singleton] at h1
      rw [h1]
      exact hskv
  · -- settled_tr
    intro x kx hx
    rw [hsk2] at hx
    by_cases hxv : x = v
    · rw [if_pos hxv] at hx
      simp only [Option.some.injEq] at hx
      rw [hxv, hx]
      exact List.mem_append.mpr (Or.inr (by simp))
    · rw [if_neg hxv] at hx
      exact List.mem_append.mpr (Or.inl (H.settled_tr x kx hx))
  · -- tr_nodup
    rw [trPos_map_append]
    rw [List.nodup_append]
    exact ⟨H.tr_nodup, List.nodup_singleton v, by
      intro a ha hb
      simp only [List.mem_singleton] at hb
      rw [hb] at ha
      exact hvfresh ha⟩
  · -- tr_chain
    rw [List.chain'_append]
    refine ⟨H.tr_chain, List.chain'_singleton _, ?_⟩
    intro x hx y hy
    simp only [List.head?_cons, Option.mem_def, Option.some.injEq] at hy
    have hlast := H.item_last (k, v) hmem
    rw [lastKey] at hlast
    rw [Option.mem_def] at hx
    rw [hx] at hlast
    simp only [Option.map_some, Option.getD_some] at hlast
    rw [← hy]
    exact hlast
  · -- settled_shortest
    intro x kx hx
    rw [hsk2] at hx
    by_cases hxv : x = v
    · rw [if_pos hxv] at hx
      simp only [Option.some.injEq] at hx
      rw [hxv, ← hx]
      exact hshort
    · rw [if_neg hxv] at hx
      exact H.settled_shortest x kx hx
  · -- item_walk
    intro kv hkv
    exact H.item_walk kv (hsub kv hkv)
  · -- item_meta
    intro kv hkv
    by_cases hxv : kv.2 = v
    · rw [hxv, hm2v]
      simp
    · rw [hm2 kv.2 hxv]
      exact H.item_meta kv (hsub kv hkv)
  · -- item_last
    intro kv hkv
    rw [hlk]
    exact hge kv hkv
  · -- relaxed
    intro u ku hku hex e he
    rw [hsk2] at hku
    by_cases huv : u = v
    · exact absurd huv hex
    · rw [if_neg huv] at hku
      exact hcov_transfer ku e (H.relaxed u ku hku (by simp) e he)
  · -- meta_reach
    intro x hx
    by_cases hxv : x = v
    · rw [hxv]
      exact H.meta_reach v (by rw [hmv]; simp)
    · rw [hm2 x hxv] at hx
      exact H.meta_reach x hx
  · -- meta_prev
    intro x o p2 hx
    by_cases hxv : x = v
    · rw [hxv, hm2v] at hx
      have hpx : p2 = p := by
        have := congrArg (fun y => (Option.map (fun z => z.2) y)) hx
        simpa using this.symm
      rcases H.meta_prev v none p hmv with h1 | ⟨w2, kp2, hw2, hkp2⟩
      · left
        rw [hxv, hpx]
        exact h1
      · right
        refine ⟨w2, kp2, by rw [hxv, hpx]; exact hw2, ?_⟩
        rw [hsk2]
        have hpv : p ≠ v := by
          intro hpe
          rw [hpe, hvns] at hkp2
          simp at hkp2
        rw [hpx, if_neg hpv]
        exact hkp2
    · rw [hm2 x hxv] at hx
      rcases H.meta_prev x o p2 hx with h1 | ⟨w2, kp2, hw2, hkp2⟩
      · exact Or.inl h1
      · right
        refine ⟨w2, kp2, hw2, ?_⟩
        rw [hsk2]
        have hpv : p2 ≠ v := by
          intro hpe
          rw [hpe, hvns] at hkp2
          simp at hkp2
        rw [if_neg hpv]
        exact hkp2
  · -- prev_pos
    intro x kx p2 hx hxs
    by_cases hxv : x = v
    · subst hxv
      rw [hm2v] at hx
      have hkx : kx = k := by
        have := congrArg (fun y => (Option.map (fun z => z.1) y)) hx
        simp at this
        exact this.symm
      have hpx : p2 = p := by
        have := congrArg (fun y => (Option.map (fun z => z.2) y)) hx
        simpa using this.symm
      rcases H.meta_prev x none p hmv with ⟨h1, _⟩ | ⟨w2, kp2, hw2, hkp2⟩
      · exact absurd h1 hxs
      · have hpmem := settled_mem_trmap H hkp2
        have hppos : trPos tr p < tr.length := trPos_lt_of_mem hpmem
        have hxpos : trPos (tr ++ [(k, x)]) x = tr.length :=
          trPos_append_fresh hvfresh
        rw [hpx, hxpos, trPos_append_mem (k, x) hpmem]
        constructor
        · exact hppos
        · simp only [List.length_append, List.length_cons, List.length_nil]
          omega
    · rw [hm2 x hxv] at hx
      obtain ⟨hpp, hxl⟩ := H.prev_pos x kx p2 hx hxs
      have hxmem : x ∈ tr.map (fun kv => kv.2) :=
        settled_mem_trmap H (settledK_of_meta hx)
      have hpmem : p2 ∈ tr.map (fun kv => kv.2) := by
        rcases H.meta_prev x (some kx) p2 hx with ⟨h1, _⟩ | ⟨w2, kp2, hw2, hkp2⟩
        · exact absurd h1 hxs
        · exact settled_mem_trmap H hkp2
      rw [trPos_append_mem (k, v) hxmem, trPos_append_mem (k, v) hpmem]
      refine ⟨hpp, ?_⟩
      simp only [List.length_append, List.length_cons, List.length_nil]
      omega
  · -- meta_valid
    intro x hx
    by_cases hxv : x = v
    · rw [hxv]
      exact H.meta_valid v (by rw [hmv]; simp)
    · rw [hm2 x hxv] at hx
      exact H.meta_valid x hx
  · -- s_state
    rcases H.s_state with ⟨ks, ps, hms, hps⟩ | ⟨htr, hmta, hmdl⟩
    · left
      have hsv : s ≠ v := by
        intro he2
        rw [he2] at hms
        rw [hmv] at hms
        simp at hms
      refine ⟨ks, ps, ?_, hps⟩
      rw [hm2 s hsv]
      exact hms
    · rw [hmdl] at hmem
      simp only [Multiset.mem_singleton, Prod.mk.injEq] at hmem
      obtain ⟨hk0, hvs⟩ := hmem
      left
      refine ⟨k, p, ?_, ?_⟩
      · rw [← hvs, hm2v]
      · have : st.meta v = some (none, s) := by
          rw [hmta, ← hvs, mupd]
          simp
        rw [this] at hmv
        have := congrArg (fun y => (Option.map (fun z => z.2) y)) hmv
        simpa using this.symm

theorem NLInv_explore {σ : Type} {Q : PQImpl σ} {L : PQLaws Q}
    {g : NeighborList} {s : ℕ}
    (hg : GraphWF g) (hsum : sumW g < U32LIM)
    (hs1 : 1 ≤ s) (hs2 : s ≤ g.length)
    {st : NoLookupSt σ} {tr : List (ℕ × ℕ)} {v k : ℕ}
    (H : NLInvX Q L g s st tr (fun u => u = v))
    (hsk : st.settledK v = some k) (hlk : lastKey tr = k)
    (e : Neighbor) (he : e ∈ get_neighbors g v) :
    NLInvX Q L g s (NoLookupSt.explore Q st v k e) tr (fun u => u = v) ∧
      coveredEdge Q L (NoLookupSt.explore Q st v k e) k e ∧
      (∀ k0 e0, coveredEdge Q L st k0 e0 →
        coveredEdge Q L (NoLookupSt.explore Q st v k e) k0 e0) := by
  have he' : edgeW g v e.dst e.weight := he
  have hvshort : IsShortest g s v k := H.settled_shortest v k hsk
  have hbound : k + e.weight ≤ sumW g :=
    shortest_edge_le_sumW hg hs1 hs2 hvshort he'
  have halt : add32 k e.weight = k + e.weight := by
    rw [add32]
    exact Nat.mod_eq_of_lt (lt_of_le_of_lt hbound hsum)
  have hqq : (NoLookupSt.explore Q st v k e).queue
      = Q.push (add32 k e.weight) e.dst st.queue := by
    rcases hme : st.meta e.dst with _ | ⟨_ | k2, p0⟩ <;>
      simp [NoLookupSt.explore, hme]
  have hmm : ∀ x, x ≠ e.dst →
      (NoLookupSt.explore Q st v k e).meta x = st.meta x := by
    intro x hx
    rcases hme : st.meta e.dst with _ | ⟨_ | k2, p0⟩ <;>
      simp [NoLookupSt.explore, hme, mupd, hx]
  have hmd : ((∃ k2 p0, st.meta e.dst = some (some k2, p0)) ∧
        (NoLookupSt.explore Q st v k e).meta e.dst = st.meta e.dst) ∨
      ((NoLookupSt.explore Q st v k e).meta e.dst = some (none, v) ∧
        st.settledK e.dst = none) := by
    rcases hme : st.meta e.dst with _ | ⟨_ | k2, p0⟩
    · right
      refine ⟨by simp [NoLookupSt.explore, hme, mupd], ?_⟩
      rw [NoLookupSt.settledK, hme]
    · right
      refine ⟨by simp [NoLookupSt.explore, hme, mupd], ?_⟩
      rw [NoLookupSt.settledK, hme]
    · left
      exact ⟨⟨k2, p0, rfl⟩, by simp [NoLookupSt.explore, hme]⟩
  have hsk' : ∀ x, (NoLookupSt.explore Q st v k e).settledK x
      = st.settledK x := by
    intro x
    by_cases hx : x = e.dst
    · subst hx
      rcases hmd with ⟨⟨k2, p0, hme⟩, heq⟩ | ⟨heq, hns⟩
      · rw [NoLookupSt.settledK, heq, ← NoLookupSt.settledK]
      · rw [NoLookupSt.settledK, heq, hns]
    · rw [NoLookupSt.settledK, hmm x hx, ← NoLookupSt.settledK]
  have hmdl : L.mdl (NoLookupSt.explore Q st v k e).queue
      = (add32 k e.weight, e.dst) ::ₘ L.mdl st.queue := by
    rw [hqq, L.push_mdl _ _ _ H.qinv]
  have hmono : ∀ k0 e0, coveredEdge Q L st k0 e0 →
      coveredEdge Q L (NoLookupSt.explore Q st v k e) k0 e0 := by
    intro k0 e0 hcov
    rcases hcov with ⟨k2, hk2⟩ | ⟨kx, hkx, hle⟩
    · exact Or.inl ⟨k2, by rw [hsk']; exact hk2⟩
    · exact Or.inr ⟨kx, by rw [hmdl]; exact Multiset.mem_cons_of_mem hkx, hle⟩
  have hmeta_ne : ∀ x, st.meta x ≠ none →
      (NoLookupSt.explore Q st v k e).meta x ≠ none := by
    intro x hx
    by_cases hxe : x = e.dst
    · subst hxe
      rcases hmd with ⟨_, heq⟩ | ⟨heq, _⟩ <;> rw [heq]
      · exact hx
      · simp
    · rw [hmm x hxe]
      exact hx
  have hmeta_dst : (NoLookupSt.explore Q st v k e).meta e.dst ≠ none := by
    rcases hmd with ⟨⟨k2, p0, hme⟩, heq⟩ | ⟨heq, _⟩ <;> rw [heq]
    · rw [hme]; simp
    · simp
  refine ⟨⟨?_, ?_, ?_, H.tr_nodup, H.tr_chain, ?_, ?_, ?_, ?_, ?_, ?_, ?_,
      ?_, ?_, ?_⟩, ?_, hmono⟩
  · -- qinv
    rw [hqq]
    exact L.push_inv _ _ _ H.qinv
  · -- tr_settled
    intro kv hkv
    rw [hsk']
    exact H.tr_settled kv hkv
  · -- settled_tr
    intro x kx hx
    rw [hsk'] at hx
    exact H.settled_tr x kx hx
  · -- settled_shortest
    intro x kx hx
    rw [hsk'] at hx
    exact H.settled_shortest x kx hx
  · -- item_walk
    intro kv hkv
    rw [hmdl] at hkv
    rcases Multiset.mem_cons.mp hkv with h1 | h1
    · rw [h1]
      show WalkW g s e.dst (add32 k e.weight)
      rw [halt]
      exact WalkW.cons hvshort.1 he'
    · exact H.item_walk kv h1
  · -- item_meta
    intro kv hkv
    rw [hmdl] at hkv
    rcases Multiset.mem_cons.mp hkv with h1 | h1
    · rw [h1]
      exact hmeta_dst
    · exact hmeta_ne kv.2 (H.item_meta kv h1)
  · -- item_last
    intro kv hkv
    rw [hmdl] at hkv
    rcases Multiset.mem_cons.mp hkv with h1 | h1
    · rw [h1]
      show lastKey tr ≤ add32 k e.weight
      rw [halt, hlk]
      omega
    · exact H.item_last kv h1
  · -- relaxed
    intro u ku hku hex e0 he0
    rw [hsk'] at hku
    exact hmono ku e0 (H.relaxed u ku hku hex e0 he0)
  · -- meta_reach
    intro x hx
    by_cases hxe : x = e.dst
    · subst hxe
      exact ⟨k + e.weight, WalkW.cons hvshort.1 he'⟩
    · rw [hmm x hxe] at hx
      exact H.meta_reach x hx
  · -- meta_prev
    intro x o p hx
    by_cases hxe : x = e.dst
    · subst hxe
      rcases hmd with ⟨_, heq⟩ | ⟨heq, _⟩
      · rw [heq] at hx
        rcases H.meta_prev _ o p hx with h1 | ⟨w2, kp, hw2, hkp⟩
        · exact Or.inl h1
        · exact Or.inr ⟨w2, kp, hw2, by rw [hsk']; exact hkp⟩
      · rw [heq] at hx
        have hp : p = v := by
          have := congrArg (fun y => (Option.map (fun z => z.2) y)) hx
          simpa using this.symm
        right
        exact ⟨e.weight, k, by rw [hp]; exact he', by rw [hp, hsk']; exact hsk⟩
    · rw [hmm x hxe] at hx
      rcases H.meta_prev x o p hx with h1 | ⟨w2, kp, hw2, hkp⟩
      · exact Or.inl h1
      · exact Or.inr ⟨w2, kp, hw2, by rw [hsk']; exact hkp⟩
  · -- prev_pos
    intro x kx p hx hxs
    by_cases hxe : x = e.dst
    · subst hxe
      rcases hmd with ⟨_, heq⟩ | ⟨heq, _⟩
      · rw [heq] at hx
        exact H.prev_pos _ kx p hx hxs
      · rw [heq] at hx
        have := congrArg (fun y => (Option.map (fun z => z.1) y)) hx
        simp at this
    · rw [hmm x hxe] at hx
      exact H.prev_pos x kx p hx hxs
  · -- meta_valid
    intro x hx
    by_cases hxe : x = e.dst
    · subst hxe
      exact edgeW_dst_valid hg he'
    · rw [hmm x hxe] at hx
      exact H.meta_valid x hx
  · -- s_state
    rcases H.s_state with ⟨ks, ps, hms, hps⟩ | ⟨htr, _, _⟩
    · left
      refine ⟨ks, ps, ?_, hps⟩
      by_cases hse : s = e.dst
      · rcases hmd with ⟨_, heq⟩ | ⟨_, hns⟩
        · rw [hse] at hms ⊢
          rw [heq, hms]
        · rw [hse] at hms
          rw [NoLookupSt.settledK, hms] at hns
          simp at hns
      · rw [hmm s hse]
        exact hms
    · have := H.settled_tr v k hsk
      rw [htr] at this
      simp at this
  · -- coveredEdge of the explored edge
    right
    exact ⟨add32 k e.weight, by rw [hmdl]; exact Multiset.mem_cons_self _ _,
      by rw [halt]⟩

theorem NLInv_exploreAll {σ : Type} {Q : PQImpl σ} {L : PQLaws Q}
    {g : NeighborList} {s : ℕ}
    (hg : GraphWF g) (hsum : sumW g < U32LIM)
    (hs1 : 1 ≤ s) (hs2 : s ≤ g.length)
    {v k : ℕ} {tr : List (ℕ × ℕ)}
    (hmemtr : (k, v) ∈ tr) (hlk : lastKey tr = k) :
    ∀ (l : List Neighbor) (st : NoLookupSt σ),
      (∀ e ∈ l, e ∈ get_neighbors g v) →
      NLInvX Q L g s st tr (fun u => u = v) →
      NLInvX Q L g s
          (l.foldl (fun s2 e => NoLookupSt.explore Q s2 v k e) st) tr
          (fun u => u = v) ∧
        (∀ e ∈ l, coveredEdge Q L
          (l.foldl (fun s2 e => NoLookupSt.explore Q s2 v k e) st) k e) ∧
        (∀ k0 e0, coveredEdge Q L st k0 e0 → coveredEdge Q L
          (l.foldl (fun s2 e => NoLookupSt.explore Q s2 v k e) st) k0 e0) := by
  intro l
  induction l with
  | nil =>
    intro st _ H
    exact ⟨H, by simp, fun k0 e0 h => h⟩
  | cons e l ih =>
    intro st hsub H
    have hsk : st.settledK v = some k := H.tr_settled (k, v) hmemtr
    have he : e ∈ get_neighbors g v := hsub e (by simp)
    obtain ⟨H1, hcov1, hmono1⟩ := NLInv_explore hg hsum hs1 hs2 H hsk hlk e he
    obtain ⟨H2, hcov2, hmono2⟩ := ih (NoLookupSt.explore Q st v k e)
      (fun e0 he0 => hsub e0 (by simp [he0])) H1
    refine ⟨H2, ?_, ?_⟩
    · intro e0 he0
      rcases List.mem_cons.mp he0 with h1 | h1
      · rw [h1]
        exact hmono2 k e hcov1
      · exact hcov2 e0 h1
    · intro k0 e0 h0
      exact hmono2 k0 e0 (hmono1 k0 e0 h0)

theorem NLInv_step {σ : Type} {Q : PQImpl σ} {L : PQLaws Q}
    {g : NeighborList} {s : ℕ}
    (hg : GraphWF g) (hsum : sumW g < U32LIM)
    (hs1 : 1 ≤ s) (hs2 : s ≤ g.length)
    {st st2 : NoLookupSt σ} {tr : List (ℕ × ℕ)} {k v : ℕ}
    (H : NLInv Q L g s st tr)
    (hpop : NoLookupSt.pop_min Q st = some ((k, v), st2)) :
    NLInv Q L g s (exploreAll (nlShell Q) g v k st2) (tr ++ [(k, v)]) := by
  obtain ⟨H2, hskv, hlk, hfresh, hshort⟩ := NLInv_settle H hpop
  have hmemtr : (k, v) ∈ tr ++ [(k, v)] := by simp
  obtain ⟨H3, hcovall, _⟩ := NLInv_exploreAll hg hsum hs1 hs2 hmemtr hlk
    (get_neighbors g v) st2 (fun e he => he) H2
  have hfin : exploreAll (nlShell Q) g v k st2
      = (get_neighbors g v).foldl
          (fun s2 e => NoLookupSt.explore Q s2 v k e) st2 := rfl
  rw [hfin]
  refine ⟨H3.qinv, H3.tr_settled, H3.settled_tr, H3.tr_nodup, H3.tr_chain,
    H3.settled_shortest, H3.item_walk, H3.item_meta, H3.item_last, ?_,
    H3.meta_reach, H3.meta_prev, H3.prev_pos, H3.meta_valid, H3.s_state⟩
  intro u ku hku _ e he
  by_cases huv : u = v
  · subst huv
    have hk2 : ku = k := by
      have := H3.tr_settled (k, u) hmemtr
      rw [this] at hku
      simp at hku
      omega
    rw [hk2]
    exact hcovall e he
  · exact H3.relaxed u ku hku (by simp [huv]) e he

theorem NLInv_tr_len {σ : Type} {Q : PQImpl σ} {L : PQLaws Q}
    {g : NeighborList} {s : ℕ} {st : NoLookupSt σ} {tr : List (ℕ × ℕ)}
    {ex : ℕ → Prop} (H : NLInvX Q L g s st tr ex) :
    tr.length ≤ g.length := by
  have hnd : (tr.map (fun kv => kv.2)).Nodup := H.tr_nodup
  have hval : ∀ x ∈ tr.map (fun kv => kv.2), x ∈ Finset.Icc 1 g.length := by
    intro x hx
    obtain ⟨kv, hkv, hkve⟩ := List.mem_map.mp hx
    have hs := H.tr_settled kv hkv
    have hne : st.meta kv.2 ≠ none := by
      intro hm
      rw [NoLookupSt.settledK, hm] at hs
      simp at hs
    have := H.meta_valid kv.2 hne
    rw [hkve] at this
    exact Finset.mem_Icc.mpr this
  have hsubf : (tr.map (fun kv => kv.2)).toFinset ⊆ Finset.Icc 1 g.length := by
    intro x hx
    exact hval x (List.mem_toFinset.mp hx)
  have hcard := Finset.card_le_card hsubf
  rw [List.toFinset_card_of_nodup hnd] at hcard
  rw [Nat.card_Icc] at hcard
  simpa using hcard

theorem NLInv_init {σ : Type} {Q : PQImpl σ} (L : PQLaws Q)
    {g : NeighborList} {s : ℕ}
    (hs1 : 1 ≤ s) (hs2 : s ≤ g.length) :
    NLInv Q L g s (NoLookupSt.init Q s) [] := by
  have hmeta : ∀ x, (NoLookupSt.init Q s).meta x
      = if x = s then some (none, s) else none := by
    intro x
    show mupd (fun _ => none) s (none, s) x = _
    simp only [mupd]
  have hsk : ∀ x, (NoLookupSt.init Q s).settledK x = none := by
    intro x
    rw [NoLookupSt.settledK, hmeta]
    by_cases hx : x = s <;> simp [hx]
  have hmdl : L.mdl (NoLookupSt.init Q s).queue = {(0, s)} := L.fromV_mdl s
  refine ⟨L.fromV_inv s, ?_, ?_, ?_, ?_, ?_, ?_, ?_, ?_, ?_, ?_, ?_, ?_,
    ?_, ?_⟩
  · intro kv hkv
    simp at hkv
  · intro x kx hx
    rw [hsk] at hx
    simp at hx
  · simp
  · simp
  · intro x kx hx
    rw [hsk] at hx
    simp at hx
  · intro kv hkv
    rw [hmdl] at hkv
    simp only [Multiset.mem_singleton] at hkv
    rw [hkv]
    exact WalkW.nil
  · intro kv hkv
    rw [hmdl] at hkv
    simp only [Multiset.mem_singleton] at hkv
    rw [hkv, hmeta]
    simp
  · intro kv hkv
    rw [hmdl] at hkv
    simp only [Multiset.mem_singleton] at hkv
    rw [hkv]
    rw [lastKey]
    simp
  · intro u ku hku
    rw [hsk] at hku
    simp at hku
  · intro x hx
    rw [hmeta] at hx
    by_cases hxs : x = s
    · rw [hxs]
      exact ⟨0, WalkW.nil⟩
    · rw [if_neg hxs] at hx
      simp at hx
  · intro x o p hx
    rw [hmeta] at hx
    by_cases hxs : x = s
    · left
      refine ⟨hxs, ?_⟩
      rw [if_pos hxs] at hx
      have := congrArg (fun y => (Option.map (fun z => z.2) y)) hx
      simpa using this.symm
    · rw [if_neg hxs] at hx
      simp at hx
  · intro x kx p hx hxs
    rw [hmeta] at hx
    by_cases hxs2 : x = s
    · rw [if_pos hxs2] at hx
      have := congrArg (fun y => (Option.map (fun z => z.1) y)) hx
      simp at this
    · rw [if_neg hxs2] at hx
      simp at hx
  · intro x hx
    rw [hmeta] at hx
    by_cases hxs : x = s
    · rw [hxs]
      exact ⟨hs1, hs2⟩
    · rw [if_neg hxs] at hx
      simp at hx
  · right
    exact ⟨rfl, rfl, hmdl⟩

theorem nl_ssspTrF_spec {σ : Type} {Q : PQImpl σ} {L : PQLaws Q}
    {g : NeighborList} {s : ℕ}
    (hg : GraphWF g) (hsum : sumW g < U32LIM)
    (hs1 : 1 ≤ s) (hs2 : s ≤ g.length) :
    ∀ fuel (st : NoLookupSt σ) (tr : List (ℕ × ℕ)),
      NLInv Q L g s st tr → g.length + 1 ≤ fuel + tr.length →
      NLInv Q L g s (ssspTrF (nlShell Q) g fuel st tr).1
          (ssspTrF (nlShell Q) g fuel st tr).2 ∧
        NoLookupSt.pop_min Q (ssspTrF (nlShell Q) g fuel st tr).1 = none := by
  intro fuel
  induction fuel with
  | zero =>
    intro st tr H hfuel
    have := NLInv_tr_len H
    omega
  | succ fuel ih =>
    intro st tr H hfuel
    rw [ssspTrF]
    cases hpop : NoLookupSt.pop_min Q st with
    | none =>
      have hp2 : (nlShell Q).pop_min st = none := hpop
      rw [hp2]
      exact ⟨H, hpop⟩
    | some res =>
      obtain ⟨⟨k, v⟩, st2⟩ := res
      have hp2 : (nlShell Q).pop_min st = some ((k, v), st2) := hpop
      rw [hp2]
      dsimp only
      have H2 := NLInv_step hg hsum hs1 hs2 H hpop
      have hlen : (tr ++ [(k, v)]).length = tr.length + 1 := by simp
      exact ih (exploreAll (nlShell Q) g v k st2) (tr ++ [(k, v)]) H2
        (by omega)

theorem nl_get_dist_settledK {σ : Type} (Q : PQImpl σ)
    (st : NoLookupSt σ) (v : ℕ) :
    Shell.get_dist (nlShell Q) st v = st.settledK v := by
  rw [Shell.get_dist, NoLookupSt.settledK]
  show (NoLookupSt.get_meta st v).map (fun x => x.1) = _
  rw [NoLookupSt.get_meta]
  rcases st.meta v with _ | ⟨_ | k, p⟩ <;> simp

theorem NLInv_final_settled {σ : Type} {Q : PQImpl σ} {L : PQLaws Q}
    {g : NeighborList} {s : ℕ} {st : NoLookupSt σ} {tr : List (ℕ × ℕ)}
    (H : NLInv Q L g s st tr)
    (hpop : NoLookupSt.pop_min Q st = none) :
    ∀ v, reaches g s v → ∃ k, st.settledK v = some k := by
  have hall : ∀ kv ∈ L.mdl st.queue, ¬ unsett st.meta kv.2 := by
    refine nlPopLoop_none_spec Q L (Q.size st.queue + 1) st.queue st.meta
      H.qinv ?_ H.item_meta hpop
    rw [L.size_mdl st.queue H.qinv]
    omega
  have hsettled_item : ∀ kv ∈ L.mdl st.queue, ∃ k2,
      st.settledK kv.2 = some k2 := by
    intro kv hkv
    have hne := H.item_meta kv hkv
    have hnun := hall kv hkv
    cases hm : st.meta kv.2 with
    | none => exact absurd hm hne
    | some ov =>
      obtain ⟨o, p⟩ := ov
      cases o with
      | none => exact absurd ⟨p, hm⟩ hnun
      | some k2 => exact ⟨k2, settledK_of_meta hm⟩
  have hss : ∃ ks, st.settledK s = some ks := by
    rcases H.s_state with ⟨ks, ps, hms, _⟩ | ⟨_, hmta, hmdl⟩
    · exact ⟨ks, settledK_of_meta hms⟩
    · have : (0, s) ∈ L.mdl st.queue := by rw [hmdl]; simp
      obtain ⟨k2, hk2⟩ := hsettled_item (0, s) this
      exact ⟨k2, hk2⟩
  intro v hv
  obtain ⟨c, hc⟩ := hv
  induction hc with
  | nil => exact hss
  | cons hw he ihw =>
    obtain ⟨ku, hku⟩ := ihw
    have hcov := H.relaxed _ ku hku (by simp) _ he
    rcases hcov with ⟨k2, hk2⟩ | ⟨kx, hkx, _⟩
    · exact ⟨k2, hk2⟩
    · exact hsettled_item _ hkx

theorem nl_sssp_dist {σ : Type} (Q : PQImpl σ) (L : PQLaws Q)
    {g : NeighborList} {s : ℕ}
    (hg : GraphWF g) (hsum : sumW g < U32LIM)
    (hs1 : 1 ≤ s) (hs2 : s ≤ g.length) :
    (∀ v, reaches g s v → ∃ d,
      Shell.get_dist (nlShell Q)
        (sssp (nlShell Q) (NoLookupSt.init Q s) g) v = some d ∧
      IsShortest g s v d) ∧
    (∀ v, ¬ reaches g s v →
      Shell.get_dist (nlShell Q)
        (sssp (nlShell Q) (NoLookupSt.init Q s) g) v = none) := by
  obtain ⟨Hf, hpopf⟩ := nl_ssspTrF_spec (L := L) hg hsum hs1 hs2
    (g.length + 1) (NoLookupSt.init Q s) [] (NLInv_init L hs1 hs2)
    (by simp)
  constructor
  · intro v hv
    obtain ⟨k, hk⟩ := NLInv_final_settled Hf hpopf v hv
    refine ⟨k, ?_, Hf.settled_shortest v k hk⟩
    rw [nl_get_dist_settledK]
    exact hk
  · intro v hv
    rw [nl_get_dist_settledK]
    cases hsk : (sssp (nlShell Q) (NoLookupSt.init Q s) g).settledK v with
    | none => rfl
    | some k =>
      exfalso
      apply hv
      apply Hf.meta_reach v
      obtain ⟨p, hp⟩ := meta_of_settledK hsk
      rw [show (ssspTrF (nlShell Q) g (g.length + 1)
          (NoLookupSt.init Q s) []).1 = sssp (nlShell Q)
          (NoLookupSt.init Q s) g from rfl, hp]
      simp

/-- Edge-relaxation coverage for the eager (`Search` / `OwnedLookup`) shells:
the edge target is settled, or its tentative distance already accounts for
the relaxation `k + w`. -/
def SCov {σ ρ : Type} (st : SearchSt σ ρ) (tr : List (ℕ × ℕ)) (k : ℕ)
    (e : Neighbor) : Prop :=
  e.dst ∈ tr.map (fun kv => kv.2) ∨
    ∃ h d p, st.meta e.dst = some (h, d, p) ∧ d ≤ k + e.weight

/-- Driver invariant of the `Search` shell over a lawful `DecreaseKey` queue,
relating the state to the emission trace `tr`; the edge-relaxation obligation
is waived for vertices satisfying `ex`.  Settled vertices are the trace
vertices; every other meta entry is tentative and owns exactly one queue item
whose key equals its recorded distance. -/
structure SInvX {σ ρ : Type} (Q : DKImpl σ ρ) (L : DKLaws Q)
    (g : NeighborList) (s : ℕ) (st : SearchSt σ ρ) (tr : List (ℕ × ℕ))
    (ex : ℕ → Prop) : Prop where
  qinv : L.Inv st.queue
  uniq : ∀ x, Multiset.card
    (Multiset.filter (fun kv => kv.2 = x) (L.mdl st.queue)) ≤ 1
  settled_meta : ∀ kv ∈ tr, ∃ h p, st.meta kv.2 = some (h, kv.1, p)
  settled_shortest : ∀ kv ∈ tr, IsShortest g s kv.2 kv.1
  tr_nodup : (tr.map (fun kv => kv.2)).Nodup
  tr_chain : List.Chain' (fun a b => a.1 ≤ b.1) tr
  tent_item : ∀ x h d p, st.meta x = some (h, d, p) →
    x ∉ tr.map (fun kv => kv.2) →
    (d, x) ∈ L.mdl st.queue ∧ (0 < d → L.refOk st.queue h x)
  item_tent : ∀ kv ∈ L.mdl st.queue,
    (∃ h p, st.meta kv.2 = some (h, kv.1, p)) ∧
      kv.2 ∉ tr.map (fun kv2 => kv2.2)
  item_last : ∀ kv ∈ L.mdl st.queue, lastKey tr ≤ kv.1
  meta_walk : ∀ x h d p, st.meta x = some (h, d, p) → WalkW g s x d
  relaxed : ∀ kv ∈ tr, ¬ ex kv.2 →
    ∀ e ∈ get_neighbors g kv.2, SCov st tr kv.1 e
  meta_prev : ∀ x h d p, st.meta x = some (h, d, p) →
    (x = s ∧ p = s ∧ d = 0) ∨
      ∃ w kp, edgeW g p x w ∧ (kp, p) ∈ tr ∧ kp + w = d
  prev_pos : ∀ x h d p, st.meta x = some (h, d, p) →
    x ∈ tr.map (fun kv => kv.2) → x ≠ s → trPos tr p < trPos tr x
  meta_valid : ∀ x, st.meta x ≠ none → 1 ≤ x ∧ x ≤ g.length
  s_state : s ∈ tr.map (fun kv => kv.2) ∨
    (tr = [] ∧ st.meta = mupd (fun _ => none) s (Q.refFromV s, 0, s) ∧
      L.mdl st.queue = {(0, s)})
  s_prev : ∀ h d p, st.meta s = some (h, d, p) → p = s ∧ d = 0

/-- The full `Search` driver invariant: no vertex is excused. -/
abbrev SInv {σ ρ : Type} (Q : DKImpl σ ρ) (L : DKLaws Q) (g : NeighborList)
    (s : ℕ) (st : SearchSt σ ρ) (tr : List (ℕ × ℕ)) : Prop :=
  SInvX Q L g s st tr (fun _ => False)

theorem lastKey_le_of_chain :
    ∀ {tr : List (ℕ × ℕ)}, List.Chain' (fun a b => a.1 ≤ b.1) tr →
      ∀ kv ∈ tr, kv.1 ≤ lastKey tr := by
  intro tr
  induction tr with
  | nil => intro _ kv h; simp at h
  | cons a t ih =>
    intro hch kv hkv
    cases t with
    | nil =>
      simp at hkv
      rw [hkv, lastKey]
      simp
    | cons b t2 =>
      have hch2 : List.Chain' (fun a b => a.1 ≤ b.1) (b :: t2) := hch.tail
      have hab : a.1 ≤ b.1 := (List.chain'_cons.mp hch).1
      have hlast : lastKey (a :: b :: t2) = lastKey (b :: t2) := by
        rw [lastKey, lastKey, List.getLast?_cons_cons]
      rcases List.mem_cons.mp hkv with h1 | h1
      · rw [h1, hlast]
        exact le_trans hab (ih hch2 b (by simp))
      · rw [hlast]
        exact ih hch2 kv h1

theorem uniq_val {m : Multiset (ℕ × ℕ)} {x k1 k2 : ℕ}
    (hu : Multiset.card (Multiset.filter (fun kv => kv.2 = x) m) ≤ 1)
    (h1 : (k1, x) ∈ m) (h2 : (k2, x) ∈ m) : k1 = k2 := by
  by_contra hne
  have hf1 : (k1, x) ∈ Multiset.filter (fun kv => kv.2 = x) m :=
    Multiset.mem_filter.mpr ⟨h1, rfl⟩
  have hf2 : (k2, x) ∈ Multiset.filter (fun kv => kv.2 = x) m :=
    Multiset.mem_filter.mpr ⟨h2, rfl⟩
  have hne2 : (k2, x) ≠ (k1, x) := by
    intro h
    simp only [Prod.mk.injEq] at h
    exact hne h.1.symm
  have hf3 : (k2, x) ∈ (Multiset.filter (fun kv => kv.2 = x) m).erase (k1, x) :=
    (Multiset.mem_erase_of_ne hne2).mpr hf2
  have hc1 : 0 < Multiset.card
      ((Multiset.filter (fun kv => kv.2 = x) m).erase (k1, x)) :=
    Multiset.card_pos_iff_exists_mem.mpr ⟨_, hf3⟩
  have hc2 := Multiset.card_erase_of_mem hf1
  rw [Nat.pred_eq_sub_one] at hc2
  omega

/-- Decompose a multiset with a ≤1-per-vertex bound at the stored item: the
rest holds no item of the same vertex. -/
theorem uniq_decomp {m : Multiset (ℕ × ℕ)} {x k : ℕ}
    (hu : Multiset.card (Multiset.filter (fun kv => kv.2 = x) m) ≤ 1)
    (h : (k, x) ∈ m) :
    ∃ m2, m = (k, x) ::ₘ m2 ∧ ∀ k2, (k2, x) ∉ m2 := by
  obtain ⟨m2, hm2⟩ := Multiset.exists_cons_of_mem h
  refine ⟨m2, hm2, ?_⟩
  intro k2 hk2
  rw [hm2] at hu
  rw [Multiset.filter_cons] at hu
  simp only [if_pos trivial, Multiset.card_add, Multiset.card_singleton] at hu
  have hf2 : (k2, x) ∈ Multiset.filter (fun kv => kv.2 = x) m2 :=
    Multiset.mem_filter.mpr ⟨hk2, rfl⟩
  have : 0 < Multiset.card (Multiset.filter (fun kv => kv.2 = x) m2) :=
    Multiset.card_pos_iff_exists_mem.mpr ⟨_, hf2⟩
  omega

theorem filter_card_cons_ne {m : Multiset (ℕ × ℕ)} {x : ℕ} {kv : ℕ × ℕ}
    (h : kv.2 ≠ x) :
    Multiset.card (Multiset.filter (fun a => a.2 = x) (kv ::ₘ m))
      = Multiset.card (Multiset.filter (fun a => a.2 = x) m) := by
  rw [Multiset.filter_cons]
  simp [h]

theorem filter_card_cons_eq {m : Multiset (ℕ × ℕ)} {x : ℕ} {kv : ℕ × ℕ}
    (h : kv.2 = x) :
    Multiset.card (Multiset.filter (fun a => a.2 = x) (kv ::ₘ m))
      = Multiset.card (Multiset.filter (fun a => a.2 = x) m) + 1 := by
  rw [Multiset.filter_cons]
  simp [h]

theorem filter_card_cons_eq2 {m : Multiset (ℕ × ℕ)} {x a : ℕ} :
    Multiset.card (Multiset.filter (fun kv => kv.2 = x) ((a, x) ::ₘ m))
      = Multiset.card (Multiset.filter (fun kv => kv.2 = x) m) + 1 := by
  rw [Multiset.filter_cons]
  simp

theorem filter_card_cons_ne2 {m : Multiset (ℕ × ℕ)} {x a b : ℕ} (h : b ≠ x) :
    Multiset.card (Multiset.filter (fun kv => kv.2 = x) ((a, b) ::ₘ m))
      = Multiset.card (Multiset.filter (fun kv => kv.2 = x) m) := by
  rw [Multiset.filter_cons]
  simp [h]

theorem SInv_settle {σ ρ : Type} {Q : DKImpl σ ρ} {L : DKLaws Q}
    {g : NeighborList} {s : ℕ}
    {st st2 : SearchSt σ ρ} {tr : List (ℕ × ℕ)} {k v : ℕ}
    (H : SInv Q L g s st tr)
    (hpop : SearchSt.pop_min Q st = some ((k, v), st2)) :
    SInvX Q L g s st2 (tr ++ [(k, v)]) (fun u => u = v) ∧
      st2.meta = st.meta ∧ lastKey (tr ++ [(k, v)]) = k ∧
      v ∉ tr.map (fun kv => kv.2) ∧ IsShortest g s v k := by
  rw [SearchSt.pop_min] at hpop
  cases hq : Q.pop st.queue with
  | none => rw [hq] at hpop; simp at hpop
  | some res =>
    obtain ⟨⟨k0, v0⟩, q2⟩ := res
    rw [hq] at hpop
    dsimp only [Option.map] at hpop
    simp only [Option.some.injEq, Prod.mk.injEq] at hpop
    obtain ⟨⟨hk, hv⟩, hst⟩ := hpop
    have hk2 : k = k0 := hk.symm
    have hv2 : v = v0 := hv.symm
    subst hk2
    subst hv2
    subst hst
    obtain ⟨hmem, herase, hinv2, hmin, href⟩ := L.pop_some _ _ _ _ H.qinv hq
    have hv_unsett : v ∉ tr.map (fun kv => kv.2) :=
      (H.item_tent (k, v) hmem).2
    obtain ⟨hv_h, pv, hmv⟩ := (H.item_tent (k, v) hmem).1
    obtain ⟨m2, hdec, hno⟩ := uniq_decomp (H.uniq v) hmem
    have hq2 : L.mdl q2 = m2 := by
      rw [herase, hdec, Multiset.erase_cons_head]
    have hshort : IsShortest g s v k := by
      refine ⟨H.meta_walk v hv_h k pv hmv, ?_⟩
      intro c hc
      rcases walk_first_out (fun x => x ∈ tr.map (fun kv => kv.2)) hc
          hv_unsett with hns | hcase
      · rcases H.s_state with hins | ⟨_, _, hmdl⟩
        · exact absurd hins hns
        · rw [hmdl] at hmem
          simp only [Multiset.mem_singleton, Prod.mk.injEq] at hmem
          omega
      · obtain ⟨u, x, w, c1, hPu, hPx, he, hwu, hle⟩ := hcase
        obtain ⟨kvu, hkvu_mem, hkvu⟩ := List.mem_map.mp hPu
        have hus := H.settled_shortest kvu hkvu_mem
        rw [hkvu] at hus
        have hku_le : kvu.1 ≤ c1 := hus.2 c1 hwu
        have hcov := H.relaxed kvu hkvu_mem (by simp)
          { dst := x, weight := w } (by rw [hkvu]; exact he)
        rcases hcov with h1 | ⟨h2, d, p2, hmx, hdle⟩
        · exact absurd h1 hPx
        · have hdmem := (H.tent_item x h2 d p2 hmx hPx).1
          have hkd := hmin (d, x) hdmem
          simp only at hkd hdle
          omega
    have htrm : (tr ++ [(k, v)]).map (fun kv => kv.2)
        = tr.map (fun kv => kv.2) ++ [v] := by simp
    refine ⟨⟨hinv2, ?_, ?_, ?_, ?_, ?_, ?_, ?_, ?_, ?_, ?_, ?_, ?_, ?_, ?_,
      H.s_prev⟩, rfl, lastKey_append tr (k, v), hv_unsett, hshort⟩
    · -- uniq
      intro x
      rw [hq2]
      have hle2 : m2 ≤ L.mdl st.queue := by
        rw [hdec]
        exact Multiset.le_cons_self _ _
      exact le_trans (Multiset.card_le_card
        (Multiset.filter_le_filter _ hle2)) (H.uniq x)
    · -- settled_meta
      intro kv hkv
      rcases List.mem_append.mp hkv with h1 | h1
      · exact H.settled_meta kv h1
      · simp only [List.mem_singleton] at h1
        rw [h1]
        exact ⟨hv_h, pv, hmv⟩
    · -- settled_shortest
      intro kv hkv
      rcases List.mem_append.mp hkv with h1 | h1
      · exact H.settled_shortest kv h1
      · simp only [List.mem_singleton] at h1
        rw [h1]
        exact hshort
    · -- tr_nodup
      rw [htrm, List.nodup_append]
      exact ⟨H.tr_nodup, List.nodup_singleton v, by
        intro a ha hb
        simp only [List.mem_singleton] at hb
        rw [hb] at ha
        exact hv_unsett ha⟩
    · -- tr_chain
      rw [List.chain'_append]
      refine ⟨H.tr_chain, List.chain'_singleton _, ?_⟩
      intro x hx y hy
      simp only [List.head?_cons, Option.mem_def, Option.some.injEq] at hy
      have hlast := H.item_last (k, v) hmem
      rw [lastKey] at hlast
      rw [Option.mem_def] at hx
      rw [hx] at hlast
      simp only [Option.map_some, Option.getD_some] at hlast
      rw [← hy]
      exact hlast
    · -- tent_item
      intro x h d p hmx hxn
      rw [htrm] at hxn
      simp only [List.mem_append, List.mem_singleton, not_or] at hxn
      obtain ⟨hxn1, hxn2⟩ := hxn
      obtain ⟨hdm, hrefok⟩ := H.tent_item x h d p hmx hxn1
      constructor
      · rw [hq2]
        rw [hdec] at hdm
        rcases Multiset.mem_cons.mp hdm with h1 | h1
        · simp only [Prod.mk.injEq] at h1
          exact absurd h1.2 hxn2
        · exact h1
      · intro hd
        exact href h x hxn2 (hrefok hd)
    · -- item_tent
      intro kv hkv
      rw [hq2] at hkv
      have hkv2 : kv ∈ L.mdl st.queue := by
        rw [hdec]
        exact Multiset.mem_cons_of_mem hkv
      have hne : kv.2 ≠ v := by
        intro hkve
        apply hno kv.1
        rw [← hkve]
        exact hkv
      refine ⟨(H.item_tent kv hkv2).1, ?_⟩
      rw [htrm]
      simp only [List.mem_append, List.mem_singleton, not_or]
      exact ⟨(H.item_tent kv hkv2).2, hne⟩
    · -- item_last
      intro kv hkv
      rw [hq2] at hkv
      rw [lastKey_append]
      refine hmin kv ?_
      rw [hdec]
      exact Multiset.mem_cons_of_mem hkv
    · -- meta_walk
      exact H.meta_walk
    · -- relaxed
      intro kv hkv hex e he
      rcases List.mem_append.mp hkv with h1 | h1
      · have hcov := H.relaxed kv h1 (by simp) e he
        rcases hcov with h2 | ⟨h3, d, p, hmx, hdle⟩
        · left
          rw [htrm]
          exact List.mem_append.mpr (Or.inl h2)
        · right
          exact ⟨h3, d, p, hmx, hdle⟩
      · simp only [List.mem_singleton] at h1
        rw [h1] at hex
        simp at hex
    · -- meta_prev
      intro x h d p hmx
      rcases H.meta_prev x h d p hmx with h1 | ⟨w, kp, hew, hkp, hsum⟩
      · exact Or.inl h1
      · exact Or.inr ⟨w, kp, hew, List.mem_append.mpr (Or.inl hkp), hsum⟩
    · -- prev_pos
      intro x h d p hmx hxin hxs
      rw [htrm] at hxin
      rcases List.mem_append.mp hxin with h1 | h1
      · have hold := H.prev_pos x h d p hmx h1 hxs
        have hxlt := trPos_lt_of_mem h1
        have hplt : trPos tr p < tr.length := lt_trans hold hxlt
        have hpin : p ∈ tr.map (fun kv => kv.2) := by
          apply List.indexOf_lt_length.mp
          rw [List.length_map]
          rw [trPos] at hplt
          exact hplt
        rw [trPos_append_mem (k, v) h1, trPos_append_mem (k, v) hpin]
        exact hold
      · simp only [List.mem_singleton] at h1
        rw [h1] at hmx hxs ⊢
        rcases H.meta_prev v h d p hmx with ⟨hxs2, _⟩ | ⟨w, kp, hew, hkp, _⟩
        · exact absurd hxs2 hxs
        · have hpin : p ∈ tr.map (fun kv => kv.2) :=
            List.mem_map.mpr ⟨(kp, p), hkp, rfl⟩
          rw [trPos_append_mem (k, v) hpin, trPos_append_fresh hv_unsett]
          exact trPos_lt_of_mem hpin
    · -- meta_valid
      exact H.meta_valid
    · -- s_state
      rcases H.s_state with hins | ⟨_, _, hmdl⟩
      · left
        rw [htrm]
        exact List.mem_append.mpr (Or.inl hins)
      · rw [hmdl] at hmem
        simp only [Multiset.mem_singleton, Prod.mk.injEq] at hmem
        left
        rw [htrm]
        apply List.mem_append.mpr
        right
        simp [hmem.2.symm]

theorem SInv_explore {σ ρ : Type} {Q : DKImpl σ ρ} {L : DKLaws Q}
    {g : NeighborList} {s : ℕ}
    (hg : GraphWF g) (hsum : sumW g < U32LIM)
    {st : SearchSt σ ρ} {tr : List (ℕ × ℕ)} {v k : ℕ}
    (H : SInvX Q L g s st tr (fun u => u = v))
    (hvin : (k, v) ∈ tr) (hlk : lastKey tr = k)
    (e : Neighbor) (he : e ∈ get_neighbors g v) :
    SInvX Q L g s (SearchSt.explore Q st v k e) tr (fun u => u = v) ∧
      SCov (SearchSt.explore Q st v k e) tr k e ∧
      (∀ k0 e0, SCov st tr k0 e0 →
        SCov (SearchSt.explore Q st v k e) tr k0 e0) := by
  have he' : edgeW g v e.dst e.weight := he
  have hvshort : IsShortest g s v k := by
    have := H.settled_shortest (k, v) hvin
    exact this
  have hsmeta : st.meta s ≠ none := by
    rcases H.s_state with hins | ⟨_, hm, _⟩
    · obtain ⟨kvs, hkvs, hkvse⟩ := List.mem_map.mp hins
      obtain ⟨hh, pp, hmm⟩ := H.settled_meta kvs hkvs
      rw [hkvse] at hmm
      rw [hmm]
      simp
    · rw [hm, mupd]
      simp
  have hsval := H.meta_valid s hsmeta
  have hbound : k + e.weight ≤ sumW g :=
    shortest_edge_le_sumW hg hsval.1 hsval.2 hvshort he'
  have halt : add32 k e.weight = k + e.weight := by
    rw [add32]
    exact Nat.mod_eq_of_lt (lt_of_le_of_lt hbound hsum)
  rcases hme : st.meta e.dst with _ | ⟨link, d, p0⟩
  · -- vacant: push
    have hdnotin : e.dst ∉ tr.map (fun kv => kv.2) := by
      intro hin
      obtain ⟨kvd, hkvd, hkvde⟩ := List.mem_map.mp hin
      obtain ⟨hh, pp, hmm⟩ := H.settled_meta kvd hkvd
      rw [hkvde, hme] at hmm
      simp at hmm
    have hnoitem : ∀ k2, (k2, e.dst) ∉ L.mdl st.queue := by
      intro k2 hk2
      obtain ⟨⟨hh, pp, hmm⟩, _⟩ := H.item_tent (k2, e.dst) hk2
      rw [hme] at hmm
      simp at hmm
    have hEq : SearchSt.explore Q st v k e =
        { queue := (Q.push (add32 k e.weight) e.dst st.queue).2,
          meta := mupd st.meta e.dst
            ((Q.push (add32 k e.weight) e.dst st.queue).1,
              add32 k e.weight, v) } := by
      simp [SearchSt.explore, hme]
    have hmdl : L.mdl (SearchSt.explore Q st v k e).queue
        = (add32 k e.weight, e.dst) ::ₘ L.mdl st.queue := by
      rw [hEq]
      exact L.push_mdl _ _ _ H.qinv
    have hmm2 : ∀ x, x ≠ e.dst →
        (SearchSt.explore Q st v k e).meta x = st.meta x := by
      intro x hx
      rw [hEq]
      show mupd st.meta e.dst _ x = _
      rw [mupd]
      simp [hx]
    have hmd : (SearchSt.explore Q st v k e).meta e.dst
        = some ((Q.push (add32 k e.weight) e.dst st.queue).1,
            add32 k e.weight, v) := by
      rw [hEq]
      show mupd st.meta e.dst _ e.dst = _
      rw [mupd]
      simp
    have hmono : ∀ k0 e0, SCov st tr k0 e0 →
        SCov (SearchSt.explore Q st v k e) tr k0 e0 := by
      intro k0 e0 hcov
      rcases hcov with h1 | ⟨h2, d2, p2, hm2, hd2⟩
      · exact Or.inl h1
      · by_cases hx : e0.dst = e.dst
        · rw [hx, hme] at hm2
          simp at hm2
        · exact Or.inr ⟨h2, d2, p2, by rw [hmm2 e0.dst hx]; exact hm2, hd2⟩
    refine ⟨⟨?_, ?_, ?_, H.settled_shortest, H.tr_nodup, H.tr_chain, ?_, ?_,
        ?_, ?_, ?_, ?_, ?_, ?_, ?_, ?_⟩, ?_, hmono⟩
    · rw [hEq]
      exact L.push_inv _ _ _ H.qinv
    · -- uniq
      intro x
      rw [hmdl]
      by_cases hx : x = e.dst
      · subst hx
        rw [filter_card_cons_eq2]
        have h0 : Multiset.card (Multiset.filter (fun kv => kv.2 = e.dst)
            (L.mdl st.queue)) = 0 := by
          by_contra hc
          obtain ⟨kv2, hkv2⟩ := Multiset.card_pos_iff_exists_mem.mp
            (Nat.pos_of_ne_zero hc)
          obtain ⟨hkm, hke⟩ := Multiset.mem_filter.mp hkv2
          apply hnoitem kv2.1
          have : kv2 = (kv2.1, e.dst) := by
            rw [← hke]
          rw [← this]
          exact hkm
        omega
      · rw [filter_card_cons_ne2 (fun h2 => hx h2.symm)]
        exact H.uniq x
    · -- settled_meta
      intro kv hkv
      have hne : kv.2 ≠ e.dst := by
        intro hh
        exact hdnotin (hh ▸ List.mem_map.mpr ⟨kv, hkv, rfl⟩)
      rw [hmm2 kv.2 hne]
      exact H.settled_meta kv hkv
    · -- tent_item
      intro x h2 d2 p2 hm2 hxn
      by_cases hx : x = e.dst
      · subst hx
        rw [hmd] at hm2
        simp only [Option.some.injEq, Prod.mk.injEq] at hm2
        obtain ⟨hh, hd2, hp2⟩ := hm2
        constructor
        · rw [hmdl, ← hd2]
          exact Multiset.mem_cons_self _ _
        · intro _
          rw [hEq, ← hh]
          exact L.push_ref _ _ _ H.qinv
      · rw [hmm2 x hx] at hm2
        obtain ⟨hitem, hrefok⟩ := H.tent_item x h2 d2 p2 hm2 hxn
        constructor
        · rw [hmdl]
          exact Multiset.mem_cons_of_mem hitem
        · intro hd
          rw [hEq]
          exact L.push_refPres _ _ _ _ _ H.qinv (hrefok hd)
    · -- item_tent
      intro kv hkv
      rw [hmdl] at hkv
      rcases Multiset.mem_cons.mp hkv with h1 | h1
      · rw [h1]
        exact ⟨⟨_, v, hmd⟩, hdnotin⟩
      · obtain ⟨⟨hh, pp, hmm⟩, hnin⟩ := H.item_tent kv h1
        have hne : kv.2 ≠ e.dst := by
          intro hx
          rw [hx, hme] at hmm
          simp at hmm
        exact ⟨⟨hh, pp, by rw [hmm2 kv.2 hne]; exact hmm⟩, hnin⟩
    · -- item_last
      intro kv hkv
      rw [hmdl] at hkv
      rcases Multiset.mem_cons.mp hkv with h1 | h1
      · rw [h1]
        show lastKey tr ≤ add32 k e.weight
        rw [halt, hlk]
        omega
      · exact H.item_last kv h1
    · -- meta_walk
      intro x h2 d2 p2 hm2
      by_cases hx : x = e.dst
      · subst hx
        rw [hmd] at hm2
        simp only [Option.some.injEq, Prod.mk.injEq] at hm2
        rw [← hm2.2.1, halt]
        exact WalkW.cons hvshort.1 he'
      · rw [hmm2 x hx] at hm2
        exact H.meta_walk x h2 d2 p2 hm2
    · -- relaxed
      intro kv hkv hex e0 he0
      exact hmono kv.1 e0 (H.relaxed kv hkv hex e0 he0)
    · -- meta_prev
      intro x h2 d2 p2 hm2
      by_cases hx : x = e.dst
      · subst hx
        rw [hmd] at hm2
        simp only [Option.some.injEq, Prod.mk.injEq] at hm2
        obtain ⟨hh2, hd2, hp2⟩ := hm2
        right
        rw [← hp2, ← hd2, halt]
        exact ⟨e.weight, k, he', hvin, rfl⟩
      · rw [hmm2 x hx] at hm2
        exact H.meta_prev x h2 d2 p2 hm2
    · -- prev_pos
      intro x h2 d2 p2 hm2 hxin hxs
      by_cases hx : x = e.dst
      · rw [hx] at hxin
        exact absurd hxin hdnotin
      · rw [hmm2 x hx] at hm2
        exact H.prev_pos x h2 d2 p2 hm2 hxin hxs
    · -- meta_valid
      intro x hx
      by_cases hxe : x = e.dst
      · subst hxe
        exact edgeW_dst_valid hg he'
      · rw [hmm2 x hxe] at hx
        exact H.meta_valid x hx
    · -- s_state
      rcases H.s_state with hins | ⟨htr, _, _⟩
      · exact Or.inl hins
      · rw [htr] at hvin
        simp at hvin
    · -- s_prev
      intro h2 d2 p2 hm2
      have hse : s ≠ e.dst := by
        intro hcon
        rw [hcon, hme] at hsmeta
        exact hsmeta rfl
      rw [hmm2 s hse] at hm2
      exact H.s_prev h2 d2 p2 hm2
    · -- SCov of e
      right
      exact ⟨_, add32 k e.weight, v, hmd, by rw [halt]⟩
  · -- occupied
    by_cases hlt : add32 k e.weight < d
    · -- decrease_key branch
      have hdnotin : e.dst ∉ tr.map (fun kv => kv.2) := by
        intro hin
        obtain ⟨kvd, hkvd, hkvde⟩ := List.mem_map.mp hin
        obtain ⟨hh, pp, hmm⟩ := H.settled_meta kvd hkvd
        rw [hkvde, hme] at hmm
        simp only [Option.some.injEq, Prod.mk.injEq] at hmm
        have hdk : kvd.1 = d := hmm.2.1.symm
        have hkle : kvd.1 ≤ lastKey tr := lastKey_le_of_chain H.tr_chain kvd hkvd
        rw [hlk] at hkle
        rw [halt] at hlt
        omega
      obtain ⟨hitem, hrefok⟩ := H.tent_item e.dst link d p0 hme hdnotin
      have hd0 : 0 < d := by omega
      obtain ⟨hmdl2, hinv2, hrefok2, hrefpres⟩ :=
        L.dk_mdl st.queue link e.dst d (add32 k e.weight) H.qinv
          (hrefok hd0) hitem (H.uniq e.dst) (le_of_lt hlt)
      obtain ⟨m2, hdec, hno⟩ := uniq_decomp (H.uniq e.dst) hitem
      have herm2 : (L.mdl st.queue).erase (d, e.dst) = m2 := by
        rw [hdec, Multiset.erase_cons_head]
      have hEq : SearchSt.explore Q st v k e =
          { queue := Q.decrease_key link (add32 k e.weight) st.queue,
            meta := mupd st.meta e.dst (link, add32 k e.weight, v) } := by
        simp [SearchSt.explore, hme, hlt]
      have hmdl : L.mdl (SearchSt.explore Q st v k e).queue
          = (add32 k e.weight, e.dst) ::ₘ m2 := by
        rw [hEq]
        show L.mdl (Q.decrease_key link (add32 k e.weight) st.queue) = _
        rw [hmdl2, herm2]
      have hmm2 : ∀ x, x ≠ e.dst →
          (SearchSt.explore Q st v k e).meta x = st.meta x := by
        intro x hx
        rw [hEq]
        show mupd st.meta e.dst _ x = _
        rw [mupd]
        simp [hx]
      have hmd : (SearchSt.explore Q st v k e).meta e.dst
          = some (link, add32 k e.weight, v) := by
        rw [hEq]
        show mupd st.meta e.dst _ e.dst = _
        rw [mupd]
        simp
      have hmono : ∀ k0 e0, SCov st tr k0 e0 →
          SCov (SearchSt.explore Q st v k e) tr k0 e0 := by
        intro k0 e0 hcov
        rcases hcov with h1 | ⟨h2, d2, p2, hm2, hd2⟩
        · exact Or.inl h1
        · by_cases hx : e0.dst = e.dst
          · rw [hx, hme] at hm2
            simp only [Option.some.injEq, Prod.mk.injEq] at hm2
            right
            refine ⟨link, add32 k e.weight, v, by rw [hx]; exact hmd, ?_⟩
            rw [← hm2.2.1] at hd2
            omega
          · exact Or.inr ⟨h2, d2, p2, by rw [hmm2 e0.dst hx]; exact hm2, hd2⟩
      refine ⟨⟨?_, ?_, ?_, H.settled_shortest, H.tr_nodup, H.tr_chain,
          ?_, ?_, ?_, ?_, ?_, ?_, ?_, ?_, ?_, ?_⟩, ?_, hmono⟩
      · rw [hEq]
        exact hinv2
      · -- uniq
        intro x
        rw [hmdl]
        by_cases hx : x = e.dst
        · subst hx
          rw [filter_card_cons_eq2]
          have h0 : Multiset.card (Multiset.filter (fun kv => kv.2 = e.dst)
              m2) = 0 := by
            by_contra hc
            obtain ⟨kv2, hkv2⟩ := Multiset.card_pos_iff_exists_mem.mp
              (Nat.pos_of_ne_zero hc)
            obtain ⟨hkm, hke⟩ := Multiset.mem_filter.mp hkv2
            apply hno kv2.1
            have : kv2 = (kv2.1, e.dst) := by
              rw [← hke]
            rw [← this]
            exact hkm
          omega
        · rw [filter_card_cons_ne2 (fun h2 => hx h2.symm)]
          have : Multiset.card (Multiset.filter (fun kv => kv.2 = x)
              (L.mdl st.queue)) ≤ 1 := H.uniq x
          rw [hdec, filter_card_cons_ne2 (fun h2 => hx h2.symm)] at this
          exact this
      · -- settled_meta
        intro kv hkv
        have hne : kv.2 ≠ e.dst := by
          intro hh
          exact hdnotin (hh ▸ List.mem_map.mpr ⟨kv, hkv, rfl⟩)
        rw [hmm2 kv.2 hne]
        exact H.settled_meta kv hkv
      · -- tent_item
        intro x h2 d2 p2 hm2 hxn
        by_cases hx : x = e.dst
        · subst hx
          rw [hmd] at hm2
          simp only [Option.some.injEq, Prod.mk.injEq] at hm2
          constructor
          · rw [hmdl, ← hm2.2.1]
            exact Multiset.mem_cons_self _ _
          · intro _
            rw [hEq, ← hm2.1]
            exact hrefok2
        · rw [hmm2 x hx] at hm2
          obtain ⟨hitem2, hrefok3⟩ := H.tent_item x h2 d2 p2 hm2 hxn
          constructor
          · rw [hmdl]
            apply Multiset.mem_cons_of_mem
            rw [hdec] at hitem2
            rcases Multiset.mem_cons.mp hitem2 with h1 | h1
            · simp only [Prod.mk.injEq] at h1
              exact absurd h1.2 hx
            · exact h1
          · intro hd2p
            rw [hEq]
            exact hrefpres h2 x hx (hrefok3 hd2p)
      · -- item_tent
        intro kv hkv
        rw [hmdl] at hkv
        rcases Multiset.mem_cons.mp hkv with h1 | h1
        · rw [h1]
          exact ⟨⟨link, v, hmd⟩, hdnotin⟩
        · have hkv2 : kv ∈ L.mdl st.queue := by
            rw [hdec]
            exact Multiset.mem_cons_of_mem h1
          obtain ⟨⟨hh, pp, hmm⟩, hnin⟩ := H.item_tent kv hkv2
          have hne : kv.2 ≠ e.dst := by
            intro hx
            apply hno kv.1
            rw [← hx]
            exact h1
          exact ⟨⟨hh, pp, by rw [hmm2 kv.2 hne]; exact hmm⟩, hnin⟩
      · -- item_last
        intro kv hkv
        rw [hmdl] at hkv
        rcases Multiset.mem_cons.mp hkv with h1 | h1
        · rw [h1]
          show lastKey tr ≤ add32 k e.weight
          rw [halt, hlk]
          omega
        · apply H.item_last kv
          rw [hdec]
          exact Multiset.mem_cons_of_mem h1
      · -- meta_walk
        intro x h2 d2 p2 hm2
        by_cases hx : x = e.dst
        · subst hx
          rw [hmd] at hm2
          simp only [Option.some.injEq, Prod.mk.injEq] at hm2
          rw [← hm2.2.1, halt]
          exact WalkW.cons hvshort.1 he'
        · rw [hmm2 x hx] at hm2
          exact H.meta_walk x h2 d2 p2 hm2
      · -- relaxed
        intro kv hkv hex e0 he0
        exact hmono kv.1 e0 (H.relaxed kv hkv hex e0 he0)
      · -- meta_prev
        intro x h2 d2 p2 hm2
        by_cases hx : x = e.dst
        · subst hx
          rw [hmd] at hm2
          simp only [Option.some.injEq, Prod.mk.injEq] at hm2
          obtain ⟨hh2, hd2, hp2⟩ := hm2
          right
          rw [← hp2, ← hd2, halt]
          exact ⟨e.weight, k, he', hvin, rfl⟩
        · rw [hmm2 x hx] at hm2
          exact H.meta_prev x h2 d2 p2 hm2
      · -- prev_pos
        intro x h2 d2 p2 hm2 hxin hxs
        by_cases hx : x = e.dst
        · rw [hx] at hxin
          exact absurd hxin hdnotin
        · rw [hmm2 x hx] at hm2
          exact H.prev_pos x h2 d2 p2 hm2 hxin hxs
      · -- meta_valid
        intro x hx
        by_cases hxe : x = e.dst
        · subst hxe
          apply H.meta_valid
          rw [hme]
          simp
        · rw [hmm2 x hxe] at hx
          exact H.meta_valid x hx
      · -- s_state
        rcases H.s_state with hins | ⟨htr, _, _⟩
        · exact Or.inl hins
        · rw [htr] at hvin
          simp at hvin
      · -- s_prev
        intro h2 d2 p2 hm2
        by_cases hse : s = e.dst
        · rw [← hse] at hme
          obtain ⟨_, hd0⟩ := H.s_prev link d p0 hme
          rw [hd0] at hlt
          omega
        · rw [hmm2 s (fun hcc => hse hcc)] at hm2
          exact H.s_prev h2 d2 p2 hm2
      · -- SCov of e
        right
        exact ⟨link, add32 k e.weight, v, hmd, by rw [halt]⟩
    · -- no-op branch
      have hEq : SearchSt.explore Q st v k e = st := by
        simp [SearchSt.explore, hme, hlt]
      rw [hEq]
      refine ⟨⟨H.qinv, H.uniq, H.settled_meta, H.settled_shortest,
          H.tr_nodup, H.tr_chain, H.tent_item, H.item_tent, H.item_last,
          H.meta_walk, H.relaxed, H.meta_prev, H.prev_pos, H.meta_valid,
          H.s_state, H.s_prev⟩, ?_, fun _ _ h => h⟩
      right
      refine ⟨link, d, p0, hme, ?_⟩
      rw [halt] at hlt
      omega

theorem tr_key_unique : ∀ {tr : List (ℕ × ℕ)},
    (tr.map (fun kv => kv.2)).Nodup → ∀ {k1 k2 x : ℕ},
    (k1, x) ∈ tr → (k2, x) ∈ tr → k1 = k2 := by
  intro tr
  induction tr with
  | nil => intro _ k1 k2 x h1; simp at h1
  | cons a t ih =>
    intro hnd k1 k2 x h1 h2
    simp only [List.map_cons, List.nodup_cons] at hnd
    rcases List.mem_cons.mp h1 with ha1 | ht1 <;>
      rcases List.mem_cons.mp h2 with ha2 | ht2
    · rw [← ha1] at ha2
      simp only [Prod.mk.injEq] at ha2
      exact ha2.1.symm
    · exfalso
      apply hnd.1
      rw [← ha1]
      exact List.mem_map.mpr ⟨(k2, x), ht2, rfl⟩
    · exfalso
      apply hnd.1
      rw [← ha2]
      exact List.mem_map.mpr ⟨(k1, x), ht1, rfl⟩
    · exact ih hnd.2 ht1 ht2

theorem SInv_exploreAll {σ ρ : Type} {Q : DKImpl σ ρ} {L : DKLaws Q}
    {g : NeighborList} {s : ℕ}
    (hg : GraphWF g) (hsum : sumW g < U32LIM)
    {v k : ℕ} {tr : List (ℕ × ℕ)}
    (hvin : (k, v) ∈ tr) (hlk : lastKey tr = k) :
    ∀ (l : List Neighbor) (st : SearchSt σ ρ),
      (∀ e ∈ l, e ∈ get_neighbors g v) →
      SInvX Q L g s st tr (fun u => u = v) →
      SInvX Q L g s
          (l.foldl (fun s2 e => SearchSt.explore Q s2 v k e) st) tr
          (fun u => u = v) ∧
        (∀ e ∈ l, SCov
          (l.foldl (fun s2 e => SearchSt.explore Q s2 v k e) st) tr k e) ∧
        (∀ k0 e0, SCov st tr k0 e0 → SCov
          (l.foldl (fun s2 e => SearchSt.explore Q s2 v k e) st) tr k0 e0) := by
  intro l
  induction l with
  | nil =>
    intro st _ H
    exact ⟨H, by simp, fun k0 e0 h => h⟩
  | cons e l ih =>
    intro st hsub H
    have he : e ∈ get_neighbors g v := hsub e (by simp)
    obtain ⟨H1, hcov1, hmono1⟩ := SInv_explore hg hsum H hvin hlk e he
    obtain ⟨H2, hcov2, hmono2⟩ := ih (SearchSt.explore Q st v k e)
      (fun e0 he0 => hsub e0 (by simp [he0])) H1
    refine ⟨H2, ?_, ?_⟩
    · intro e0 he0
      rcases List.mem_cons.mp he0 with h1 | h1
      · rw [h1]
        exact hmono2 k e hcov1
      · exact hcov2 e0 h1
    · intro k0 e0 h0
      exact hmono2 k0 e0 (hmono1 k0 e0 h0)

theorem SInv_step {σ ρ : Type} {Q : DKImpl σ ρ} {L : DKLaws Q}
    {g : NeighborList} {s : ℕ}
    (hg : GraphWF g) (hsum : sumW g < U32LIM)
    {st st2 : SearchSt σ ρ} {tr : List (ℕ × ℕ)} {k v : ℕ}
    (H : SInv Q L g s st tr)
    (hpop : SearchSt.pop_min Q st = some ((k, v), st2)) :
    SInv Q L g s (exploreAll (searchShell Q) g v k st2) (tr ++ [(k, v)]) := by
  obtain ⟨H2, hmeta, hlk, hfresh, hshort⟩ := SInv_settle H hpop
  have hvin : (k, v) ∈ tr ++ [(k, v)] := by simp
  obtain ⟨H3, hcovall, _⟩ := SInv_exploreAll hg hsum hvin hlk
    (get_neighbors g v) st2 (fun e he => he) H2
  have hfin : exploreAll (searchShell Q) g v k st2
      = (get_neighbors g v).foldl
          (fun s2 e => SearchSt.explore Q s2 v k e) st2 := rfl
  rw [hfin]
  refine ⟨H3.qinv, H3.uniq, H3.settled_meta, H3.settled_shortest,
    H3.tr_nodup, H3.tr_chain, H3.tent_item, H3.item_tent, H3.item_last,
    H3.meta_walk, ?_, H3.meta_prev, H3.prev_pos, H3.meta_valid, H3.s_state,
    H3.s_prev⟩
  intro kv hkv _ e he
  by_cases hev : kv.2 = v
  · have hkv2 : (kv.1, v) ∈ tr ++ [(k, v)] := by
      have h0 : (kv.1, kv.2) ∈ tr ++ [(k, v)] := hkv
      rw [hev] at h0
      exact h0
    have hk2 : kv.1 = k := tr_key_unique H3.tr_nodup hkv2 hvin
    rw [hk2]
    rw [hev] at he
    exact hcovall e he
  · exact H3.relaxed kv hkv (by simp [hev]) e he

theorem SInv_init {σ ρ : Type} {Q : DKImpl σ ρ} (L : DKLaws Q)
    {g : NeighborList} {s : ℕ}
    (hs1 : 1 ≤ s) (hs2 : s ≤ g.length) :
    SInv Q L g s (SearchSt.init Q s) [] := by
  have hmeta : ∀ x, (SearchSt.init Q s).meta x
      = if x = s then some (Q.refFromV s, 0, s) else none := by
    intro x
    show mupd (fun _ => none) s (Q.refFromV s, 0, s) x = _
    simp only [mupd]
  have hmdl : L.mdl (SearchSt.init Q s).queue = {(0, s)} :=
    L.fromV_mdl s (by omega)
  refine ⟨L.fromV_inv s, ?_, ?_, ?_, by simp, by simp, ?_, ?_, ?_, ?_,
    ?_, ?_, ?_, ?_, ?_, ?_⟩
  · intro x
    rw [hmdl]
    have hle : Multiset.filter (fun kv => kv.2 = x) ({(0, s)} : Multiset (ℕ × ℕ))
        ≤ {(0, s)} := Multiset.filter_le _ _
    have := Multiset.card_le_card hle
    simpa using this
  · intro kv hkv
    simp at hkv
  · intro kv hkv
    simp at hkv
  · intro x h d p hmx hxn
    rw [hmeta] at hmx
    by_cases hx : x = s
    · rw [if_pos hx] at hmx
      simp only [Option.some.injEq, Prod.mk.injEq] at hmx
      constructor
      · rw [hmdl, hx, ← hmx.2.1]
        simp
      · intro hd
        rw [← hmx.2.1] at hd
        omega
    · rw [if_neg hx] at hmx
      simp at hmx
  · intro kv hkv
    rw [hmdl] at hkv
    simp only [Multiset.mem_singleton] at hkv
    rw [hkv]
    refine ⟨⟨Q.refFromV s, s, ?_⟩, by simp⟩
    rw [hmeta]
    simp
  · intro kv hkv
    rw [lastKey]
    simp
  · intro x h d p hmx
    rw [hmeta] at hmx
    by_cases hx : x = s
    · rw [if_pos hx] at hmx
      simp only [Option.some.injEq, Prod.mk.injEq] at hmx
      rw [hx, ← hmx.2.1]
      exact WalkW.nil
    · rw [if_neg hx] at hmx
      simp at hmx
  · intro kv hkv
    simp at hkv
  · intro x h d p hmx
    rw [hmeta] at hmx
    by_cases hx : x = s
    · rw [if_pos hx] at hmx
      simp only [Option.some.injEq, Prod.mk.injEq] at hmx
      exact Or.inl ⟨hx, hmx.2.2.symm, hmx.2.1.symm⟩
    · rw [if_neg hx] at hmx
      simp at hmx
  · intro x h d p hmx hxin
    simp at hxin
  · intro x hx
    rw [hmeta] at hx
    by_cases hxs : x = s
    · rw [hxs]
      exact ⟨hs1, hs2⟩
    · rw [if_neg hxs] at hx
      simp at hx
  · right
    exact ⟨rfl, rfl, hmdl⟩
  · intro h d p hm
    rw [hmeta, if_pos rfl] at hm
    simp only [Option.some.injEq, Prod.mk.injEq] at hm
    exact ⟨hm.2.2.symm, hm.2.1.symm⟩

theorem SInv_tr_len {σ ρ : Type} {Q : DKImpl σ ρ} {L : DKLaws Q}
    {g : NeighborList} {s : ℕ} {st : SearchSt σ ρ} {tr : List (ℕ × ℕ)}
    {ex : ℕ → Prop} (H : SInvX Q L g s st tr ex) :
    tr.length ≤ g.length := by
  have hnd : (tr.map (fun kv => kv.2)).Nodup := H.tr_nodup
  have hval : ∀ x ∈ tr.map (fun kv => kv.2), x ∈ Finset.Icc 1 g.length := by
    intro x hx
    obtain ⟨kv, hkv, hkve⟩ := List.mem_map.mp hx
    obtain ⟨h, p, hm⟩ := H.settled_meta kv hkv
    have hne : st.meta kv.2 ≠ none := by
      rw [hm]
      simp
    have := H.meta_valid kv.2 hne
    rw [hkve] at this
    exact Finset.mem_Icc.mpr this
  have hsubf : (tr.map (fun kv => kv.2)).toFinset ⊆ Finset.Icc 1 g.length := by
    intro x hx
    exact hval x (List.mem_toFinset.mp hx)
  have hcard := Finset.card_le_card hsubf
  rw [List.toFinset_card_of_nodup hnd] at hcard
  rw [Nat.card_Icc] at hcard
  simpa using hcard

theorem s_ssspTrF_spec {σ ρ : Type} {Q : DKImpl σ ρ} {L : DKLaws Q}
    {g : NeighborList} {s : ℕ}
    (hg : GraphWF g) (hsum : sumW g < U32LIM) :
    ∀ fuel (st : SearchSt σ ρ) (tr : List (ℕ × ℕ)),
      SInv Q L g s st tr → g.length + 1 ≤ fuel + tr.length →
      SInv Q L g s (ssspTrF (searchShell Q) g fuel st tr).1
          (ssspTrF (searchShell Q) g fuel st tr).2 ∧
        SearchSt.pop_min Q (ssspTrF (searchShell Q) g fuel st tr).1 = none := by
  intro fuel
  induction fuel with
  | zero =>
    intro st tr H hfuel
    have := SInv_tr_len H
    omega
  | succ fuel ih =>
    intro st tr H hfuel
    rw [ssspTrF]
    cases hpop : SearchSt.pop_min Q st with
    | none =>
      have hp2 : (searchShell Q).pop_min st = none := hpop
      rw [hp2]
      exact ⟨H, hpop⟩
    | some res =>
      obtain ⟨⟨k, v⟩, st2⟩ := res
      have hp2 : (searchShell Q).pop_min st = some ((k, v), st2) := hpop
      rw [hp2]
      dsimp only
      have H2 := SInv_step hg hsum H hpop
      have hlen : (tr ++ [(k, v)]).length = tr.length + 1 := by simp
      exact ih (exploreAll (searchShell Q) g v k st2) (tr ++ [(k, v)]) H2
        (by omega)

theorem SInv_final_settled {σ ρ : Type} {Q : DKImpl σ ρ} {L : DKLaws Q}
    {g : NeighborList} {s : ℕ} {st : SearchSt σ ρ} {tr : List (ℕ × ℕ)}
    (H : SInv Q L g s st tr)
    (hpop : SearchSt.pop_min Q st = none) :
    ∀ v, reaches g s v → v ∈ tr.map (fun kv => kv.2) := by
  have hmdl0 : L.mdl st.queue = 0 := by
    rw [SearchSt.pop_min] at hpop
    cases hq : Q.pop st.queue with
    | none => exact (L.pop_none st.queue H.qinv).mp hq
    | some res =>
      rw [hq] at hpop
      simp at hpop
  have hins : s ∈ tr.map (fun kv => kv.2) := by
    rcases H.s_state with h1 | ⟨_, _, h2⟩
    · exact h1
    · rw [hmdl0] at h2
      exact absurd h2.symm (by simp)
  intro v hv
  obtain ⟨c, hc⟩ := hv
  induction hc with
  | nil => exact hins
  | @cons u c1 x w hw he ihw =>
    obtain ⟨kvu, hkvu, hkvue⟩ := List.mem_map.mp ihw
    have hcov := H.relaxed kvu hkvu (by simp)
      { dst := x, weight := w } (by rw [hkvue]; exact he)
    rcases hcov with h1 | ⟨h2, d2, p2, hm2, _⟩
    · exact h1
    · by_cases h3 : x ∈ tr.map (fun kv => kv.2)
      · exact h3
      · exfalso
        obtain ⟨hitem, _⟩ := H.tent_item x h2 d2 p2 hm2 h3
        rw [hmdl0] at hitem
        simp at hitem

theorem s_get_dist {σ ρ : Type} (Q : DKImpl σ ρ) (st : SearchSt σ ρ)
    (v : ℕ) :
    Shell.get_dist (searchShell Q) st v
      = (st.meta v).map (fun x => x.2.1) := by
  rw [Shell.get_dist]
  show ((st.meta v).map (fun x => (x.2.1, x.2.2))).map (fun x => x.1) = _
  cases st.meta v <;> rfl

theorem search_sssp_dist {σ ρ : Type} (Q : DKImpl σ ρ) (L : DKLaws Q)
    {g : NeighborList} {s : ℕ}
    (hg : GraphWF g) (hsum : sumW g < U32LIM)
    (hs1 : 1 ≤ s) (hs2 : s ≤ g.length) :
    (∀ v, reaches g s v → ∃ d,
      Shell.get_dist (searchShell Q)
        (sssp (searchShell Q) (SearchSt.init Q s) g) v = some d ∧
      IsShortest g s v d) ∧
    (∀ v, ¬ reaches g s v →
      Shell.get_dist (searchShell Q)
        (sssp (searchShell Q) (SearchSt.init Q s) g) v = none) := by
  obtain ⟨Hf, hpopf⟩ := s_ssspTrF_spec (L := L) hg hsum
    (g.length + 1) (SearchSt.init Q s) [] (SInv_init L hs1 hs2)
    (by simp)
  have hfin : (ssspTrF (searchShell Q) g (g.length + 1)
      (SearchSt.init Q s) []).1 = sssp (searchShell Q) (SearchSt.init Q s) g :=
    rfl
  constructor
  · intro v hv
    have hvin := SInv_final_settled Hf hpopf v hv
    obtain ⟨kv, hkv, hkve⟩ := List.mem_map.mp hvin
    obtain ⟨h, p, hm⟩ := Hf.settled_meta kv hkv
    rw [hkve] at hm
    refine ⟨kv.1, ?_, ?_⟩
    · rw [s_get_dist, ← hfin, hm]
      rfl
    · have := Hf.settled_shortest kv hkv
      rw [hkve] at this
      exact this
  · intro v hv
    rw [s_get_dist, ← hfin]
    cases hm : (ssspTrF (searchShell Q) g (g.length + 1)
        (SearchSt.init Q s) []).1.meta v with
    | none => rfl
    | some hdp =>
      exfalso
      apply hv
      obtain ⟨h, d, p⟩ := hdp
      exact ⟨d, Hf.meta_walk v h d p hm⟩

/-- The queue interface the `OwnedLookup` shell effectively runs against: as
`Q`, but `push` hands back the vertex-derived handle (`RefType::from`), which
is the handle `OwnedLookup::explore` later passes to `decrease_key`. -/
def ownedToDK {σ ρ : Type} (Q : DKImpl σ ρ) : DKImpl σ ρ :=
  { fromV := Q.fromV
    refFromV := Q.refFromV
    push := fun k v q => (Q.refFromV v, (Q.push k v q).2)
    pop := Q.pop
    decrease_key := Q.decrease_key }

/-- A queue owning its lookup satisfies the `DecreaseKey` laws also when every
push-returned handle is replaced by the vertex-derived one. -/
def ownedDKLaws {σ ρ : Type} {Q : DKImpl σ ρ} (L : DKLawsOwned Q) :
    DKLaws (ownedToDK Q) :=
  { Inv := L.Inv
    mdl := L.mdl
    refOk := L.refOk
    fromV_inv := L.fromV_inv
    fromV_mdl := L.fromV_mdl
    push_inv := L.push_inv
    push_mdl := L.push_mdl
    push_ref := fun kk v q hq => by
      show L.refOk (Q.push kk v q).2 (Q.refFromV v) v
      exact L.refFromV_ok (Q.push kk v q).2 v (L.push_inv kk v q hq)
        ⟨kk, by rw [L.push_mdl kk v q hq]; simp⟩
    push_refPres := L.push_refPres
    pop_none := L.pop_none
    pop_some := L.pop_some
    dk_mdl := L.dk_mdl }

/-- View an `OwnedLookup` state as a `Search` state over `ownedToDK Q`: the
stored handle of a vertex is its vertex-derived handle. -/
def ownedView {σ ρ : Type} (Q : DKImpl σ ρ) (ow : OwnedSt σ) :
    SearchSt σ ρ :=
  { queue := ow.queue
    meta := fun x => (ow.meta x).map (fun dp => (Q.refFromV x, dp)) }

theorem ownedView_init {σ ρ : Type} (Q : DKImpl σ ρ) (s : ℕ) :
    ownedView Q (OwnedSt.init (ρ := ρ) Q s) = SearchSt.init (ownedToDK Q) s := by
  rw [ownedView, OwnedSt.init, SearchSt.init]
  simp only [SearchSt.mk.injEq]
  refine ⟨rfl, ?_⟩
  funext x
  rw [mupd, mupd]
  by_cases hx : x = s <;> simp [hx, ownedToDK]

theorem ownedView_explore {σ ρ : Type} (Q : DKImpl σ ρ) (ow : OwnedSt σ)
    (fro key : ℕ) (e : Neighbor) :
    ownedView Q (OwnedSt.explore Q ow fro key e)
      = SearchSt.explore (ownedToDK Q) (ownedView Q ow) fro key e := by
  have hview : (ownedView Q ow).meta e.dst
      = (ow.meta e.dst).map (fun dp => (Q.refFromV e.dst, dp)) := rfl
  rcases hme : ow.meta e.dst with _ | ⟨d, p⟩
  · have hv2 : (ownedView Q ow).meta e.dst = none := by
      rw [hview, hme]
      rfl
    rw [SearchSt.explore]
    rw [hv2]
    rw [OwnedSt.explore]
    rw [hme]
    dsimp only
    rw [ownedView, ownedView]
    simp only [SearchSt.mk.injEq]
    refine ⟨rfl, ?_⟩
    funext x
    rw [mupd]
    by_cases hx : x = e.dst <;> simp [mupd, hx, ownedToDK]
  · have hv2 : (ownedView Q ow).meta e.dst
        = some (Q.refFromV e.dst, d, p) := by
      rw [hview, hme]
      rfl
    rw [SearchSt.explore]
    rw [hv2]
    rw [OwnedSt.explore]
    rw [hme]
    dsimp only
    by_cases hlt : add32 key e.weight < d
    · rw [if_pos hlt, if_pos hlt]
      rw [ownedView, ownedView]
      simp only [SearchSt.mk.injEq]
      refine ⟨rfl, ?_⟩
      funext x
      rw [mupd]
      by_cases hx : x = e.dst <;> simp [mupd, hx, ownedToDK]
    · rw [if_neg hlt, if_neg hlt]

theorem ownedView_pop {σ ρ : Type} (Q : DKImpl σ ρ) (ow : OwnedSt σ) :
    SearchSt.pop_min (ownedToDK Q) (ownedView Q ow)
      = (OwnedSt.pop_min (ρ := ρ) Q ow).map
          (fun x => (x.1, ownedView Q x.2)) := by
  rw [SearchSt.pop_min, OwnedSt.pop_min]
  show (Q.pop ow.queue).map _ = ((Q.pop ow.queue).map _).map _
  cases Q.pop ow.queue <;> rfl

theorem ownedView_get_meta {σ ρ : Type} (Q : DKImpl σ ρ) (ow : OwnedSt σ)
    (t : ℕ) :
    SearchSt.get_meta (ownedView Q ow) t = OwnedSt.get_meta ow t := by
  rw [SearchSt.get_meta, OwnedSt.get_meta]
  show ((ow.meta t).map _).map _ = _
  cases ow.meta t <;> rfl

theorem ownedView_exploreAll {σ ρ : Type} (Q : DKImpl σ ρ)
    (g : NeighborList) (u dist : ℕ) :
    ∀ (l : List Neighbor) (ow : OwnedSt σ),
      l.foldl (fun s2 e => SearchSt.explore (ownedToDK Q) s2 u dist e)
          (ownedView Q ow)
        = ownedView Q
            (l.foldl (fun s2 e => OwnedSt.explore Q s2 u dist e) ow) := by
  intro l
  induction l with
  | nil => intro ow; rfl
  | cons e l ih =>
    intro ow
    show List.foldl _ (SearchSt.explore (ownedToDK Q) (ownedView Q ow) u dist e) l = _
    rw [← ownedView_explore]
    exact ih (OwnedSt.explore Q ow u dist e)

theorem ownedView_ssspTrF {σ ρ : Type} (Q : DKImpl σ ρ) (g : NeighborList) :
    ∀ (fuel : ℕ) (ow : OwnedSt σ) (tr : List (ℕ × ℕ)),
      (ssspTrF (searchShell (ownedToDK Q)) g fuel (ownedView Q ow) tr).1
          = ownedView Q (ssspTrF (ownedShell Q) g fuel ow tr).1 ∧
        (ssspTrF (searchShell (ownedToDK Q)) g fuel (ownedView Q ow) tr).2
          = (ssspTrF (ownedShell Q) g fuel ow tr).2 := by
  intro fuel
  induction fuel with
  | zero => intro ow tr; exact ⟨rfl, rfl⟩
  | succ fuel ih =>
    intro ow tr
    rw [ssspTrF, ssspTrF]
    cases hq : OwnedSt.pop_min (ρ := ρ) Q ow with
    | none =>
      have hqS : (searchShell (ownedToDK Q)).pop_min (ownedView Q ow)
          = none := by
        show SearchSt.pop_min (ownedToDK Q) (ownedView Q ow) = none
        rw [ownedView_pop, hq]
        rfl
      have hq2 : (ownedShell Q).pop_min ow = none := hq
      rw [hqS, hq2]
      exact ⟨rfl, rfl⟩
    | some res =>
      obtain ⟨⟨k, v⟩, ow2⟩ := res
      have hqS : (searchShell (ownedToDK Q)).pop_min (ownedView Q ow)
          = some ((k, v), ownedView Q ow2) := by
        show SearchSt.pop_min (ownedToDK Q) (ownedView Q ow) = _
        rw [ownedView_pop, hq]
        rfl
      have hq2 : (ownedShell Q).pop_min ow = some ((k, v), ow2) := hq
      rw [hqS, hq2]
      dsimp only
      have hexp : exploreAll (searchShell (ownedToDK Q)) g v k
          (ownedView Q ow2) = ownedView Q (exploreAll (ownedShell Q) g v k ow2) :=
        ownedView_exploreAll Q g v k (get_neighbors g v) ow2
      rw [hexp]
      exact ih (exploreAll (ownedShell Q) g v k ow2) (tr ++ [(k, v)])

theorem owned_sssp_dist {σ ρ : Type} (Q : DKImpl σ ρ) (L : DKLawsOwned Q)
    {g : NeighborList} {s : ℕ}
    (hg : GraphWF g) (hsum : sumW g < U32LIM)
    (hs1 : 1 ≤ s) (hs2 : s ≤ g.length) :
    (∀ v, reaches g s v → ∃ d,
      Shell.get_dist (ownedShell Q)
        (sssp (ownedShell Q) (OwnedSt.init (ρ := ρ) Q s) g) v = some d ∧
      IsShortest g s v d) ∧
    (∀ v, ¬ reaches g s v →
      Shell.get_dist (ownedShell Q)
        (sssp (ownedShell Q) (OwnedSt.init (ρ := ρ) Q s) g) v = none) := by
  have hview : sssp (searchShell (ownedToDK Q))
      (SearchSt.init (ownedToDK Q) s) g
        = ownedView Q (sssp (ownedShell Q) (OwnedSt.init (ρ := ρ) Q s) g) := by
    rw [sssp, sssp, ← ownedView_init]
    exact (ownedView_ssspTrF Q g (g.length + 1) (OwnedSt.init Q s) []).1
  have hgd : ∀ v, Shell.get_dist (ownedShell Q)
      (sssp (ownedShell Q) (OwnedSt.init (ρ := ρ) Q s) g) v
        = Shell.get_dist (searchShell (ownedToDK Q))
            (sssp (searchShell (ownedToDK Q)) (SearchSt.init (ownedToDK Q) s) g)
            v := by
    intro v
    rw [Shell.get_dist, Shell.get_dist, hview]
    show (OwnedSt.get_meta _ v).map _ = (SearchSt.get_meta _ v).map _
    rw [ownedView_get_meta]
  obtain ⟨h1, h2⟩ := search_sssp_dist (ownedToDK Q) (ownedDKLaws L)
    hg hsum hs1 hs2
  constructor
  · intro v hv
    obtain ⟨d, hd, hds⟩ := h1 v hv
    exact ⟨d, by rw [hgd]; exact hd, hds⟩
  · intro v hv
    rw [hgd]
    exact h2 v hv

theorem canFold_spec :
    ∀ (l : List (ℕ × ℕ)) (b : ℕ × ℕ),
      ∃ res, List.foldl
          (fun acc it => match acc with
            | none => some it
            | some b2 => if it.1 < b2.1 then some it else some b2)
          (some b) l = some res ∧
        (res = b ∨ res ∈ l) ∧ res.1 ≤ b.1 ∧ ∀ kv ∈ l, res.1 ≤ kv.1 := by
  intro l
  induction l with
  | nil => intro b; exact ⟨b, rfl, Or.inl rfl, le_refl _, by simp⟩
  | cons a t ih =>
    intro b
    show ∃ res, List.foldl _
        (if a.1 < b.1 then some a else some b) t = some res ∧ _
    by_cases hab : a.1 < b.1
    · rw [if_pos hab]
      obtain ⟨res, h1, h2, h3, h4⟩ := ih a
      refine ⟨res, h1, ?_, le_trans h3 (le_of_lt hab), ?_⟩
      · right
        rcases h2 with h5 | h5
        · rw [h5]; simp
        · exact List.mem_cons_of_mem _ h5
      · intro kv hkv
        rcases List.mem_cons.mp hkv with h5 | h5
        · rw [h5]; exact h3
        · exact h4 kv h5
    · rw [if_neg hab]
      obtain ⟨res, h1, h2, h3, h4⟩ := ih b
      refine ⟨res, h1, ?_, h3, ?_⟩
      · rcases h2 with h5 | h5
        · exact Or.inl h5
        · exact Or.inr (List.mem_cons_of_mem _ h5)
      · intro kv hkv
        rcases List.mem_cons.mp hkv with h5 | h5
        · rw [h5]; omega
        · exact h4 kv h5

theorem canFindMin_spec {l : List (ℕ × ℕ)} {it : ℕ × ℕ}
    (h : canFindMin l = some it) : it ∈ l ∧ ∀ kv ∈ l, it.1 ≤ kv.1 := by
  cases l with
  | nil => rw [canFindMin] at h; simp at h
  | cons a t =>
    rw [canFindMin] at h
    rw [List.foldl_cons] at h
    obtain ⟨res, h1, h2, h3, h4⟩ := canFold_spec t a
    rw [h1] at h
    simp only [Option.some.injEq] at h
    subst h
    constructor
    · rcases h2 with h5 | h5
      · rw [h5]; simp
      · exact List.mem_cons_of_mem _ h5
    · intro kv hkv
      rcases List.mem_cons.mp hkv with h5 | h5
      · rw [h5]; exact h3
      · exact h4 kv h5

theorem canFindMin_none {l : List (ℕ × ℕ)} :
    canFindMin l = none ↔ l = [] := by
  cases l with
  | nil => simp [canFindMin]
  | cons a t =>
    rw [canFindMin, List.foldl_cons]
    obtain ⟨res, h1, _, _, _⟩ := canFold_spec t a
    show List.foldl _ (some a) t = none ↔ _
    rw [h1]
    simp

theorem coe_erase_pair : ∀ (l : List (ℕ × ℕ)) (a : ℕ × ℕ),
    ((l.erase a : List (ℕ × ℕ)) : Multiset (ℕ × ℕ))
      = (l : Multiset (ℕ × ℕ)).erase a := by
  intro l a
  induction l with
  | nil => rfl
  | cons b t ih =>
    rw [List.erase_cons]
    by_cases hba : b = a
    · rw [if_pos (by rw [beq_iff_eq]; exact hba)]
      have h2 : ((b :: t : List (ℕ × ℕ)) : Multiset (ℕ × ℕ))
          = b ::ₘ (t : Multiset (ℕ × ℕ)) := rfl
      rw [h2, hba, Multiset.erase_cons_head]
    · rw [if_neg (by rw [beq_iff_eq]; exact hba)]
      have h2 : ((b :: t : List (ℕ × ℕ)) : Multiset (ℕ × ℕ))
          = b ::ₘ (t : Multiset (ℕ × ℕ)) := rfl
      have h3 : ((b :: t.erase a : List (ℕ × ℕ)) : Multiset (ℕ × ℕ))
          = b ::ₘ ((t.erase a : List (ℕ × ℕ)) : Multiset (ℕ × ℕ)) := rfl
      rw [h3, ih, h2, Multiset.erase_cons_tail]
      intro hab
      exact hba hab

/-- The canonical bag satisfies the full owned-lookup `DecreaseKey` laws. -/
def canLaws : DKLawsOwned canImpl :=
  { Inv := fun _ => True
    mdl := fun l => (l : Multiset (ℕ × ℕ))
    refOk := fun _ h v => h = v
    fromV_inv := fun _ => trivial
    fromV_mdl := fun _ _ => rfl
    push_inv := fun _ _ _ _ => trivial
    push_mdl := fun kk v q _ => by
      show ((q ++ [(kk, v)] : List (ℕ × ℕ)) : Multiset (ℕ × ℕ))
          = (kk, v) ::ₘ (q : Multiset (ℕ × ℕ))
      rw [← Multiset.coe_add, add_comm, Multiset.coe_singleton,
        Multiset.singleton_add]
    push_ref := fun _ _ _ _ => rfl
    push_refPres := fun _ _ _ _ _ _ h => h
    pop_none := fun q _ => by
      show (canFindMin q).map (fun it => (it, q.erase it)) = none ↔ _
      rw [Option.map_eq_none']
      rw [canFindMin_none, Multiset.coe_eq_zero]
    pop_some := fun q kk v q2 _ hpop => by
      show _ ∧ ((q2 : List (ℕ × ℕ)) : Multiset (ℕ × ℕ)) = _ ∧ _
      have hpop2 : (canFindMin q).map (fun it => (it, q.erase it))
          = some ((kk, v), q2) := hpop
      cases hc : canFindMin q with
      | none => rw [hc] at hpop2; simp at hpop2
      | some it =>
        rw [hc] at hpop2
        dsimp only [Option.map] at hpop2
        simp only [Option.some.injEq, Prod.mk.injEq] at hpop2
        obtain ⟨hit, hq2⟩ := hpop2
        obtain ⟨hmem, hmin⟩ := canFindMin_spec hc
        rw [hit] at hmem hmin
        refine ⟨hmem, ?_, trivial, ?_, ?_⟩
        · rw [← hq2, hit]
          exact coe_erase_pair q (kk, v)
        · intro kv hkv
          exact hmin kv hkv
        · intro h w _ hok
          exact hok
    refFromV_ok := fun _ _ _ _ => rfl
    dk_mdl := fun q h v k0 kk _ hok hmem hcard hle => by
      have hok2 : v = h := hok.symm
      subst hok2
      dsimp only at hcard ⊢
      refine ⟨?_, trivial, rfl, fun h2 w hwv hok2 => hok2⟩
      obtain ⟨l1, l2, hdec⟩ := List.append_of_mem hmem
      subst hdec
      have hsplit : ((l1 ++ (k0, v) :: l2 : List (ℕ × ℕ)) :
          Multiset (ℕ × ℕ)) = ↑l1 + ((k0, v) ::ₘ (l2 : Multiset (ℕ × ℕ))) :=
        rfl
      have hzero : Multiset.card (Multiset.filter (fun kv => kv.2 = v)
            (l1 : Multiset (ℕ × ℕ))) = 0 ∧
          Multiset.card (Multiset.filter (fun kv => kv.2 = v)
            (l2 : Multiset (ℕ × ℕ))) = 0 := by
        rw [hsplit, Multiset.filter_add, Multiset.filter_cons] at hcard
        simp only [if_true, Multiset.card_add, Multiset.card_singleton]
          at hcard
        omega
      have hno1 : ∀ it ∈ l1, it.2 ≠ v := by
        intro it hit hitv
        have hf : it ∈ Multiset.filter (fun kv => kv.2 = v)
            (l1 : Multiset (ℕ × ℕ)) :=
          Multiset.mem_filter.mpr ⟨by exact hit, hitv⟩
        have := Multiset.card_pos_iff_exists_mem.mpr ⟨it, hf⟩
        omega
      have hno2 : ∀ it ∈ l2, it.2 ≠ v := by
        intro it hit hitv
        have hf : it ∈ Multiset.filter (fun kv => kv.2 = v)
            (l2 : Multiset (ℕ × ℕ)) :=
          Multiset.mem_filter.mpr ⟨by exact hit, hitv⟩
        have := Multiset.card_pos_iff_exists_mem.mpr ⟨it, hf⟩
        omega
      show (((l1 ++ (k0, v) :: l2).map
          (fun it => if it.2 = v then (kk, it.2) else it) :
            List (ℕ × ℕ)) : Multiset (ℕ × ℕ)) = _
      have hmap : (l1 ++ (k0, v) :: l2).map
          (fun it => if it.2 = v then (kk, it.2) else it)
            = l1 ++ (kk, v) :: l2 := by
        rw [List.map_append, List.map_cons]
        have h1 : l1.map (fun it => if it.2 = v then (kk, it.2) else it)
            = l1 := by
          conv_rhs => rw [← List.map_id l1]
          apply List.map_congr_left
          intro it hit
          exact if_neg (hno1 it hit)
        have h2 : l2.map (fun it => if it.2 = v then (kk, it.2) else it)
            = l2 := by
          conv_rhs => rw [← List.map_id l2]
          apply List.map_congr_left
          intro it hit
          exact if_neg (hno2 it hit)
        rw [h1, h2, if_pos rfl]
      rw [hmap]
      have hmid : ∀ (a : ℕ × ℕ) (s t : Multiset (ℕ × ℕ)),
          s + (a ::ₘ t) = a ::ₘ (s + t) := by
        intro a s t
        rw [← Multiset.singleton_add, ← Multiset.singleton_add, add_left_comm]
      have hlhs : ((l1 ++ (kk, v) :: l2 : List (ℕ × ℕ)) :
          Multiset (ℕ × ℕ)) = ↑l1 + ((kk, v) ::ₘ (l2 : Multiset (ℕ × ℕ))) :=
        rfl
      rw [hlhs, hsplit, hmid, hmid, Multiset.erase_cons_head] }

theorem nl_sssp_trace {σ : Type} (Q : PQImpl σ) (L : PQLaws Q)
    {g : NeighborList} {s : ℕ}
    (hg : GraphWF g) (hsum : sumW g < U32LIM)
    (hs1 : 1 ≤ s) (hs2 : s ≤ g.length) :
    List.Chain' (fun a b => a.1 ≤ b.1)
        (ssspTrace (nlShell Q) (NoLookupSt.init Q s) g) ∧
      ((ssspTrace (nlShell Q) (NoLookupSt.init Q s) g).map
        (fun kv => kv.2)).Nodup := by
  obtain ⟨Hf, _⟩ := nl_ssspTrF_spec (L := L) hg hsum hs1 hs2
    (g.length + 1) (NoLookupSt.init Q s) [] (NLInv_init L hs1 hs2) (by simp)
  exact ⟨Hf.tr_chain, Hf.tr_nodup⟩

theorem s_sssp_trace {σ ρ : Type} (Q : DKImpl σ ρ) (L : DKLaws Q)
    {g : NeighborList} {s : ℕ}
    (hg : GraphWF g) (hsum : sumW g < U32LIM)
    (hs1 : 1 ≤ s) (hs2 : s ≤ g.length) :
    List.Chain' (fun a b => a.1 ≤ b.1)
        (ssspTrace (searchShell Q) (SearchSt.init Q s) g) ∧
      ((ssspTrace (searchShell Q) (SearchSt.init Q s) g).map
        (fun kv => kv.2)).Nodup := by
  obtain ⟨Hf, _⟩ := s_ssspTrF_spec (L := L) hg hsum
    (g.length + 1) (SearchSt.init Q s) [] (SInv_init L hs1 hs2) (by simp)
  exact ⟨Hf.tr_chain, Hf.tr_nodup⟩

theorem owned_sssp_trace {σ ρ : Type} (Q : DKImpl σ ρ) (L : DKLawsOwned Q)
    {g : NeighborList} {s : ℕ}
    (hg : GraphWF g) (hsum : sumW g < U32LIM)
    (hs1 : 1 ≤ s) (hs2 : s ≤ g.length) :
    List.Chain' (fun a b => a.1 ≤ b.1)
        (ssspTrace (ownedShell Q) (OwnedSt.init (ρ := ρ) Q s) g) ∧
      ((ssspTrace (ownedShell Q) (OwnedSt.init (ρ := ρ) Q s) g).map
        (fun kv => kv.2)).Nodup := by
  have htr : ssspTrace (searchShell (ownedToDK Q)) (SearchSt.init (ownedToDK Q) s) g
      = ssspTrace (ownedShell Q) (OwnedSt.init (ρ := ρ) Q s) g := by
    rw [ssspTrace, ssspTrace, ← ownedView_init]
    exact (ownedView_ssspTrF Q g (g.length + 1) (OwnedSt.init Q s) []).2
  rw [← htr]
  exact s_sssp_trace (ownedToDK Q) (ownedDKLaws L) hg hsum hs1 hs2

theorem s2graph_wf : GraphWF s2graph := by
  unfold GraphWF
  decide

theorem s2graph_sum : sumW s2graph < U32LIM := by decide

/-- C1: for each of the three shells — `NoLookup` over any queue satisfying
the `PriorityQueue` laws, `Search` over any queue satisfying the
`DecreaseKey` laws, and `OwnedLookup` over any queue whose vertex-derived
handles are valid — running `sssp` from a valid source on a well-formed
graph whose total edge weight fits in a u32 makes `get_dist` return the
shortest-path distance of every reachable vertex and `None` on every
unreachable vertex. -/
theorem C1_sssp_distance_correctness :
    (∀ (σ : Type) (Q : PQImpl σ) (L : PQLaws Q) (g : NeighborList) (s : ℕ),
      GraphWF g → sumW g < U32LIM → 1 ≤ s → s ≤ g.length →
      (∀ v, reaches g s v → ∃ d,
        Shell.get_dist (nlShell Q)
          (sssp (nlShell Q) (NoLookupSt.init Q s) g) v = some d ∧
        IsShortest g s v d) ∧
      (∀ v, ¬ reaches g s v →
        Shell.get_dist (nlShell Q)
          (sssp (nlShell Q) (NoLookupSt.init Q s) g) v = none)) ∧
    (∀ (σ ρ : Type) (Q : DKImpl σ ρ) (L : DKLaws Q) (g : NeighborList)
        (s : ℕ),
      GraphWF g → sumW g < U32LIM → 1 ≤ s → s ≤ g.length →
      (∀ v, reaches g s v → ∃ d,
        Shell.get_dist (searchShell Q)
          (sssp (searchShell Q) (SearchSt.init Q s) g) v = some d ∧
        IsShortest g s v d) ∧
      (∀ v, ¬ reaches g s v →
        Shell.get_dist (searchShell Q)
          (sssp (searchShell Q) (SearchSt.init Q s) g) v = none)) ∧
    (∀ (σ ρ : Type) (Q : DKImpl σ ρ) (L : DKLawsOwned Q) (g : NeighborList)
        (s : ℕ),
      GraphWF g → sumW g < U32LIM → 1 ≤ s → s ≤ g.length →
      (∀ v, reaches g s v → ∃ d,
        Shell.get_dist (ownedShell Q)
          (sssp (ownedShell Q) (OwnedSt.init (ρ := ρ) Q s) g) v = some d ∧
        IsShortest g s v d) ∧
      (∀ v, ¬ reaches g s v →
        Shell.get_dist (ownedShell Q)
          (sssp (ownedShell Q) (OwnedSt.init (ρ := ρ) Q s) g) v = none)) :=
  ⟨fun _ Q L g s hg hsum hs1 hs2 => nl_sssp_dist Q L hg hsum hs1 hs2,
   fun _ _ Q L g s hg hsum hs1 hs2 => search_sssp_dist Q L hg hsum hs1 hs2,
   fun _ _ Q L g s hg hsum hs1 hs2 => owned_sssp_dist Q L hg hsum hs1 hs2⟩

theorem C1_sssp_distance_correctness_witness :
    GraphWF s2graph ∧ sumW s2graph < U32LIM ∧ 1 ≤ 1 ∧ 1 ≤ s2graph.length ∧
    ((∀ v, reaches s2graph 1 v → ∃ d,
        Shell.get_dist (nlShell sortetImpl)
          (sssp (nlShell sortetImpl) (NoLookupSt.init sortetImpl 1) s2graph)
          v = some d ∧
        IsShortest s2graph 1 v d) ∧
      (∀ v, ¬ reaches s2graph 1 v →
        Shell.get_dist (nlShell sortetImpl)
          (sssp (nlShell sortetImpl) (NoLookupSt.init sortetImpl 1) s2graph)
          v = none)) ∧
    ((∀ v, reaches s2graph 1 v → ∃ d,
        Shell.get_dist (searchShell canImpl)
          (sssp (searchShell canImpl) (SearchSt.init canImpl 1) s2graph)
          v = some d ∧
        IsShortest s2graph 1 v d)) ∧
    ((∀ v, reaches s2graph 1 v → ∃ d,
        Shell.get_dist (ownedShell canImpl)
          (sssp (ownedShell canImpl) (OwnedSt.init canImpl 1) s2graph)
          v = some d ∧
        IsShortest s2graph 1 v d)) :=
  ⟨s2graph_wf, s2graph_sum, le_refl 1, by decide,
    C1_sssp_distance_correctness.1 SortetListSt sortetImpl sortetLaws
      s2graph 1 s2graph_wf s2graph_sum (by decide) (by decide),
    (C1_sssp_distance_correctness.2.1 CanQSt ℕ canImpl canLaws.toDKLaws
      s2graph 1 s2graph_wf s2graph_sum (by decide) (by decide)).1,
    (C1_sssp_distance_correctness.2.2 CanQSt ℕ canImpl canLaws
      s2graph 1 s2graph_wf s2graph_sum (by decide) (by decide)).1⟩

/-- C9: on each of the three shells over any lawful queue, the `(key,
vertex)` pairs emitted by `pop_min` during a driver run have monotonically
non-decreasing keys, and no vertex is emitted twice. -/
theorem C9_monotone_unique_emission :
    (∀ (σ : Type) (Q : PQImpl σ) (L : PQLaws Q) (g : NeighborList) (s : ℕ),
      GraphWF g → sumW g < U32LIM → 1 ≤ s → s ≤ g.length →
      List.Chain' (fun a b => a.1 ≤ b.1)
          (ssspTrace (nlShell Q) (NoLookupSt.init Q s) g) ∧
        ((ssspTrace (nlShell Q) (NoLookupSt.init Q s) g).map
          (fun kv => kv.2)).Nodup) ∧
    (∀ (σ ρ : Type) (Q : DKImpl σ ρ) (L : DKLaws Q) (g : NeighborList)
        (s : ℕ),
      GraphWF g → sumW g < U32LIM → 1 ≤ s → s ≤ g.length →
      List.Chain' (fun a b => a.1 ≤ b.1)
          (ssspTrace (searchShell Q) (SearchSt.init Q s) g) ∧
        ((ssspTrace (searchShell Q) (SearchSt.init Q s) g).map
          (fun kv => kv.2)).Nodup) ∧
    (∀ (σ ρ : Type) (Q : DKImpl σ ρ) (L : DKLawsOwned Q) (g : NeighborList)
        (s : ℕ),
      GraphWF g → sumW g < U32LIM → 1 ≤ s → s ≤ g.length →
      List.Chain' (fun a b => a.1 ≤ b.1)
          (ssspTrace (ownedShell Q) (OwnedSt.init (ρ := ρ) Q s) g) ∧
        ((ssspTrace (ownedShell Q) (OwnedSt.init (ρ := ρ) Q s) g).map
          (fun kv => kv.2)).Nodup) :=
  ⟨fun _ Q L g s hg hsum hs1 hs2 => nl_sssp_trace Q L hg hsum hs1 hs2,
   fun _ _ Q L g s hg hsum hs1 hs2 => s_sssp_trace Q L hg hsum hs1 hs2,
   fun _ _ Q L g s hg hsum hs1 hs2 => owned_sssp_trace Q L hg hsum hs1 hs2⟩

theorem C9_monotone_unique_emission_witness :
    GraphWF s2graph ∧ sumW s2graph < U32LIM ∧ 1 ≤ 1 ∧ 1 ≤ s2graph.length ∧
    (List.Chain' (fun a b => a.1 ≤ b.1)
        (ssspTrace (nlShell sortetImpl)
          (NoLookupSt.init sortetImpl 1) s2graph) ∧
      ((ssspTrace (nlShell sortetImpl)
        (NoLookupSt.init sortetImpl 1) s2graph).map
          (fun kv => kv.2)).Nodup) ∧
    (List.Chain' (fun a b => a.1 ≤ b.1)
        (ssspTrace (searchShell canImpl)
          (SearchSt.init canImpl 1) s2graph) ∧
      ((ssspTrace (searchShell canImpl)
        (SearchSt.init canImpl 1) s2graph).map
          (fun kv => kv.2)).Nodup) ∧
    (List.Chain' (fun a b => a.1 ≤ b.1)
        (ssspTrace (ownedShell canImpl)
          (OwnedSt.init canImpl 1) s2graph) ∧
      ((ssspTrace (ownedShell canImpl)
        (OwnedSt.init canImpl 1) s2graph).map
          (fun kv => kv.2)).Nodup) :=
  ⟨s2graph_wf, s2graph_sum, le_refl 1, by decide,
    C9_monotone_unique_emission.1 SortetListSt sortetImpl sortetLaws
      s2graph 1 s2graph_wf s2graph_sum (by decide) (by decide),
    C9_monotone_unique_emission.2.1 CanQSt ℕ canImpl canLaws.toDKLaws
      s2graph 1 s2graph_wf s2graph_sum (by decide) (by decide),
    C9_monotone_unique_emission.2.2 CanQSt ℕ canImpl canLaws
      s2graph 1 s2graph_wf s2graph_sum (by decide) (by decide)⟩

theorem s_get_pathF_spec {σ ρ : Type} {Q : DKImpl σ ρ} {L : DKLaws Q}
    {g : NeighborList} {s : ℕ} {st : SearchSt σ ρ} {tr : List (ℕ × ℕ)}
    {ex : ℕ → Prop} (H : SInvX Q L g s st tr ex) :
    ∀ (n x : ℕ) (h : ρ) (d p : ℕ), st.meta x = some (h, d, p) →
      x ∈ tr.map (fun kv => kv.2) → trPos tr x < n →
      ∀ (acc : Route) (fuel : ℕ), n ≤ fuel →
      ∃ l : Route, Shell.get_pathF (searchShell Q) st fuel x acc
          = some (acc ++ l) ∧
        l ≠ [] ∧ l.reverse.head? = some s ∧ l.reverse.getLast? = some x ∧
        PathCost g l.reverse d := by
  intro n
  induction n with
  | zero => intro x h d p _ _ hpos; omega
  | succ n ih =>
    intro x h d p hm hxin hpos acc fuel hfuel
    cases fuel with
    | zero => omega
    | succ fuel =>
      have hmeta2 : (searchShell Q).get_meta st x = some (d, p) := by
        show SearchSt.get_meta st x = _
        rw [SearchSt.get_meta, hm]
        rfl
      rw [Shell.get_pathF, hmeta2]
      dsimp only
      by_cases hxs : x = s
      · subst hxs
        obtain ⟨hps, hd0⟩ := H.s_prev h d p hm
        rw [if_pos hps.symm]
        refine ⟨[x], rfl, by simp, by simp, by simp, ?_⟩
        rw [hd0]
        show PathCost g [x] 0
        exact PathCost.single x
      · rcases H.meta_prev x h d p hm with ⟨hxs2, _⟩ | ⟨w, kp, hew, hkp, hsum⟩
        · exact absurd hxs2 hxs
        · have hpin : p ∈ tr.map (fun kv => kv.2) :=
            List.mem_map.mpr ⟨(kp, p), hkp, rfl⟩
          have hplt := H.prev_pos x h d p hm hxin hxs
          have hpx : x ≠ p := by
            intro hcon
            rw [← hcon] at hplt
            omega
          rw [if_neg hpx]
          obtain ⟨hp2, pp, hmp⟩ := H.settled_meta (kp, p) hkp
          have hposn : trPos tr p < n := by omega
          obtain ⟨lp, hres, hne2, hhead, hlast, hpc⟩ :=
            ih p hp2 kp pp hmp hpin hposn (acc ++ [x]) fuel (by omega)
          refine ⟨x :: lp, ?_, by simp, ?_, ?_, ?_⟩
          · rw [hres]
            simp
          · rw [List.reverse_cons]
            cases hlpr : lp.reverse with
            | nil => rw [hlpr] at hhead; simp at hhead
            | cons a t =>
              rw [hlpr] at hhead
              simp only [List.head?_cons, Option.some.injEq] at hhead
              rw [List.cons_append, List.head?_cons, hhead]
          · rw [List.reverse_cons, List.getLast?_concat]
          · rw [List.reverse_cons, ← hsum]
            exact pathCost_snoc hpc hlast hew

theorem search_sssp_path {σ ρ : Type} (Q : DKImpl σ ρ) (L : DKLaws Q)
    {g : NeighborList} {s : ℕ}
    (hg : GraphWF g) (hsum : sumW g < U32LIM)
    (hs1 : 1 ≤ s) (hs2 : s ≤ g.length) :
    ∀ v, reaches g s v →
      ∃ (l : Route) (d : ℕ),
        Shell.get_path (searchShell Q) (g.length + 1)
            (sssp (searchShell Q) (SearchSt.init Q s) g) v = some l ∧
        Shell.get_dist (searchShell Q)
            (sssp (searchShell Q) (SearchSt.init Q s) g) v = some d ∧
        l.reverse.head? = some s ∧ l.reverse.getLast? = some v ∧
        PathCost g l.reverse d := by
  obtain ⟨Hf, hpopf⟩ := s_ssspTrF_spec (L := L) hg hsum
    (g.length + 1) (SearchSt.init Q s) [] (SInv_init L hs1 hs2) (by simp)
  intro v hv
  have hvin := SInv_final_settled Hf hpopf v hv
  obtain ⟨kv, hkv, hkve⟩ := List.mem_map.mp hvin
  obtain ⟨h, p, hm⟩ := Hf.settled_meta kv hkv
  rw [hkve] at hm
  have hlen := SInv_tr_len Hf
  have hpos : trPos (ssspTrF (searchShell Q) g (g.length + 1)
      (SearchSt.init Q s) []).2 v < g.length + 1 := by
    have := trPos_lt_of_mem hvin
    omega
  obtain ⟨l, hres, hne, hhead, hlast, hpc⟩ :=
    s_get_pathF_spec Hf (g.length + 1) v h kv.1 p hm hvin hpos []
      (g.length + 1) (le_refl _)
  refine ⟨l, kv.1, ?_, ?_, hhead, hlast, hpc⟩
  · rw [Shell.get_path]
    have hss : sssp (searchShell Q) (SearchSt.init Q s) g
        = (ssspTrF (searchShell Q) g (g.length + 1)
            (SearchSt.init Q s) []).1 := rfl
    rw [hss, hres]
    simp
  · rw [s_get_dist]
    show ((ssspTrF (searchShell Q) g (g.length + 1)
        (SearchSt.init Q s) []).1.meta v).map _ = _
    rw [hm]
    rfl

theorem ownedView_get_pathF {σ ρ : Type} (Q : DKImpl σ ρ) (ow : OwnedSt σ) :
    ∀ (fuel head : ℕ) (acc : Route),
      Shell.get_pathF (searchShell (ownedToDK Q)) (ownedView Q ow)
          fuel head acc
        = Shell.get_pathF (ownedShell Q) ow fuel head acc := by
  intro fuel
  induction fuel with
  | zero => intro head acc; rfl
  | succ fuel ih =>
    intro head acc
    rw [Shell.get_pathF, Shell.get_pathF]
    have hgm : (searchShell (ownedToDK Q)).get_meta (ownedView Q ow) head
        = (ownedShell Q).get_meta ow head := ownedView_get_meta Q ow head
    rw [hgm]
    cases (ownedShell Q).get_meta ow head with
    | none => rfl
    | some dp =>
      obtain ⟨d, p⟩ := dp
      dsimp only
      by_cases hp : head = p
      · rw [if_pos hp, if_pos hp]
      · rw [if_neg hp, if_neg hp]
        exact ih p (acc ++ [head])

theorem owned_sssp_path {σ ρ : Type} (Q : DKImpl σ ρ) (L : DKLawsOwned Q)
    {g : NeighborList} {s : ℕ}
    (hg : GraphWF g) (hsum : sumW g < U32LIM)
    (hs1 : 1 ≤ s) (hs2 : s ≤ g.length) :
    ∀ v, reaches g s v →
      ∃ (l : Route) (d : ℕ),
        Shell.get_path (ownedShell Q) (g.length + 1)
            (sssp (ownedShell Q) (OwnedSt.init (ρ := ρ) Q s) g) v = some l ∧
        Shell.get_dist (ownedShell Q)
            (sssp (ownedShell Q) (OwnedSt.init (ρ := ρ) Q s) g) v = some d ∧
        l.reverse.head? = some s ∧ l.reverse.getLast? = some v ∧
        PathCost g l.reverse d := by
  have hview : sssp (searchShell (ownedToDK Q))
      (SearchSt.init (ownedToDK Q) s) g
        = ownedView Q (sssp (ownedShell Q) (OwnedSt.init (ρ := ρ) Q s) g) := by
    rw [sssp, sssp, ← ownedView_init]
    exact (ownedView_ssspTrF Q g (g.length + 1) (OwnedSt.init Q s) []).1
  intro v hv
  obtain ⟨l, d, hpath, hdist, hhead, hlast, hpc⟩ :=
    search_sssp_path (ownedToDK Q) (ownedDKLaws L) hg hsum hs1 hs2 v hv
  refine ⟨l, d, ?_, ?_, hhead, hlast, hpc⟩
  · rw [Shell.get_path] at hpath ⊢
    rw [hview] at hpath
    rw [ownedView_get_pathF] at hpath
    exact hpath
  · rw [Shell.get_dist] at hdist ⊢
    rw [hview] at hdist
    have h2 : (searchShell (ownedToDK Q)).get_meta
        (ownedView Q (sssp (ownedShell Q) (OwnedSt.init (ρ := ρ) Q s) g)) v
          = (ownedShell Q).get_meta
              (sssp (ownedShell Q) (OwnedSt.init (ρ := ρ) Q s) g) v :=
      ownedView_get_meta Q _ v
    rw [h2] at hdist
    exact hdist

theorem nl_get_pathF_spec {σ : Type} {Q : PQImpl σ} {L : PQLaws Q}
    {g : NeighborList} {s : ℕ} {st : NoLookupSt σ} {tr : List (ℕ × ℕ)}
    {ex : ℕ → Prop} (H : NLInvX Q L g s st tr ex) :
    ∀ (n x k p : ℕ), st.meta x = some (some k, p) →
      x ∈ tr.map (fun kv => kv.2) → trPos tr x < n →
      ∀ (acc : Route) (fuel : ℕ), n ≤ fuel →
      ∃ (l : Route) (c : ℕ),
        Shell.get_pathF (nlShell Q) st fuel x acc = some (acc ++ l) ∧
        l ≠ [] ∧ l.reverse.head? = some s ∧ l.reverse.getLast? = some x ∧
        PathCost g l.reverse c := by
  intro n
  induction n with
  | zero => intro x k p _ _ hpos; omega
  | succ n ih =>
    intro x k p hm hxin hpos acc fuel hfuel
    cases fuel with
    | zero => omega
    | succ fuel =>
      have hmeta2 : (nlShell Q).get_meta st x = some (k, p) := by
        show NoLookupSt.get_meta st x = _
        rw [NoLookupSt.get_meta, hm]
      rw [Shell.get_pathF, hmeta2]
      dsimp only
      by_cases hxs : x = s
      · subst hxs
        rcases H.s_state with ⟨ks, ps, hms, hps⟩ | ⟨htr, _, _⟩
        · have hpeq : p = ps := by
            rw [hm] at hms
            simp only [Option.some.injEq, Prod.mk.injEq] at hms
            exact hms.2
          rw [if_pos (by rw [hpeq, hps])]
          exact ⟨[x], 0, rfl, by simp, by simp, by simp, PathCost.single x⟩
        · rw [htr] at hxin
          simp at hxin
      · rcases H.meta_prev x (some k) p hm with ⟨hxs2, _⟩ |
            ⟨w, kp, hew, hkp⟩
        · exact absurd hxs2 hxs
        · have hkpin : (kp, p) ∈ tr := H.settled_tr p kp hkp
          have hpin : p ∈ tr.map (fun kv => kv.2) :=
            List.mem_map.mpr ⟨(kp, p), hkpin, rfl⟩
          have hplt := (H.prev_pos x k p hm hxs).1
          have hpx : x ≠ p := by
            intro hcon
            rw [← hcon] at hplt
            omega
          rw [if_neg hpx]
          obtain ⟨pp, hmp⟩ := meta_of_settledK hkp
          have hposn : trPos tr p < n := by
            have hxlt := (H.prev_pos x k p hm hxs).2
            omega
          obtain ⟨lp, cp, hres, hne2, hhead, hlast, hpc⟩ :=
            ih p kp pp hmp hpin hposn (acc ++ [x]) fuel (by omega)
          refine ⟨x :: lp, cp + w, ?_, by simp, ?_, ?_, ?_⟩
          · rw [hres]
            simp
          · rw [List.reverse_cons]
            cases hlpr : lp.reverse with
            | nil => rw [hlpr] at hhead; simp at hhead
            | cons a t =>
              rw [hlpr] at hhead
              simp only [List.head?_cons, Option.some.injEq] at hhead
              rw [List.cons_append, List.head?_cons, hhead]
          · rw [List.reverse_cons, List.getLast?_concat]
          · rw [List.reverse_cons]
            exact pathCost_snoc hpc hlast hew

theorem nl_sssp_path {σ : Type} (Q : PQImpl σ) (L : PQLaws Q)
    {g : NeighborList} {s : ℕ}
    (hg : GraphWF g) (hsum : sumW g < U32LIM)
    (hs1 : 1 ≤ s) (hs2 : s ≤ g.length) :
    ∀ v, reaches g s v →
      ∃ (l : Route) (c : ℕ),
        Shell.get_path (nlShell Q) (g.length + 1)
            (sssp (nlShell Q) (NoLookupSt.init Q s) g) v = some l ∧
        l.reverse.head? = some s ∧ l.reverse.getLast? = some v ∧
        PathCost g l.reverse c := by
  obtain ⟨Hf, hpopf⟩ := nl_ssspTrF_spec (L := L) hg hsum hs1 hs2
    (g.length + 1) (NoLookupSt.init Q s) [] (NLInv_init L hs1 hs2) (by simp)
  intro v hv
  obtain ⟨k, hk⟩ := NLInv_final_settled Hf hpopf v hv
  obtain ⟨p, hm⟩ := meta_of_settledK hk
  have hvin : v ∈ (ssspTrF (nlShell Q) g (g.length + 1)
      (NoLookupSt.init Q s) []).2.map (fun kv => kv.2) :=
    List.mem_map.mpr ⟨(k, v), Hf.settled_tr v k hk, rfl⟩
  have hlen := NLInv_tr_len Hf
  have hpos : trPos (ssspTrF (nlShell Q) g (g.length + 1)
      (NoLookupSt.init Q s) []).2 v < g.length + 1 := by
    have := trPos_lt_of_mem hvin
    omega
  obtain ⟨l, c, hres, hne, hhead, hlast, hpc⟩ :=
    nl_get_pathF_spec Hf (g.length + 1) v k p hm hvin hpos []
      (g.length + 1) (le_refl _)
  refine ⟨l, c, ?_, hhead, hlast, hpc⟩
  rw [Shell.get_path]
  have hss : sssp (nlShell Q) (NoLookupSt.init Q s) g
      = (ssspTrF (nlShell Q) g (g.length + 1)
          (NoLookupSt.init Q s) []).1 := rfl
  rw [hss, hres]
  simp

/-- C2 (amended): over any lawful queue, after `sssp` from a valid source on
a well-formed graph of u32-bounded total weight, the `Search` and
`OwnedLookup` shells reconstruct, for every reachable vertex `v`, a route
`[v, …, s]` whose reversal is an edge path from `s` to `v` of total weight
`get_dist(v)`; the `NoLookup` shell reconstructs a route whose reversal is
an edge path from `s` to `v`, but its weight need not equal `get_dist(v)`
(the original claim fails for `NoLookup`: see the counterexample). -/
theorem C2_path_reconstruction :
    (∀ (σ ρ : Type) (Q : DKImpl σ ρ) (L : DKLaws Q) (g : NeighborList)
        (s : ℕ),
      GraphWF g → sumW g < U32LIM → 1 ≤ s → s ≤ g.length →
      ∀ v, reaches g s v →
        ∃ (l : Route) (d : ℕ),
          Shell.get_path (searchShell Q) (g.length + 1)
              (sssp (searchShell Q) (SearchSt.init Q s) g) v = some l ∧
          Shell.get_dist (searchShell Q)
              (sssp (searchShell Q) (SearchSt.init Q s) g) v = some d ∧
          l.reverse.head? = some s ∧ l.reverse.getLast? = some v ∧
          PathCost g l.reverse d) ∧
    (∀ (σ ρ : Type) (Q : DKImpl σ ρ) (L : DKLawsOwned Q) (g : NeighborList)
        (s : ℕ),
      GraphWF g → sumW g < U32LIM → 1 ≤ s → s ≤ g.length →
      ∀ v, reaches g s v →
        ∃ (l : Route) (d : ℕ),
          Shell.get_path (ownedShell Q) (g.length + 1)
              (sssp (ownedShell Q) (OwnedSt.init (ρ := ρ) Q s) g) v
            = some l ∧
          Shell.get_dist (ownedShell Q)
              (sssp (ownedShell Q) (OwnedSt.init (ρ := ρ) Q s) g) v
            = some d ∧
          l.reverse.head? = some s ∧ l.reverse.getLast? = some v ∧
          PathCost g l.reverse d) ∧
    (∀ (σ : Type) (Q : PQImpl σ) (L : PQLaws Q) (g : NeighborList) (s : ℕ),
      GraphWF g → sumW g < U32LIM → 1 ≤ s → s ≤ g.length →
      ∀ v, reaches g s v →
        ∃ (l : Route) (c : ℕ),
          Shell.get_path (nlShell Q) (g.length + 1)
              (sssp (nlShell Q) (NoLookupSt.init Q s) g) v = some l ∧
          l.reverse.head? = some s ∧ l.reverse.getLast? = some v ∧
          PathCost g l.reverse c) :=
  ⟨fun _ _ Q L g s hg hsum hs1 hs2 => search_sssp_path Q L hg hsum hs1 hs2,
   fun _ _ Q L g s hg hsum hs1 hs2 => owned_sssp_path Q L hg hsum hs1 hs2,
   fun _ Q L g s hg hsum hs1 hs2 => nl_sssp_path Q L hg hsum hs1 hs2⟩

theorem C2_path_reconstruction_witness :
    GraphWF s2graph ∧ sumW s2graph < U32LIM ∧ 1 ≤ 1 ∧ 1 ≤ s2graph.length ∧
    (∀ v, reaches s2graph 1 v →
      ∃ (l : Route) (d : ℕ),
        Shell.get_path (searchShell canImpl) (s2graph.length + 1)
            (sssp (searchShell canImpl) (SearchSt.init canImpl 1) s2graph) v
          = some l ∧
        Shell.get_dist (searchShell canImpl)
            (sssp (searchShell canImpl) (SearchSt.init canImpl 1) s2graph) v
          = some d ∧
        l.reverse.head? = some 1 ∧ l.reverse.getLast? = some v ∧
        PathCost s2graph l.reverse d) ∧
    (∀ v, reaches s2graph 1 v →
      ∃ (l : Route) (c : ℕ),
        Shell.get_path (nlShell sortetImpl) (s2graph.length + 1)
            (sssp (nlShell sortetImpl)
              (NoLookupSt.init sortetImpl 1) s2graph) v = some l ∧
        l.reverse.head? = some 1 ∧ l.reverse.getLast? = some v ∧
        PathCost s2graph l.reverse c) :=
  ⟨s2graph_wf, s2graph_sum, le_refl 1, by decide,
    C2_path_reconstruction.1 CanQSt ℕ canImpl canLaws.toDKLaws s2graph 1
      s2graph_wf s2graph_sum (by decide) (by decide),
    C2_path_reconstruction.2.2 SortetListSt sortetImpl sortetLaws s2graph 1
      s2graph_wf s2graph_sum (by decide) (by decide)⟩

/-- C4 (amended): `Search::pop_min` forwards to `queue.pop` and leaves the
meta table — including the popped vertex's handle — untouched: no
"invalidated sentinel" is ever written.  The intended consequence
nevertheless holds: during a driver run, an `explore` from the vertex just
settled that reaches an already-settled vertex is a no-op on the whole
shell state (the `alt < dist` test fails), so no `decrease_key` reaches the
queue. -/
theorem C4_pop_min_meta_untouched :
    (∀ (σ ρ : Type) (Q : DKImpl σ ρ) (st : SearchSt σ ρ) (k v : ℕ)
        (st2 : SearchSt σ ρ),
      SearchSt.pop_min Q st = some ((k, v), st2) → st2.meta = st.meta) ∧
    (∀ (σ ρ : Type) (Q : DKImpl σ ρ) (L : DKLaws Q) (g : NeighborList)
        (s : ℕ) (st : SearchSt σ ρ) (tr : List (ℕ × ℕ)) (v k : ℕ)
        (e : Neighbor),
      GraphWF g → sumW g < U32LIM →
      SInvX Q L g s st tr (fun u => u = v) → (k, v) ∈ tr → lastKey tr = k →
      e ∈ get_neighbors g v → e.dst ∈ tr.map (fun kv => kv.2) →
      SearchSt.explore Q st v k e = st) := by
  constructor
  · intro σ ρ Q st k v st2 hpop
    rw [SearchSt.pop_min] at hpop
    cases hq : Q.pop st.queue with
    | none => rw [hq] at hpop; simp at hpop
    | some res =>
      rw [hq] at hpop
      dsimp only [Option.map] at hpop
      simp only [Option.some.injEq, Prod.mk.injEq] at hpop
      rw [← hpop.2]
  · intro σ ρ Q L g s st tr v k e hg hsum H hvin hlk he hein
    have he' : edgeW g v e.dst e.weight := he
    have hvshort : IsShortest g s v k := H.settled_shortest (k, v) hvin
    have hsmeta : st.meta s ≠ none := by
      rcases H.s_state with hins | ⟨_, hm, _⟩
      · obtain ⟨kvs, hkvs, hkvse⟩ := List.mem_map.mp hins
        obtain ⟨hh, pp, hmm⟩ := H.settled_meta kvs hkvs
        rw [hkvse] at hmm
        rw [hmm]
        simp
      · rw [hm, mupd]
        simp
    have hsval := H.meta_valid s hsmeta
    have hbound : k + e.weight ≤ sumW g :=
      shortest_edge_le_sumW hg hsval.1 hsval.2 hvshort he'
    have halt : add32 k e.weight = k + e.weight := by
      rw [add32]
      exact Nat.mod_eq_of_lt (lt_of_le_of_lt hbound hsum)
    obtain ⟨kvd, hkvd, hkvde⟩ := List.mem_map.mp hein
    obtain ⟨hh, pp, hmm⟩ := H.settled_meta kvd hkvd
    rw [hkvde] at hmm
    have hkle : kvd.1 ≤ lastKey tr := lastKey_le_of_chain H.tr_chain kvd hkvd
    rw [hlk] at hkle
    rw [SearchSt.explore, hmm]
    dsimp only
    rw [if_neg (by rw [halt]; omega)]

theorem C4_pop_min_meta_untouched_witness :
    (SearchSt.pop_min phImpl c4state).map (fun x => x.2.meta 2)
      = some (c4state.meta 2) := by
  have hs : (SearchSt.pop_min phImpl c4state).isSome = true := by decide
  cases hpop : SearchSt.pop_min phImpl c4state with
  | none => rw [hpop] at hs; simp at hs
  | some res =>
    obtain ⟨⟨k, v⟩, st2⟩ := res
    have hmeta := C4_pop_min_meta_untouched.1 PH ℕ phImpl c4state k v st2
      hpop
    dsimp only [Option.map]
    rw [hmeta]

/-- The S5 push/decrease/push sequence on the addressable binary heap,
started from the empty heap. -/
def dhS5 : DHeap :=
  let e : DHeap := { inner := [], lookup := fun _ => none }
  let p1 := DHeap.push 2 10 7 e
  (DHeap.push 2 4 8 (DHeap.decrease_key 2 p1.1 2 p1.2)).2

/-- C8: the decrease-key law.  Abstractly, over any queue satisfying the
`DecreaseKey` laws: (i) `push(k, v)` on a state holding no item of `v`
followed by `decrease_key` on the returned handle with `k2 ≤ k` leaves the
items with `(k2, v)` replacing `(k, v)`; (ii) from any state whose unique
item of `v` has key `k2`, a pop returning `v` returns it with key `k2`.
Concretely, the S5 sequence push(10,7) → h, decrease_key(h,2), push(4,8)
yields pops (2,7) then (4,8), both on the pairing heap and on the
addressable binary heap. -/
theorem C8_decrease_key_law :
    (∀ (σ ρ : Type) (Q : DKImpl σ ρ) (L : DKLaws Q) (q : σ) (k v k2 : ℕ),
      L.Inv q →
      Multiset.card
        (Multiset.filter (fun kv => kv.2 = v) (L.mdl q)) = 0 →
      k2 ≤ k →
      L.mdl (Q.decrease_key (Q.push k v q).1 k2 (Q.push k v q).2)
          = (k2, v) ::ₘ L.mdl q ∧
        L.Inv (Q.decrease_key (Q.push k v q).1 k2 (Q.push k v q).2)) ∧
    (∀ (σ ρ : Type) (Q : DKImpl σ ρ) (L : DKLaws Q) (q3 : σ)
        (k2 v kk x : ℕ) (q4 : σ),
      L.Inv q3 → (k2, v) ∈ L.mdl q3 →
      (∀ kk2, (kk2, v) ∈ L.mdl q3 → kk2 = k2) →
      Q.pop q3 = some ((kk, x), q4) → x = v → kk = k2) ∧
    ((PH.pop s5heap).map (fun x => x.1) = some (2, 7) ∧
      ((PH.pop s5heap).bind (fun x => PH.pop x.2)).map (fun x => x.1)
        = some (4, 8)) ∧
    ((DHeap.pop 2 dhS5).map (fun x => x.1) = some (2, 7) ∧
      ((DHeap.pop 2 dhS5).bind (fun x => DHeap.pop 2 x.2)).map
          (fun x => x.1) = some (4, 8)) := by
  refine ⟨?_, ?_, by exact ⟨by decide, by decide⟩, by exact ⟨by decide, by decide⟩⟩
  · intro σ ρ Q L q k v k2 hinv hcard hle
    have hpinv := L.push_inv k v q hinv
    have hpmdl := L.push_mdl k v q hinv
    have hpref := L.push_ref k v q hinv
    have hcard2 : Multiset.card (Multiset.filter (fun kv => kv.2 = v)
        (L.mdl (Q.push k v q).2)) ≤ 1 := by
      rw [hpmdl, filter_card_cons_eq2, hcard]
    have hmem : (k, v) ∈ L.mdl (Q.push k v q).2 := by
      rw [hpmdl]
      exact Multiset.mem_cons_self _ _
    obtain ⟨hdk, hdinv, _, _⟩ := L.dk_mdl (Q.push k v q).2 (Q.push k v q).1
      v k k2 hpinv hpref hmem hcard2 hle
    refine ⟨?_, hdinv⟩
    rw [hdk, hpmdl, Multiset.erase_cons_head]
  · intro σ ρ Q L q3 k2 v kk x q4 hinv hmem huniq hpop hx
    obtain ⟨hmem2, _, _, _, _⟩ := L.pop_some q3 kk x q4 hinv hpop
    rw [hx] at hmem2
    exact huniq kk hmem2

theorem C8_decrease_key_law_witness :
    Multiset.card (Multiset.filter (fun kv => kv.2 = 7)
        (canLaws.mdl ([] : CanQSt))) = 0 ∧ (2 : ℕ) ≤ 10 ∧
    canLaws.mdl (canImpl.decrease_key (canImpl.push 10 7 []).1 2
        (canImpl.push 10 7 []).2) = (2, 7) ::ₘ canLaws.mdl ([] : CanQSt) :=
  ⟨by decide, by omega,
    (C8_decrease_key_law.1 CanQSt ℕ canImpl canLaws.toDKLaws [] 10 7 2
      trivial (by decide) (by omega)).1⟩

/-- C10: every vertex-to-slot conversion (`From<Vertex> for usize`, hence
`NeighborList::get_neighbors` and `CostMatrix::get`) computes `v - 1`;
on the sentinel `UNDEFINED = Vertex(0)` the usize subtraction underflows and
the operation panics (modelled `none`) instead of returning a normal result;
for `v ≥ 1` the slot is `v - 1`. -/
theorem C10_slot_conversion :
    usizeFromVertex 0 = none ∧
    (∀ v, 1 ≤ v → usizeFromVertex v = some (v - 1)) ∧
    (∀ g : NeighborList, get_neighborsP g 0 = none) ∧
    (∀ (g : NeighborList) (u : ℕ), 1 ≤ u → u - 1 < g.length →
      get_neighborsP g u = some (get_neighbors g u)) ∧
    (∀ size target : ℕ, costMatrixOffset size 0 target = none) ∧
    (∀ size source : ℕ, costMatrixOffset size source 0 = none) ∧
    (∀ size source target : ℕ, 1 ≤ source → 1 ≤ target →
      costMatrixOffset size source target
        = some ((target - 1) * 4 + (source - 1) * size * 4)) := by
  refine ⟨rfl, ?_, ?_, ?_, ?_, ?_, ?_⟩
  · intro v hv
    rw [usizeFromVertex, if_neg (by omega)]
  · intro g
    rfl
  · intro g u hu hlt
    rw [get_neighborsP, usizeFromVertex, if_neg (by omega)]
    dsimp only
    rw [get_neighbors]
    rw [List.getD_eq_getElem _ _ hlt]
    rw [List.get?_eq_getElem?, List.getElem?_eq_getElem hlt]
  · intro size target
    rfl
  · intro size source
    rw [costMatrixOffset]
    rw [show usizeFromVertex 0 = none from rfl]
    cases usizeFromVertex source <;> rfl
  · intro size source target hs ht
    rw [costMatrixOffset, usizeFromVertex, usizeFromVertex,
      if_neg (by omega), if_neg (by omega)]

theorem C10_slot_conversion_witness :
    (1 : ℕ) ≤ 3 ∧ usizeFromVertex 3 = some 2 ∧
    (1 : ℕ) ≤ 1 ∧ (1 : ℕ) - 1 < s2graph.length ∧
    get_neighborsP s2graph 1 = some (get_neighbors s2graph 1) :=
  ⟨by omega, C10_slot_conversion.2.1 3 (by omega), by omega, by decide,
    C10_slot_conversion.2.2.2.1 s2graph 1 (by omega) (by decide)⟩

theorem writeBytes_outside : ∀ (bs : List ℕ) (f : ℕ → ℕ) (off idx : ℕ),
    (idx < off ∨ off + bs.length ≤ idx) → writeBytes f off bs idx = f idx := by
  intro bs
  induction bs with
  | nil => intro f off idx _; rfl
  | cons b bs ih =>
    intro f off idx hout
    rw [writeBytes]
    rw [ih _ (off + 1) idx (by simp at hout; omega)]
    rw [if_neg (by simp at hout; omega)]

theorem writeBytes_append : ∀ (bs1 bs2 : List ℕ) (f : ℕ → ℕ) (off : ℕ),
    writeBytes f off (bs1 ++ bs2)
      = writeBytes (writeBytes f off bs1) (off + bs1.length) bs2 := by
  intro bs1
  induction bs1 with
  | nil => intro bs2 f off; simp [writeBytes]
  | cons b bs1 ih =>
    intro bs2 f off
    rw [List.cons_append, writeBytes, writeBytes, ih]
    have harr : off + 1 + bs1.length = off + (bs1.length + 1) := by omega
    rw [harr]
    rfl

theorem write4_read (f : ℕ → ℕ) (off b0 b1 b2 b3 : ℕ) :
    writeBytes f off [b0, b1, b2, b3] off = b0 ∧
    writeBytes f off [b0, b1, b2, b3] (off + 1) = b1 ∧
    writeBytes f off [b0, b1, b2, b3] (off + 2) = b2 ∧
    writeBytes f off [b0, b1, b2, b3] (off + 3) = b3 := by
  refine ⟨?_, ?_, ?_, ?_⟩ <;>
    · simp only [writeBytes]
      split_ifs <;> omega

theorem leToU32_u32ToLe (x : ℕ) (hx : x < U32LIM) :
    leToU32 (x % 256) (x / 256 % 256) (x / 65536 % 256)
      (x / 16777216 % 256) = x := by
  rw [leToU32, U32LIM] at *
  omega

theorem writeFlat_read : ∀ (r : List ℕ) (f : ℕ → ℕ) (off i : ℕ),
    i < r.length → (∀ x ∈ r, x < U32LIM) →
    leToU32 (writeBytes f off (r.flatMap u32ToLe) (off + 4 * i))
        (writeBytes f off (r.flatMap u32ToLe) (off + 4 * i + 1))
        (writeBytes f off (r.flatMap u32ToLe) (off + 4 * i + 2))
        (writeBytes f off (r.flatMap u32ToLe) (off + 4 * i + 3))
      = r.getD i 0 := by
  intro r
  induction r with
  | nil => intro f off i hi; simp at hi
  | cons x r ih =>
    intro f off i hi hbound
    have hflat : (x :: r).flatMap u32ToLe = u32ToLe x ++ r.flatMap u32ToLe :=
      rfl
    rw [hflat, writeBytes_append]
    have hlen4 : (u32ToLe x).length = 4 := rfl
    rw [hlen4]
    cases i with
    | zero =>
      have h4 := write4_read f off (x % 256) (x / 256 % 256) (x / 65536 % 256)
        (x / 16777216 % 256)
      simp only [Nat.mul_zero, Nat.add_zero]
      have hout0 : writeBytes (writeBytes f off (u32ToLe x)) (off + 4)
          (r.flatMap u32ToLe) off = writeBytes f off (u32ToLe x) off :=
        writeBytes_outside _ _ _ _ (Or.inl (by omega))
      have hout1 : writeBytes (writeBytes f off (u32ToLe x)) (off + 4)
          (r.flatMap u32ToLe) (off + 1) = writeBytes f off (u32ToLe x)
            (off + 1) :=
        writeBytes_outside _ _ _ _ (Or.inl (by omega))
      have hout2 : writeBytes (writeBytes f off (u32ToLe x)) (off + 4)
          (r.flatMap u32ToLe) (off + 2) = writeBytes f off (u32ToLe x)
            (off + 2) :=
        writeBytes_outside _ _ _ _ (Or.inl (by omega))
      have hout3 : writeBytes (writeBytes f off (u32ToLe x)) (off + 4)
          (r.flatMap u32ToLe) (off + 3) = writeBytes f off (u32ToLe x)
            (off + 3) :=
        writeBytes_outside _ _ _ _ (Or.inl (by omega))
      rw [hout0, hout1, hout2, hout3]
      rw [show (u32ToLe x) = [x % 256, x / 256 % 256, x / 65536 % 256,
        x / 16777216 % 256] from rfl]
      rw [h4.1, h4.2.1, h4.2.2.1, h4.2.2.2]
      rw [leToU32_u32ToLe x (hbound x (by simp))]
      rfl
    | succ i =>
      have e0 : off + 4 * (i + 1) = (off + 4) + 4 * i := by omega
      rw [e0]
      rw [ih (writeBytes f off (u32ToLe x)) (off + 4) i
        (by simp at hi; omega) (fun y hy => hbound y (by simp [hy]))]
      rfl

theorem mapM_opt_spec {α : Type} (f : ℕ → Option α) :
    ∀ (l : List ℕ) (r : List α), l.mapM f = some r →
      r.length = l.length ∧ ∀ i, i < l.length → r.get? i = f (l.getD i 0) := by
  intro l
  induction l with
  | nil =>
    intro r h
    rw [List.mapM_nil] at h
    simp only [pure, Option.some.injEq] at h
    subst h
    exact ⟨rfl, by intro i hi; simp at hi⟩
  | cons a l ih =>
    intro r h
    rw [List.mapM_cons] at h
    cases hfa : f a with
    | none => rw [hfa] at h; simp at h
    | some x =>
      rw [hfa] at h
      cases hml : l.mapM f with
      | none => rw [hml] at h; simp at h
      | some xs =>
        rw [hml] at h
        simp only [Option.bind_eq_bind, Option.some_bind, Option.pure_def,
          Option.some.injEq] at h
        subst h
        obtain ⟨hlen, hpt⟩ := ih xs hml
        constructor
        · simp [hlen]
        · intro i hi
          cases i with
          | zero =>
            rw [show (a :: l).getD 0 0 = a from rfl, hfa]
            rfl
          | succ i =>
            rw [List.get?_cons_succ]
            rw [hpt i (by simp at hi; omega)]
            rfl

theorem search_get_dist_lt {σ ρ : Type} (Q : DKImpl σ ρ) (L : DKLaws Q)
    {g : NeighborList} {s : ℕ}
    (hg : GraphWF g) (hsum : sumW g < U32LIM)
    (hs1 : 1 ≤ s) (hs2 : s ≤ g.length) :
    ∀ v d, Shell.get_dist (searchShell Q)
        (sssp (searchShell Q) (SearchSt.init Q s) g) v = some d →
      d < U32LIM := by
  obtain ⟨Hf, hpopf⟩ := s_ssspTrF_spec (L := L) hg hsum
    (g.length + 1) (SearchSt.init Q s) [] (SInv_init L hs1 hs2) (by simp)
  have hmdl0 : L.mdl (ssspTrF (searchShell Q) g (g.length + 1)
      (SearchSt.init Q s) []).1.queue = 0 := by
    rw [SearchSt.pop_min] at hpopf
    cases hq : Q.pop (ssspTrF (searchShell Q) g (g.length + 1)
        (SearchSt.init Q s) []).1.queue with
    | none => exact (L.pop_none _ Hf.qinv).mp hq
    | some res =>
      rw [hq] at hpopf
      simp at hpopf
  intro v d hd
  rw [s_get_dist] at hd
  cases hm : (ssspTrF (searchShell Q) g (g.length + 1)
      (SearchSt.init Q s) []).1.meta v with
  | none =>
    rw [show ((sssp (searchShell Q) (SearchSt.init Q s) g).meta v)
        = (ssspTrF (searchShell Q) g (g.length + 1)
            (SearchSt.init Q s) []).1.meta v from rfl, hm] at hd
    simp at hd
  | some hdp =>
    obtain ⟨h, d2, p⟩ := hdp
    rw [show ((sssp (searchShell Q) (SearchSt.init Q s) g).meta v)
        = (ssspTrF (searchShell Q) g (g.length + 1)
            (SearchSt.init Q s) []).1.meta v from rfl, hm] at hd
    simp only [Option.map_eq_some'] at hd
    have hd2 : d2 = d := by
      obtain ⟨y, hy1, hy2⟩ := hd
      simp only [Option.some.injEq] at hy1
      rw [← hy1] at hy2
      exact hy2
    subst hd2
    by_cases hvin : v ∈ (ssspTrF (searchShell Q) g (g.length + 1)
        (SearchSt.init Q s) []).2.map (fun kv => kv.2)
    · obtain ⟨kv, hkv, hkve⟩ := List.mem_map.mp hvin
      obtain ⟨h2, p2, hm2⟩ := Hf.settled_meta kv hkv
      rw [hkve, hm] at hm2
      simp only [Option.some.injEq, Prod.mk.injEq] at hm2
      have hshort := Hf.settled_shortest kv hkv
      rw [hkve] at hshort
      have hdk : kv.1 = d2 := hm2.2.1.symm
      rw [hdk] at hshort
      have := shortest_le_sumW hg hs1 hs2 hshort
      omega
    · obtain ⟨hitem, _⟩ := Hf.tent_item v h d2 p hm hvin
      rw [hmdl0] at hitem
      simp at hitem

theorem owned_get_dist_lt {σ ρ : Type} (Q : DKImpl σ ρ) (L : DKLawsOwned Q)
    {g : NeighborList} {s : ℕ}
    (hg : GraphWF g) (hsum : sumW g < U32LIM)
    (hs1 : 1 ≤ s) (hs2 : s ≤ g.length) :
    ∀ v d, Shell.get_dist (ownedShell Q)
        (sssp (ownedShell Q) (OwnedSt.init (ρ := ρ) Q s) g) v = some d →
      d < U32LIM := by
  have hview : sssp (searchShell (ownedToDK Q))
      (SearchSt.init (ownedToDK Q) s) g
        = ownedView Q (sssp (ownedShell Q) (OwnedSt.init (ρ := ρ) Q s) g) := by
    rw [sssp, sssp, ← ownedView_init]
    exact (ownedView_ssspTrF Q g (g.length + 1) (OwnedSt.init Q s) []).1
  intro v d hd
  apply search_get_dist_lt (ownedToDK Q) (ownedDKLaws L) hg hsum hs1 hs2 v d
  rw [Shell.get_dist, hview]
  have h2 : (searchShell (ownedToDK Q)).get_meta
      (ownedView Q (sssp (ownedShell Q) (OwnedSt.init (ρ := ρ) Q s) g)) v
        = (ownedShell Q).get_meta
            (sssp (ownedShell Q) (OwnedSt.init (ρ := ρ) Q s) g) v :=
    ownedView_get_meta Q _ v
  rw [h2]
  rw [Shell.get_dist] at hd
  exact hd

theorem range_getD (n i : ℕ) (h : i < n) : (List.range n).getD i 0 = i := by
  rw [List.getD_eq_getElem _ _ (by simpa using h)]
  simp

theorem apspRecord_spec {σ ρ : Type} (Q : DKImpl σ ρ) (g : NeighborList)
    (size row : ℕ) (rec : List ℕ)
    (h : apspRecord Q g size row = some rec) :
    rec.length = size ∧ ∀ i, i < size →
      rec.get? i = (ownedShell Q).get_dist
        (sssp (ownedShell Q) (OwnedSt.init Q (row + 1)) g) (i + 1) := by
  rw [apspRecord] at h
  obtain ⟨hlen, hpt⟩ := mapM_opt_spec _ _ _ h
  constructor
  · rw [hlen, List.length_range]
  · intro i hi
    have := hpt i (by rw [List.length_range]; exact hi)
    rw [this, range_getD size i hi]

theorem flat_len : ∀ r : List ℕ, (r.flatMap u32ToLe).length = 4 * r.length := by
  intro r
  induction r with
  | nil => rfl
  | cons x r ih =>
    have : (x :: r).flatMap u32ToLe = u32ToLe x ++ r.flatMap u32ToLe := rfl
    rw [this, List.length_append, ih]
    simp [u32ToLe]
    omega

theorem apspFold_outside {σ ρ : Type} (Q : DKImpl σ ρ) (g : NeighborList)
    (size : ℕ) :
    ∀ (rows : List ℕ) (f0 f : ℕ → ℕ),
      rows.foldlM (fun f row => apspWriteRow Q g size f row) f0 = some f →
      ∀ idx, (∀ r2 ∈ rows,
          ¬ (r2 * size * 4 ≤ idx ∧ idx < r2 * size * 4 + size * 4)) →
        f idx = f0 idx := by
  intro rows
  induction rows with
  | nil =>
    intro f0 f h idx _
    rw [List.foldlM_nil] at h
    simp only [pure, Option.some.injEq] at h
    rw [h]
  | cons r0 rows ih =>
    intro f0 f h idx hout
    rw [List.foldlM_cons] at h
    cases hw : apspWriteRow Q g size f0 r0 with
    | none => rw [hw] at h; simp at h
    | some f1 =>
      rw [hw] at h
      simp only [Option.bind_eq_bind, Option.some_bind] at h
      have step := ih f1 f h idx
        (fun r2 hr2 => hout r2 (List.mem_cons_of_mem _ hr2))
      rw [step]
      rw [apspWriteRow] at hw
      cases hrec : apspRecord Q g size r0 with
      | none => rw [hrec] at hw; simp at hw
      | some rec =>
        rw [hrec] at hw
        simp only [Option.map_eq_some'] at hw
        obtain ⟨rec2, hrec2, hf1⟩ := hw
        have hr2 : rec2 = rec := by
          simp only [Option.some.injEq] at hrec2
          exact hrec2.symm
        subst hr2
        rw [← hf1]
        have hlen := (apspRecord_spec Q g size r0 rec2 hrec).1
        apply writeBytes_outside
        rw [flat_len, hlen]
        have := hout r0 (by simp)
        omega

theorem apspFold_row {σ ρ : Type} (Q : DKImpl σ ρ) (g : NeighborList)
    (size : ℕ) :
    ∀ (rows : List ℕ),
      (∀ row ∈ rows, ∀ rec i d, apspRecord Q g size row = some rec →
        rec.get? i = some d → d < U32LIM) →
      ∀ (f0 f : ℕ → ℕ),
      rows.foldlM (fun f row => apspWriteRow Q g size f row) f0 = some f →
      (rows.map id).Nodup →
      ∀ r ∈ rows, ∃ rec, apspRecord Q g size r = some rec ∧
        readRowU32 f size r = rec := by
  intro rows
  induction rows with
  | nil => intro _ f0 f _ _ r hr; simp at hr
  | cons r0 rows ih =>
    intro hU f0 f h hnd r hr
    rw [List.foldlM_cons] at h
    cases hw : apspWriteRow Q g size f0 r0 with
    | none => rw [hw] at h; simp at h
    | some f1 =>
      rw [hw] at h
      simp only [Option.bind_eq_bind, Option.some_bind] at h
      simp only [List.map_id, List.nodup_cons] at hnd
      rcases List.mem_cons.mp hr with hr0 | hrmem
      · subst hr0
        rw [apspWriteRow] at hw
        cases hrec : apspRecord Q g size r with
        | none => rw [hrec] at hw; simp at hw
        | some rec =>
          rw [hrec] at hw
          simp only [Option.map_eq_some'] at hw
          obtain ⟨rec2, hrec2, hf1⟩ := hw
          have hre : rec2 = rec := by
            simp only [Option.some.injEq] at hrec2
            exact hrec2.symm
          subst hre
          obtain ⟨hlen, _⟩ := apspRecord_spec Q g size r rec2 hrec
          have hbound : ∀ x ∈ rec2, x < U32LIM := by
            intro x hx
            obtain ⟨i, hi⟩ := List.mem_iff_get?.mp hx
            exact hU r hr rec2 i x hrec hi
          refine ⟨rec2, rfl, ?_⟩
          have hsz : 0 < size ∨ size = 0 := by omega
          have hfix : ∀ i, i < size →
              (∀ j, j < 4 → f (r * size * 4 + 4 * i + j)
                = f1 (r * size * 4 + 4 * i + j)) := by
            intro i hi j hj
            apply apspFold_outside Q g size rows f1 f h
            intro r2 hr2 hcon
            have hne : r2 ≠ r := by
              intro hcc
              rw [hcc] at hr2
              exact hnd.1 hr2
            obtain ⟨hc1, hc2⟩ := hcon
            rcases Nat.lt_or_ge r2 r with hlt | hge
            · have : r2 * size * 4 + size * 4 ≤ r * size * 4 := by
                have : (r2 + 1) * size * 4 ≤ r * size * 4 :=
                  Nat.mul_le_mul_right 4 (Nat.mul_le_mul_right size
                    (by omega))
                calc r2 * size * 4 + size * 4
                    = (r2 + 1) * size * 4 := by ring
                  _ ≤ r * size * 4 := this
              omega
            · have hgt : r < r2 := by omega
              have : (r + 1) * size * 4 ≤ r2 * size * 4 :=
                Nat.mul_le_mul_right 4 (Nat.mul_le_mul_right size (by omega))
              have h2 : r * size * 4 + size * 4 ≤ r2 * size * 4 := by
                calc r * size * 4 + size * 4 = (r + 1) * size * 4 := by ring
                  _ ≤ r2 * size * 4 := this
              omega
          rw [readRowU32]
          apply List.ext_get
          · simp [hlen]
          · intro i h1 h2
            rw [List.get_eq_getElem, List.get_eq_getElem, List.getElem_map,
              List.getElem_range]
            have hi : i < size := by simpa using h1
            have hfx0 := hfix i hi 0 (by omega)
            have hfx1 := hfix i hi 1 (by omega)
            have hfx2 := hfix i hi 2 (by omega)
            have hfx3 := hfix i hi 3 (by omega)
            rw [show r * size * 4 + 4 * i + 0 = r * size * 4 + 4 * i
              from by omega] at hfx0
            rw [hfx0, hfx1, hfx2, hfx3]
            rw [← hf1]
            have hrt := writeFlat_read rec2 f0 (r * size * 4) i
              (by omega) hbound
            rw [hrt]
            rw [List.getD_eq_getElem _ _ (by omega)]
      · exact ih (fun row hrow => hU row (List.mem_cons_of_mem _ hrow))
          f1 f h (by simp [hnd.2]) r hrmem

/-- C5: every row the apsp fan-out computes reads back, from the produced
cost-matrix file, exactly as the distance vector of an `sssp` run from the
vertex of that slot.  `apspFile` folds the positioned per-row writes (at
byte offset `row * size * 4`) in any order; a produced file (`some f`)
means every row's `get_dist(i+1).unwrap()` succeeded. -/
theorem C5_apsp_row_equals_sssp :
    ∀ (σ ρ : Type) (Q : DKImpl σ ρ) (L : DKLawsOwned Q) (g : NeighborList)
      (size : ℕ) (rows : List ℕ) (f : ℕ → ℕ),
      GraphWF g → sumW g < U32LIM → size = g.length →
      rows.Nodup → (∀ r2 ∈ rows, r2 + 1 ≤ size) →
      apspFile Q g size rows = some f →
      ∀ r ∈ rows, ∃ rec, apspRecord Q g size r = some rec ∧
        readRowU32 f size r = rec ∧ rec.length = size ∧
        ∀ i, i < size → rec.get? i = Shell.get_dist (ownedShell Q)
          (sssp (ownedShell Q) (OwnedSt.init (ρ := ρ) Q (r + 1)) g)
          (i + 1) := by
  intro σ ρ Q L g size rows f hg hsum hsize hnd hrows hfile r hr
  have hU : ∀ row ∈ rows, ∀ rec i d, apspRecord Q g size row = some rec →
      rec.get? i = some d → d < U32LIM := by
    intro row hrow rec i d hrec hget
    have hilt : i < rec.length := by
      by_contra hc
      rw [List.get?_eq_none.mpr (by omega)] at hget
      simp at hget
    obtain ⟨hlen, hpt⟩ := apspRecord_spec Q g size row rec hrec
    have := hpt i (by omega)
    rw [hget] at this
    exact owned_get_dist_lt Q L hg hsum (by omega)
      (by rw [← hsize]; exact hrows row hrow) (i + 1) d this.symm
  obtain ⟨rec, hrec, hread⟩ := apspFold_row Q g size rows hU
    (fun _ => 0) f hfile (by simpa using hnd) r hr
  obtain ⟨hlen, hpt⟩ := apspRecord_spec Q g size r rec hrec
  exact ⟨rec, hrec, hread, hlen, hpt⟩

theorem C5_apsp_row_equals_sssp_witness :
    GraphWF s2graph ∧ sumW s2graph < U32LIM ∧ (3 : ℕ) = s2graph.length ∧
    ([0] : List ℕ).Nodup ∧ (∀ r2 ∈ ([0] : List ℕ), r2 + 1 ≤ 3) ∧
    ∃ f, apspFile canImpl s2graph 3 [0] = some f ∧
      ∃ rec, apspRecord canImpl s2graph 3 0 = some rec ∧
        readRowU32 f 3 0 = rec := by
  refine ⟨s2graph_wf, s2graph_sum, by decide, by decide, by decide, ?_⟩
  cases hfile : apspFile canImpl s2graph 3 [0] with
  | none =>
    have : (apspFile canImpl s2graph 3 [0]).isSome = true := by decide
    rw [hfile] at this
    simp at this
  | some f =>
    refine ⟨f, rfl, ?_⟩
    obtain ⟨rec, hrec, hread, _, _⟩ :=
      C5_apsp_row_equals_sssp CanQSt ℕ canImpl canLaws s2graph 3 [0] f
        s2graph_wf s2graph_sum (by decide) (by decide) (by decide) hfile
        0 (by simp)
    exact ⟨rec, hrec, hread⟩

theorem forLoop_peel {f : ℕ → (ℕ → ℕ) → (ℕ → ℕ)}
    (hmono : ∀ j x idx, f j x idx ≤ x idx) :
    ∀ (n k : ℕ), k < n → ∀ (a : ℕ → ℕ) (idx : ℕ),
      forLoop n f a idx ≤ f k (forLoop k f a) idx := by
  intro n
  induction n with
  | zero => intro k hk; omega
  | succ n ih =>
    intro k hk a idx
    rw [forLoop]
    by_cases hkn : k = n
    · subst hkn
      exact le_refl _
    · exact le_trans (hmono n _ idx) (ih k (by omega) a idx)

theorem forLoop_mono {f : ℕ → (ℕ → ℕ) → (ℕ → ℕ)}
    (hmono : ∀ j x idx, f j x idx ≤ x idx) :
    ∀ (n : ℕ) (a : ℕ → ℕ) (idx : ℕ), forLoop n f a idx ≤ a idx := by
  intro n
  induction n with
  | zero => intro a idx; exact le_refl _
  | succ n ih =>
    intro a idx
    rw [forLoop]
    exact le_trans (hmono n _ idx) (ih a idx)

theorem forLoop_inv {α : Type} {P : α → Prop} {f : ℕ → α → α} :
    ∀ (n : ℕ) (a : α), (∀ k, k < n → ∀ x, P x → P (f k x)) → P a →
      P (forLoop n f a) := by
  intro n
  induction n with
  | zero => intro a _ h0; exact h0
  | succ n ih =>
    intro a hstep h0
    rw [forLoop]
    exact hstep n (by omega) _ (ih a (fun k hk => hstep k (by omega)) h0)

theorem wfUpd_mono (B : ℕ) (b : ℕ → ℕ) (k i j : ℕ) (m : ℕ → ℕ) (idx : ℕ) :
    wfUpd B b k i j m idx ≤ m idx := by
  rw [wfUpd]
  by_cases h : idx = B * i + j
  · rw [if_pos h, h]
    exact min_le_left _ _
  · rw [if_neg h]

theorem diag_unique {B i l : ℕ} (h : i * B + i = l * B + l) : i = l := by
  have h1 : i * (B + 1) = l * (B + 1) := by
    have e1 : i * (B + 1) = i * B + i := by ring
    have e2 : l * (B + 1) = l * B + l := by ring
    rw [e1, e2, h]
  exact Nat.eq_of_mul_eq_mul_right (by omega) h1

theorem g2m_empty_diag (B row col : ℕ) :
    ∀ (i : ℕ), i < B → graph2matrix B [] row col (i * B + i) = 0 := by
  have hred : graph2matrix B [] row col
      = forLoop B (fun i m => fun idx => if idx = i * B + i then 0 else m idx)
        (fun _ => u32max) := rfl
  rw [hred]
  have haux : ∀ (n : ℕ) (m0 : ℕ → ℕ) (i : ℕ), i < n →
      forLoop n (fun i m => fun idx => if idx = i * B + i then 0 else m idx)
        m0 (i * B + i) = 0 := by
    intro n
    induction n with
    | zero => intro m0 i hi; omega
    | succ n ih =>
      intro m0 i hi
      rw [forLoop]
      by_cases hin : i = n
      · subst hin
        simp
      · show (if i * B + i = n * B + n then 0 else _) = 0
        rw [if_neg (fun hc => hin (diag_unique hc))]
        exact ih m0 i (by omega)
  exact fun i hi => haux B _ i hi

theorem g2m_empty_off (B row col : ℕ) :
    ∀ (idx : ℕ), (∀ i, i < B → idx ≠ i * B + i) →
      graph2matrix B [] row col idx = u32max := by
  have hred : graph2matrix B [] row col
      = forLoop B (fun i m => fun idx => if idx = i * B + i then 0 else m idx)
        (fun _ => u32max) := rfl
  rw [hred]
  have haux : ∀ (n : ℕ) (m0 : ℕ → ℕ) (idx : ℕ),
      (∀ i, i < n → idx ≠ i * B + i) →
      forLoop n (fun i m => fun idx => if idx = i * B + i then 0 else m idx)
        m0 idx = m0 idx := by
    intro n
    induction n with
    | zero => intro m0 idx _; rfl
    | succ n ih =>
      intro m0 idx hoff
      rw [forLoop]
      show (if idx = n * B + n then 0 else _) = m0 idx
      rw [if_neg (hoff n (by omega))]
      exact ih m0 idx (fun i hi => hoff i (by omega))
  exact fun idx hoff => haux B _ idx hoff

theorem g2m_empty_zero_diag {B row col p : ℕ}
    (h : graph2matrix B [] row col p = 0) :
    ∃ l, l < B ∧ p = l * B + l := by
  by_contra hc
  push_neg at hc
  rw [g2m_empty_off B row col p (fun i hi => hc i hi)] at h
  rw [u32max] at h
  omega

theorem rowcol_unique {B k i l : ℕ} (hi : i < B) (hl : l < B)
    (h : B * k + i = l * B + l) : k = l ∧ i = l := by
  have h2 : B * k + i = B * l + l := by rw [h]; ring
  rcases Nat.lt_trichotomy k l with hlt | heq | hgt
  · exfalso
    have : B * (k + 1) ≤ B * l := Nat.mul_le_mul_left B (by omega)
    have e : B * (k + 1) = B * k + B := by ring
    omega
  · subst heq
    omega
  · exfalso
    have : B * (l + 1) ≤ B * k := Nat.mul_le_mul_left B (by omega)
    have e : B * (l + 1) = B * l + B := by ring
    omega

theorem g2m_empty_cases (B row col : ℕ) (p : ℕ) :
    graph2matrix B [] row col p = 0 ∨ graph2matrix B [] row col p = u32max := by
  by_cases hd : ∃ l, l < B ∧ p = l * B + l
  · obtain ⟨l, hl, hp⟩ := hd
    rw [hp]
    exact Or.inl (g2m_empty_diag B row col l hl)
  · push_neg at hd
    exact Or.inr (g2m_empty_off B row col p hd)

theorem g2m_empty_le (B row col : ℕ) (p : ℕ) :
    graph2matrix B [] row col p ≤ u32max := by
  rcases g2m_empty_cases B row col p with h | h
  · rw [h, u32max]
    omega
  · rw [h]

theorem transposeM_g2m_pt (B : ℕ) (hB : 0 < B) (a : ℕ → ℕ) (k j : ℕ)
    (hj : j < B) :
    transposeM B a (B * k + j) = a (B * j + k) := by
  rw [transposeM]
  have hmod : (B * k + j) % B = j := by
    rw [Nat.mul_add_mod]
    exact Nat.mod_eq_of_lt hj
  have hdiv : (B * k + j) / B = k := by
    rw [Nat.mul_add_div hB, Nat.div_eq_of_lt hj]
    omega
  rw [hmod, hdiv]

theorem wfBlockSat_g2m_empty (B row col : ℕ) (hB : 0 < B) :
    ∀ idx, wfBlockSat B (graph2matrix B [] row col)
        (transposeM B (graph2matrix B [] row col)) idx
      = graph2matrix B [] row col idx := by
  have hupd : ∀ k i j, k < B → i < B → j < B →
      ∀ m : ℕ → ℕ, (∀ idx, m idx = graph2matrix B [] row col idx) →
      ∀ idx, wfUpdSat B (transposeM B (graph2matrix B [] row col)) k i j m idx
        = graph2matrix B [] row col idx := by
    intro k i j hk hi hj m hm idx
    rw [wfUpdSat]
    by_cases hidx : idx = B * i + j
    · rw [if_pos hidx, hidx]
      rw [hm (B * i + j), hm (B * k + i)]
      rw [transposeM_g2m_pt B hB _ k j hj]
      by_cases hmax1 : graph2matrix B [] row col (B * k + i) = u32max
      · rw [hmax1, satAdd, if_pos (Or.inl rfl)]
        exact min_eq_left (g2m_empty_le B row col _)
      · by_cases hmax2 : graph2matrix B [] row col (B * j + k) = u32max
        · rw [hmax2, satAdd, if_pos (Or.inr rfl)]
          exact min_eq_left (g2m_empty_le B row col _)
        · have h1 : graph2matrix B [] row col (B * k + i) = 0 := by
            rcases g2m_empty_cases B row col (B * k + i) with h | h
            · exact h
            · exact absurd h hmax1
          have h2 : graph2matrix B [] row col (B * j + k) = 0 := by
            rcases g2m_empty_cases B row col (B * j + k) with h | h
            · exact h
            · exact absurd h hmax2
          obtain ⟨l1, hl1, hp1⟩ := g2m_empty_zero_diag h1
          obtain ⟨hk1, hi1⟩ := rowcol_unique hi hl1 hp1
          obtain ⟨l2, hl2, hp2⟩ := g2m_empty_zero_diag h2
          obtain ⟨hj2, hk2⟩ := rowcol_unique hk hl2 hp2
          have hij : i = j := by omega
          have hdg : graph2matrix B [] row col (B * i + j) = 0 := by
            rw [← hij]
            rw [show B * i + i = i * B + i from by ring]
            exact g2m_empty_diag B row col i hi
          rw [h1, h2, hdg, satAdd]
          rw [if_neg (by rw [u32max]; omega)]
          rfl
    · rw [if_neg hidx]
      exact hm idx
  intro idx
  have hinv := forLoop_inv (P := fun m : ℕ → ℕ =>
      ∀ idx, m idx = graph2matrix B [] row col idx) B
    (graph2matrix B [] row col)
    (fun k hk m2 hm2 =>
      forLoop_inv (P := fun m : ℕ → ℕ =>
          ∀ idx, m idx = graph2matrix B [] row col idx) B m2
        (fun i hi m3 hm3 =>
          forLoop_inv (P := fun m : ℕ → ℕ =>
              ∀ idx, m idx = graph2matrix B [] row col idx) B m3
            (fun j hj m4 hm4 => hupd k i j hk hi hj m4 hm4) hm3) hm2)
    (fun _ => rfl)
  exact hinv idx

theorem wfRow_mono (B : ℕ) (b : ℕ → ℕ) (k i : ℕ) (m : ℕ → ℕ) (idx : ℕ) :
    forLoop B (fun j m3 => wfUpd B b k i j m3) m idx ≤ m idx :=
  forLoop_mono (fun j x id2 => wfUpd_mono B b k i j x id2) B m idx

theorem wfPlane_mono (B : ℕ) (b : ℕ → ℕ) (k : ℕ) (m : ℕ → ℕ) (idx : ℕ) :
    forLoop B (fun i m2 => forLoop B (fun j m3 => wfUpd B b k i j m3) m2) m idx
      ≤ m idx :=
  forLoop_mono (fun i x id2 => wfRow_mono B b k i x id2) B m idx

theorem wfUpd00 (B : ℕ) (b m : ℕ → ℕ) (j idx : ℕ) :
    wfUpd B b 0 0 j m idx
      = if idx = j then min (m j) (add32 (m 0) (b j)) else m idx := by
  simp only [wfUpd, Nat.mul_zero, Nat.zero_add]

theorem wfUpd01 (B : ℕ) (b m : ℕ → ℕ) (j idx : ℕ) :
    wfUpd B b 0 1 j m idx
      = if idx = B + j then min (m (B + j)) (add32 (m 1) (b j)) else m idx := by
  simp only [wfUpd, Nat.mul_zero, Nat.zero_add, Nat.mul_one]

theorem diag_idx_lb {B i : ℕ} (h2 : 2 ≤ i) : 2 * B + 2 ≤ i * B + i := by
  have h : 2 * B ≤ i * B := Nat.mul_le_mul_right B h2
  omega

theorem off_of_small {B p : ℕ} (hB : 3 ≤ B) (hp0 : p ≠ 0) (hp1 : p ≠ B + 1)
    (hp2 : p < 2 * B + 2) : ∀ i, i < B → p ≠ i * B + i := by
  intro i hi hc
  rcases i with _ | i
  · simp at hc
    exact hp0 hc
  · rcases i with _ | n
    · apply hp1
      rw [hc]
      ring
    · have hge : 2 * B + 2 ≤ p := by
        rw [hc]
        exact diag_idx_lb (by omega)
      omega

theorem wfBlockAux_empty_wraps (B : ℕ) (hB : 3 ≤ B) :
    wfBlockAux B (graph2matrix B [] 0 0)
      (transposeM B (graph2matrix B [] 0 0)) (B + 2) ≤ u32max - 1 := by
  have hB0 : 0 < B := by omega
  have ha0 : graph2matrix B [] 0 0 0 = 0 := by
    have h := g2m_empty_diag B 0 0 0 hB0
    simpa using h
  have ha1 : graph2matrix B [] 0 0 1 = u32max :=
    g2m_empty_off B 0 0 1 (off_of_small hB (by omega) (by omega) (by omega))
  have haB : graph2matrix B [] 0 0 B = u32max :=
    g2m_empty_off B 0 0 B (off_of_small hB (by omega) (by omega) (by omega))
  have ha2B : graph2matrix B [] 0 0 (B * 2) = u32max :=
    g2m_empty_off B 0 0 (B * 2) (off_of_small hB (by omega) (by omega) (by omega))
  have hb0 : transposeM B (graph2matrix B [] 0 0) 0 = 0 := by
    have h := transposeM_g2m_pt B hB0 (graph2matrix B [] 0 0) 0 0 hB0
    simp only [Nat.mul_zero, Nat.zero_add] at h
    rw [h, ha0]
  have hb1 : transposeM B (graph2matrix B [] 0 0) 1 = u32max := by
    have h := transposeM_g2m_pt B hB0 (graph2matrix B [] 0 0) 0 1 (by omega)
    simp only [Nat.mul_zero, Nat.zero_add, Nat.mul_one, Nat.add_zero] at h
    rw [h, haB]
  have hb2 : transposeM B (graph2matrix B [] 0 0) 2 = u32max := by
    have h := transposeM_g2m_pt B hB0 (graph2matrix B [] 0 0) 0 2 (by omega)
    simp only [Nat.mul_zero, Nat.zero_add, Nat.add_zero] at h
    rw [h, ha2B]
  have hflow :
      forLoop B (fun j m3 =>
          wfUpd B (transposeM B (graph2matrix B [] 0 0)) 0 0 j m3)
        (graph2matrix B [] 0 0) 0 = 0 ∧
      forLoop B (fun j m3 =>
          wfUpd B (transposeM B (graph2matrix B [] 0 0)) 0 0 j m3)
        (graph2matrix B [] 0 0) 1 = u32max := by
    refine forLoop_inv
      (P := fun m : ℕ → ℕ => m 0 = 0 ∧ m 1 = u32max) B
      (graph2matrix B [] 0 0) ?_ ⟨ha0, ha1⟩
    intro j hj m hm
    obtain ⟨hm0, hm1⟩ := hm
    constructor
    · show wfUpd B (transposeM B (graph2matrix B [] 0 0)) 0 0 j m 0 = 0
      rw [wfUpd00]
      by_cases h0 : (0 : ℕ) = j
      · rw [if_pos h0]
        subst h0
        rw [hm0, hb0]
        decide
      · rw [if_neg h0]
        exact hm0
    · show wfUpd B (transposeM B (graph2matrix B [] 0 0)) 0 0 j m 1 = u32max
      rw [wfUpd00]
      by_cases h1 : (1 : ℕ) = j
      · rw [if_pos h1]
        subst h1
        rw [hm1, hm0, hb1]
        decide
      · rw [if_neg h1]
        exact hm1
  have hstepA : forLoop B
      (fun k m => forLoop B (fun i m2 => forLoop B (fun j m3 =>
        wfUpd B (transposeM B (graph2matrix B [] 0 0)) k i j m3) m2) m)
      (graph2matrix B [] 0 0) (B + 2)
      ≤ forLoop B (fun i m2 => forLoop B (fun j m3 =>
          wfUpd B (transposeM B (graph2matrix B [] 0 0)) 0 i j m3) m2)
        (graph2matrix B [] 0 0) (B + 2) :=
    forLoop_peel
      (fun k x idx => wfPlane_mono B (transposeM B (graph2matrix B [] 0 0)) k x idx)
      B 0 hB0 (graph2matrix B [] 0 0) (B + 2)
  have hstepB : forLoop B (fun i m2 => forLoop B (fun j m3 =>
        wfUpd B (transposeM B (graph2matrix B [] 0 0)) 0 i j m3) m2)
      (graph2matrix B [] 0 0) (B + 2)
      ≤ forLoop B (fun j m3 =>
          wfUpd B (transposeM B (graph2matrix B [] 0 0)) 0 1 j m3)
        (forLoop B (fun j m3 =>
          wfUpd B (transposeM B (graph2matrix B [] 0 0)) 0 0 j m3)
          (graph2matrix B [] 0 0)) (B + 2) :=
    forLoop_peel
      (fun i x idx => wfRow_mono B (transposeM B (graph2matrix B [] 0 0)) 0 i x idx)
      B 1 (by omega) (graph2matrix B [] 0 0) (B + 2)
  have hstepC : forLoop B (fun j m3 =>
        wfUpd B (transposeM B (graph2matrix B [] 0 0)) 0 1 j m3)
      (forLoop B (fun j m3 =>
        wfUpd B (transposeM B (graph2matrix B [] 0 0)) 0 0 j m3)
        (graph2matrix B [] 0 0)) (B + 2)
      ≤ wfUpd B (transposeM B (graph2matrix B [] 0 0)) 0 1 2
          (forLoop 2 (fun j m3 =>
            wfUpd B (transposeM B (graph2matrix B [] 0 0)) 0 1 j m3)
            (forLoop B (fun j m3 =>
              wfUpd B (transposeM B (graph2matrix B [] 0 0)) 0 0 j m3)
              (graph2matrix B [] 0 0))) (B + 2) :=
    forLoop_peel
      (fun j x idx => wfUpd_mono B (transposeM B (graph2matrix B [] 0 0)) 0 1 j x idx)
      B 2 (by omega) _ (B + 2)
  have hmid1 : forLoop 2 (fun j m3 =>
      wfUpd B (transposeM B (graph2matrix B [] 0 0)) 0 1 j m3)
      (forLoop B (fun j m3 =>
        wfUpd B (transposeM B (graph2matrix B [] 0 0)) 0 0 j m3)
        (graph2matrix B [] 0 0)) 1 = u32max := by
    show wfUpd B (transposeM B (graph2matrix B [] 0 0)) 0 1 1
        (wfUpd B (transposeM B (graph2matrix B [] 0 0)) 0 1 0
          (forLoop B (fun j m3 =>
            wfUpd B (transposeM B (graph2matrix B [] 0 0)) 0 0 j m3)
            (graph2matrix B [] 0 0))) 1 = u32max
    rw [wfUpd01, if_neg (by omega), wfUpd01, if_neg (by omega)]
    exact hflow.2
  have hfinal : wfUpd B (transposeM B (graph2matrix B [] 0 0)) 0 1 2
      (forLoop 2 (fun j m3 =>
        wfUpd B (transposeM B (graph2matrix B [] 0 0)) 0 1 j m3)
        (forLoop B (fun j m3 =>
          wfUpd B (transposeM B (graph2matrix B [] 0 0)) 0 0 j m3)
          (graph2matrix B [] 0 0))) (B + 2) ≤ u32max - 1 := by
    rw [wfUpd01, if_pos rfl, hmid1, hb2]
    have hw : add32 u32max u32max = u32max - 1 := by decide
    rw [hw]
    exact min_le_right _ _
  exact le_trans hstepA (le_trans hstepB (le_trans hstepC hfinal))

/-- C6: the claim requires that `wf_block` treat `u32::MAX` as infinity so
that entries never wrap around (the spec's saturating addition), which is
what the blocked-vs-repeated-SSSP matrix equality rests on.  The source
`wf_block` (all_pairs.rs) adds with plain wrapping u32 `+`.  Already on the
diagonal-phase call of `warshall_floyd` for a graph with no edges — block
`a = graph2matrix` of the empty edge list, second operand its transpose,
exactly as `wf_block(&w[k][k], transpose(&w[k][k]))` builds them — the
update at `(k,i,j) = (0,1,2)` computes `MAX + MAX`, wrapping to `2^32 - 2`,
so the entry the code produces at flat index `BLOCK_SIZE + 2` (entry (1,2)
of the block) drops strictly below `u32::MAX`, while the saturating
`wf_block` the spec demands leaves that entry at `u32::MAX`: with the
wrapping addition of the source, entries do wrap around and unreachable
pairs acquire spurious finite costs, refuting the claim. -/
theorem C6_wf_block_wraps_below_max :
    wf_block (graph2matrix BLOCK_SIZE [] 0 0)
        (transposeM BLOCK_SIZE (graph2matrix BLOCK_SIZE [] 0 0))
        (BLOCK_SIZE + 2)
      < u32max ∧
    wfBlockSat BLOCK_SIZE (graph2matrix BLOCK_SIZE [] 0 0)
        (transposeM BLOCK_SIZE (graph2matrix BLOCK_SIZE [] 0 0))
        (BLOCK_SIZE + 2)
      = u32max := by
  constructor
  · have h := wfBlockAux_empty_wraps BLOCK_SIZE (by decide)
    exact lt_of_le_of_lt h (by decide)
  · have h := wfBlockSat_g2m_empty BLOCK_SIZE 0 0 (by decide) (BLOCK_SIZE + 2)
    rw [h]
    exact g2m_empty_off BLOCK_SIZE 0 0 (BLOCK_SIZE + 2)
      (off_of_small (by decide) (by decide) (by decide) (by decide))
